import Mathlib

/-!
# Verification of the `tralloc` binary-tree memory allocator

Shallow embedding of `src/tralloc.c`: a boundary-tag heap allocator whose
free chunks are tracked by an intrusive, size-keyed binary search tree
(the "free-chunk index") embedded in the free chunks themselves.

Modelling conventions:
* Machine addresses and sizes are `Nat` (the code is LP64: `sizeof(intptr_t) = 8`,
  `sizeof(header) = 16` (a `size_t` and a padded `bool`), `sizeof(footer) = 8`,
  `sizeof(node) = 24` (three pointers)).
* The tree's left/right structure is an inductive tree of chunk header
  addresses (`HTree`); the key of a node is the `size` field of the chunk
  header at that address, looked up through a size environment `sz : Nat → Nat`.
  Parent pointers are modelled explicitly by a map `PM = Nat → Option Nat`
  which is updated exactly at the program points where the C code writes a
  `->parent` field, so parent/child coherence is a real proof obligation.
* The physical heap is a list of chunk records in address order; a record
  carries the header `size` field and the footer `size` field separately
  (`fsize`), so the "header.size == footer.size" invariant is a real
  proof obligation: each field is written exactly where the C writes it.
* The process-wide tie-breaking flags `equals_alternator` and
  `succ_pred_alternator` are threaded explicitly through the operations.
* `sbrk` is modelled by a program-break counter `brk`; `sbrk n` returns the
  old break and advances it by `n`, which is the only behavior the code
  relies on.  The code never checks `sbrk`'s result against the failure
  sentinel `(void * ) -1`; correspondingly the model places no constraint
  on `brk`.
-/

namespace Tralloc

/-! ## Struct sizes and padding constants (LP64) -/

/-- `sizeof(intptr_t)`: the machine word size, 8 bytes on LP64. -/
def intptrSize : Nat := 8

/-- `sizeof(header)`: a `size_t` plus a `bool` padded to alignment, 16 bytes. -/
def sizeofHeader : Nat := 16

/-- `sizeof(footer)`: a single `size_t`, 8 bytes. -/
def sizeofFooter : Nat := 8

/-- `sizeof(node)`: three pointers, 24 bytes. -/
def sizeofNode : Nat := 24

/-- `ceil_size` from `tralloc.c`:
`if(input % offset) return input - (input % offset) + offset; return input;` -/
def ceil_size (input offset : Nat) : Nat :=
  if input % offset ≠ 0 then input - input % offset + offset else input

/-- `ceil_size` with the C `size_t` arithmetic made explicit: the addition
in `input - (input % offset) + offset` is 64-bit unsigned and wraps modulo
`2 ^ 64` — at word offset, any `input > 2 ^ 64 - 8` comes back around
to 0.  (The subtraction never wraps: `input % offset ≤ input`.) -/
def ceil_size_w (input offset : Nat) : Nat :=
  if input % offset ≠ 0 then (input - input % offset + offset) % 2 ^ 64
  else input

/-- `header_pad = ceil_size(sizeof(header), sizeof(intptr_t))`. -/
def header_pad : Nat := ceil_size sizeofHeader intptrSize

/-- `footer_pad = ceil_size(sizeof(footer), sizeof(intptr_t))`. -/
def footer_pad : Nat := ceil_size sizeofFooter intptrSize

/-- `node_pad = ceil_size(sizeof(node), sizeof(intptr_t))`. -/
def node_pad : Nat := ceil_size sizeofNode intptrSize

theorem header_pad_eq : header_pad = 16 := by decide

theorem footer_pad_eq : footer_pad = 8 := by decide

theorem node_pad_eq : node_pad = 24 := by decide

/-! ## The free-chunk index -/

/-- The left/right shape of the free tree.  Each node is identified by the
address of the chunk header hosting it (the intrusive `node` struct lives in
the chunk's payload). -/
inductive HTree where
  | nil : HTree
  | node (addr : Nat) (left right : HTree) : HTree
deriving Repr, DecidableEq

/-- Parent-pointer map: the `parent` field of the intrusive node at each
header address (`none` models a NULL parent). -/
def PM : Type := Nat → Option Nat

/-- Point update of a parent map (a single `->parent = ...` store). -/
def pupd (pm : PM) (a : Nat) (v : Option Nat) : PM :=
  fun x => if x = a then v else pm x

/-- Addresses of all nodes in a tree (preorder). -/
def addrs : HTree → List Nat
  | .nil => []
  | .node x l r => x :: (addrs l ++ addrs r)

/-- Address of the root node, if any (`fake_root` always points here). -/
def rootAddr : HTree → Option Nat
  | .nil => none
  | .node x _ _ => some x

/-- The guarded store `if(child) header_to_node(child)->parent = v` used by
`remove_chunk` for the removed node's surviving children. -/
def pupdOptRoot (pm : PM) (t : HTree) (v : Option Nat) : PM :=
  match rootAddr t with
  | some c => pupd pm c v
  | none => pm

/-- `add_chunk(tree, to_add, parent_chunk)` from `tralloc.c`, with the size
environment `sz`, the parent map and `equals_alternator` threaded through.
Descends left on strictly smaller size, right on strictly larger size; on a
tie the side is chosen by the alternator, which is flipped after the
recursive call returns.  At the empty position the new node's `left`/`right`
are cleared and its `parent` is set to the current parent chunk.
(The C code also clears `to_add->in_use` here; the chunk-level step
functions below perform that store, see `trallocStep`/`trfreeStep`.) -/
def add_chunk (sz : Nat → Nat) : HTree → Nat → Option Nat → PM → Bool →
    HTree × PM × Bool
  | .nil, toAdd, parent, pm, alt =>
      (.node toAdd .nil .nil, pupd pm toAdd parent, alt)
  | .node y l r, toAdd, _, pm, alt =>
      if sz toAdd < sz y then
        let res := add_chunk sz l toAdd (some y) pm alt
        (.node y res.1 r, res.2.1, res.2.2)
      else if sz toAdd > sz y then
        let res := add_chunk sz r toAdd (some y) pm alt
        (.node y l res.1, res.2.1, res.2.2)
      else
        if alt then
          let res := add_chunk sz l toAdd (some y) pm alt
          (.node y res.1 r, res.2.1, !res.2.2)
        else
          let res := add_chunk sz r toAdd (some y) pm alt
          (.node y l res.1, res.2.1, !res.2.2)

/-- `find_largest`: follow `right` links to the end.  The C code assumes a
non-NULL argument; on `nil` we return the junk value `0` (never used under
that precondition). -/
def find_largest : HTree → Nat
  | .nil => 0
  | .node x _ r =>
      match r with
      | .nil => x
      | .node a l2 r2 => find_largest (.node a l2 r2)

/-- `find_smallest`: follow `left` links to the end. -/
def find_smallest : HTree → Nat
  | .nil => 0
  | .node x l _ =>
      match l with
      | .nil => x
      | .node a l2 r2 => find_smallest (.node a l2 r2)

/-- Effect of `remove_chunk` applied to the rightmost node of a subtree
(the replacement chosen by `find_largest`): the C code reaches that node
directly through its `parent` pointer and, since it has no right child,
splices its left child (if any) into its slot, reparenting it.  Returns the
subtree with the rightmost node removed, plus the parent-map writes. -/
def removeLargest : HTree → Option Nat → PM → HTree × PM
  | .nil, _, pm => (.nil, pm)
  | .node y l r, p, pm =>
      match r with
      | .nil =>
          match l with
          | .nil => (.nil, pm)
          | .node c cl cr => (.node c cl cr, pupd pm c p)
      | .node ry rl rr =>
          let res := removeLargest (.node ry rl rr) (some y) pm
          (.node y l res.1, res.2)

/-- Effect of `remove_chunk` applied to the leftmost node of a subtree
(the replacement chosen by `find_smallest`). -/
def removeSmallest : HTree → Option Nat → PM → HTree × PM
  | .nil, _, pm => (.nil, pm)
  | .node y l r, p, pm =>
      match l with
      | .nil =>
          match r with
          | .nil => (.nil, pm)
          | .node c cl cr => (.node c cl cr, pupd pm c p)
      | .node ly ll lr =>
          let res := removeSmallest (.node ly ll lr) (some y) pm
          (.node y res.1 r, res.2)

/-- `remove_chunk(to_remove)` from `tralloc.c`, for the node `y` with
children `l`, `r` and parent `p` (the C code reaches the node's parent
directly through the `parent` pointer; the callers below supply the node's
position).

* 0 children: the parent's child slot becomes empty.
* 1 child: the child is spliced up and reparented to `p`.
* 2 children: `find_replacement` first flips `succ_pred_alternator`
  (threaded here as `alt`), then picks the largest node of the left subtree
  or the smallest of the right; the replacement is removed recursively by
  `remove_chunk` (it has at most one child, so no further flip happens:
  this inner removal is `removeLargest`/`removeSmallest`), then takes over
  the removed node's parent and the post-removal children (the C re-reads
  `to_remove`'s child fields after the inner removal), which are reparented
  to it — in the C code's store order: `parent` (line 207), then the right
  child (line 211), then the left child (line 213). -/
def remove_chunk_at (y : Nat) (l r : HTree) (p : Option Nat) (pm : PM)
    (alt : Bool) : HTree × PM × Bool :=
  match l, r with
  | .nil, .nil => (.nil, pm, alt)
  | .nil, .node ry rl rr => (.node ry rl rr, pupd pm ry p, alt)
  | .node ly ll lr, .nil => (.node ly ll lr, pupd pm ly p, alt)
  | .node ly ll lr, .node ry rl rr =>
      match alt with
      | false =>
          let rep := find_largest (.node ly ll lr)
          let res := removeLargest (.node ly ll lr) (some y) pm
          let pm4 := pupd (pupd res.2 rep p) ry (some rep)
          (.node rep res.1 (.node ry rl rr),
           pupdOptRoot pm4 res.1 (some rep), true)
      | true =>
          let rep := find_smallest (.node ry rl rr)
          let res := removeSmallest (.node ry rl rr) (some y) pm
          let pm4 := pupdOptRoot (pupd res.2 rep p) res.1 (some rep)
          (.node rep (.node ly ll lr) res.1, pupd pm4 ly (some rep), false)

/-- Removal of the node with header address `x` from the subtree `t` whose
root has parent `p`.  The C code jumps to the node directly through its
`parent` back-pointer; in the functional tree we locate it by its address
(the same node, under the parent-coherence invariant proved below) and
apply `remove_chunk_at` there. -/
def remove_chunk : HTree → Nat → Option Nat → PM → Bool → HTree × PM × Bool
  | .nil, _, _, pm, alt => (.nil, pm, alt)
  | .node y l r, x, p, pm, alt =>
      if y = x then
        remove_chunk_at y l r p pm alt
      else
        let resl := remove_chunk l x (some y) pm alt
        let resr := remove_chunk r x (some y) resl.2.1 resl.2.2
        (.node y resl.1 resr.1, resr.2.1, resr.2.2)

/-- `remove_chunk_by_size(tree, size)` from `tralloc.c`: descend right while
the current node's size is strictly less than the request; at the first node
whose size is at least the request, call `remove_chunk` on it (which removes
that very node — modelled by `remove_chunk_at` at the current position) and
return it.  Returns `none` when the descent falls off the tree. -/
def remove_chunk_by_size (sz : Nat → Nat) :
    HTree → Nat → Option Nat → PM → Bool → Option Nat × HTree × PM × Bool
  | .nil, _, _, pm, alt => (none, .nil, pm, alt)
  | .node y l r, q, p, pm, alt =>
      if sz y < q then
        let res := remove_chunk_by_size sz r q (some y) pm alt
        (res.1, .node y l res.2.1, res.2.2.1, res.2.2.2)
      else
        let res := remove_chunk_at y l r p pm alt
        (some y, res.1, res.2.1, res.2.2)

/-- The node returned by the search policy: the first node on the
root-to-leaf right-descent path whose size satisfies the request. -/
def firstFit (sz : Nat → Nat) : HTree → Nat → Option Nat
  | .nil, _ => none
  | .node y _ r, q => if sz y < q then firstFit sz r q else some y

/-- The root-to-leaf path visited by `remove_chunk_by_size`: the current
node, then (only when its size is too small) the path in the right subtree. -/
def searchPath (sz : Nat → Nat) : HTree → Nat → List Nat
  | .nil, _ => []
  | .node y _ r, q => if sz y < q then y :: searchPath sz r q else [y]

/-! ## Specification predicates on the free-chunk index -/

/-- BST ordering by chunk size, with duplicates allowed on either side:
every size in a left subtree is at most the node's size, every size in a
right subtree is at least it. -/
def ord (sz : Nat → Nat) : HTree → Prop
  | .nil => True
  | .node x l r =>
      (∀ a ∈ addrs l, sz a ≤ sz x) ∧ (∀ a ∈ addrs r, sz x ≤ sz a) ∧
      ord sz l ∧ ord sz r

/-- Parent coherence: every node's stored `parent` pointer is the node
whose `left` or `right` pointer refers to it (`p` is the expected parent of
the subtree root; `none` for the tree root). -/
def pcoh (pm : PM) : HTree → Option Nat → Prop
  | .nil, _ => True
  | .node x l r, p => pm x = p ∧ pcoh pm l (some x) ∧ pcoh pm r (some x)

theorem pcoh_congr {pm1 : PM} (pm2 : PM) {t : HTree} {p : Option Nat}
    (h : ∀ a ∈ addrs t, pm1 a = pm2 a) : pcoh pm1 t p ↔ pcoh pm2 t p := by
  induction t generalizing p with
  | nil => simp [pcoh]
  | node x l r ihl ihr =>
      simp only [pcoh, addrs] at h ⊢
      rw [h x (by simp), ihl fun a ha => h a (by simp [ha]),
        ihr fun a ha => h a (by simp [ha])]

theorem ord_congr {sz1 sz2 : Nat → Nat} {t : HTree}
    (h : ∀ a ∈ addrs t, sz1 a = sz2 a) : ord sz1 t ↔ ord sz2 t := by
  induction t with
  | nil => simp [ord]
  | node x l r ihl ihr =>
      simp only [ord, addrs] at h ⊢
      have hx : sz1 x = sz2 x := h x (by simp)
      have hl : ∀ a ∈ addrs l, sz1 a = sz2 a := fun a ha => h a (by simp [ha])
      have hr : ∀ a ∈ addrs r, sz1 a = sz2 a := fun a ha => h a (by simp [ha])
      constructor
      · rintro ⟨h1, h2, h3, h4⟩
        exact ⟨fun a ha => by rw [← hl a ha, ← hx]; exact h1 a ha,
          fun a ha => by rw [← hr a ha, ← hx]; exact h2 a ha,
          (ihl hl).mp h3, (ihr hr).mp h4⟩
      · rintro ⟨h1, h2, h3, h4⟩
        exact ⟨fun a ha => by rw [hl a ha, hx]; exact h1 a ha,
          fun a ha => by rw [hr a ha, hx]; exact h2 a ha,
          (ihl hl).mpr h3, (ihr hr).mpr h4⟩

/-! ## Lemmas on `find_largest` and `find_smallest` -/

theorem find_largest_mem (x : Nat) (l r : HTree) :
    find_largest (.node x l r) ∈ addrs (.node x l r) := by
  induction r generalizing x l with
  | nil => simp [find_largest, addrs]
  | node ry rl rr _ ihr =>
      have := ihr ry rl
      simp only [find_largest, addrs] at this ⊢
      simp only [List.mem_cons, List.mem_append] at this ⊢
      tauto

theorem find_smallest_mem (x : Nat) (l r : HTree) :
    find_smallest (.node x l r) ∈ addrs (.node x l r) := by
  induction l generalizing x r with
  | nil => simp [find_smallest, addrs]
  | node ly ll lr ihl _ =>
      have := ihl ly lr
      simp only [find_smallest, addrs] at this ⊢
      simp only [List.mem_cons, List.mem_append] at this ⊢
      tauto

theorem find_largest_max {sz : Nat → Nat} (x : Nat) (l r : HTree)
    (h : ord sz (.node x l r)) :
    ∀ a ∈ addrs (.node x l r), sz a ≤ sz (find_largest (.node x l r)) := by
  induction r generalizing x l with
  | nil =>
      obtain ⟨h1, _, _, _⟩ := h
      intro a ha
      simp only [addrs, List.append_nil, List.mem_cons] at ha
      simp only [find_largest]
      rcases ha with rfl | ha
      · exact le_rfl
      · exact h1 a ha
  | node ry rl rr _ ihr =>
      obtain ⟨h1, h2, h3, h4⟩ := h
      intro a ha
      have hrec := ihr ry rl h4
      have hfl : find_largest (.node x l (.node ry rl rr)) =
          find_largest (.node ry rl rr) := by simp [find_largest]
      rw [hfl]
      simp only [addrs, List.mem_cons, List.mem_append] at ha
      have hx : sz x ≤ sz (find_largest (.node ry rl rr)) :=
        h2 _ (find_largest_mem ry rl rr)
      rcases ha with rfl | ha | ha
      · exact hx
      · exact le_trans (h1 a ha) hx
      · exact hrec a (by simp only [addrs, List.mem_cons, List.mem_append]; exact ha)

theorem find_smallest_min {sz : Nat → Nat} (x : Nat) (l r : HTree)
    (h : ord sz (.node x l r)) :
    ∀ a ∈ addrs (.node x l r), sz (find_smallest (.node x l r)) ≤ sz a := by
  induction l generalizing x r with
  | nil =>
      obtain ⟨_, h2, _, _⟩ := h
      intro a ha
      simp only [addrs, List.nil_append, List.mem_cons] at ha
      simp only [find_smallest]
      rcases ha with rfl | ha
      · exact le_rfl
      · exact h2 a ha
  | node ly ll lr ihl _ =>
      obtain ⟨h1, h2, h3, h4⟩ := h
      intro a ha
      have hrec := ihl ly lr h3
      have hfs : find_smallest (.node x (.node ly ll lr) r) =
          find_smallest (.node ly ll lr) := by simp [find_smallest]
      rw [hfs]
      simp only [addrs, List.mem_cons, List.mem_append] at ha
      have hx : sz (find_smallest (.node ly ll lr)) ≤ sz x :=
        h1 _ (find_smallest_mem ly ll lr)
      rcases ha with rfl | ha | ha
      · exact hx
      · exact hrec a (by simp only [addrs, List.mem_cons, List.mem_append]; exact ha)
      · exact le_trans hx (h2 a ha)

/-! ## Lemmas on `add_chunk` -/

theorem add_chunk_mem {sz : Nat → Nat} (t : HTree) (toAdd : Nat)
    (p : Option Nat) (pm : PM) (alt : Bool) (a : Nat) :
    a ∈ addrs (add_chunk sz t toAdd p pm alt).1 ↔ a = toAdd ∨ a ∈ addrs t := by
  induction t generalizing p pm alt with
  | nil => simp [add_chunk, addrs]
  | node y l r ihl ihr =>
      simp only [add_chunk]
      split
      · simp only [addrs, List.mem_cons, List.mem_append, ihl]
        tauto
      · split
        · simp only [addrs, List.mem_cons, List.mem_append, ihr]
          tauto
        · split
          · simp only [addrs, List.mem_cons, List.mem_append, ihl]
            tauto
          · simp only [addrs, List.mem_cons, List.mem_append, ihr]
            tauto

theorem add_chunk_shape {sz : Nat → Nat} (y : Nat) (l r : HTree)
    (toAdd : Nat) (p : Option Nat) (pm : PM) (alt : Bool) :
    ∃ l2 r2, (add_chunk sz (.node y l r) toAdd p pm alt).1 = .node y l2 r2 := by
  simp only [add_chunk]
  split
  · exact ⟨_, _, rfl⟩
  · split
    · exact ⟨_, _, rfl⟩
    · split
      · exact ⟨_, _, rfl⟩
      · exact ⟨_, _, rfl⟩

theorem add_chunk_pm_outside {sz : Nat → Nat} (t : HTree) (toAdd : Nat)
    (p : Option Nat) (pm : PM) (alt : Bool) (a : Nat) (ha : a ≠ toAdd) :
    (add_chunk sz t toAdd p pm alt).2.1 a = pm a := by
  induction t generalizing p pm alt with
  | nil => simp [add_chunk, pupd, ha]
  | node y l r ihl ihr =>
      simp only [add_chunk]
      split
      · exact ihl _ _ _
      · split
        · exact ihr _ _ _
        · split
          · exact ihl _ _ _
          · exact ihr _ _ _

theorem add_chunk_perm {sz : Nat → Nat} (t : HTree) (toAdd : Nat)
    (p : Option Nat) (pm : PM) (alt : Bool) :
    (addrs (add_chunk sz t toAdd p pm alt).1).Perm (toAdd :: addrs t) := by
  induction t generalizing p pm alt with
  | nil => simp [add_chunk, addrs]
  | node y l r ihl ihr =>
      simp only [add_chunk]
      have hleft : ∀ p2 pm2 alt2, (addrs
          (.node y (add_chunk sz l toAdd p2 pm2 alt2).1 r : HTree)).Perm
          (toAdd :: addrs (.node y l r)) := by
        intro p2 pm2 alt2
        exact (((ihl p2 pm2 alt2).append_right (addrs r)).cons y).trans
          (List.Perm.swap toAdd y (addrs l ++ addrs r))
      have hright : ∀ p2 pm2 alt2, (addrs
          (.node y l (add_chunk sz r toAdd p2 pm2 alt2).1 : HTree)).Perm
          (toAdd :: addrs (.node y l r)) := by
        intro p2 pm2 alt2
        exact ((((ihr p2 pm2 alt2).append_left (addrs l)).trans
          List.perm_middle).cons y).trans
          (List.Perm.swap toAdd y (addrs l ++ addrs r))
      split
      · exact hleft _ _ _
      · split
        · exact hright _ _ _
        · split
          · exact hleft _ _ _
          · exact hright _ _ _

theorem add_chunk_nodup {sz : Nat → Nat} (t : HTree) (toAdd : Nat)
    (p : Option Nat) (pm : PM) (alt : Bool) (hmem : toAdd ∉ addrs t)
    (hnd : (addrs t).Nodup) :
    (addrs (add_chunk sz t toAdd p pm alt).1).Nodup := by
  rw [(add_chunk_perm t toAdd p pm alt).nodup_iff]
  exact List.nodup_cons.mpr ⟨hmem, hnd⟩

theorem add_chunk_ord {sz : Nat → Nat} (t : HTree) (toAdd : Nat)
    (p : Option Nat) (pm : PM) (alt : Bool) (hord : ord sz t) :
    ord sz (add_chunk sz t toAdd p pm alt).1 := by
  induction t generalizing p pm alt with
  | nil => simp [add_chunk, ord, addrs]
  | node y l r ihl ihr =>
      obtain ⟨h1, h2, h3, h4⟩ := hord
      simp only [add_chunk]
      split
      · next hlt =>
        refine ⟨?_, h2, ihl _ _ _ h3, h4⟩
        intro a ha
        rw [add_chunk_mem] at ha
        rcases ha with rfl | ha
        · exact le_of_lt hlt
        · exact h1 a ha
      · split
        · next hgt =>
          refine ⟨h1, ?_, h3, ihr _ _ _ h4⟩
          intro a ha
          rw [add_chunk_mem] at ha
          rcases ha with rfl | ha
          · exact le_of_lt hgt
          · exact h2 a ha
        · next hnlt hngt =>
          have heq : sz toAdd = sz y := le_antisymm (not_lt.mp hngt) (not_lt.mp hnlt)
          split
          · refine ⟨?_, h2, ihl _ _ _ h3, h4⟩
            intro a ha
            rw [add_chunk_mem] at ha
            rcases ha with rfl | ha
            · exact le_of_eq heq
            · exact h1 a ha
          · refine ⟨h1, ?_, h3, ihr _ _ _ h4⟩
            intro a ha
            rw [add_chunk_mem] at ha
            rcases ha with rfl | ha
            · exact le_of_eq heq.symm
            · exact h2 a ha

theorem add_chunk_pcoh {sz : Nat → Nat} (t : HTree) (toAdd : Nat)
    (p : Option Nat) (pm : PM) (alt : Bool) (hmem : toAdd ∉ addrs t)
    (hp : pcoh pm t p) :
    pcoh (add_chunk sz t toAdd p pm alt).2.1 (add_chunk sz t toAdd p pm alt).1 p := by
  induction t generalizing p pm alt with
  | nil => simp [add_chunk, pcoh, pupd]
  | node y l r ihl ihr =>
      simp only [addrs, List.mem_cons, List.mem_append, not_or] at hmem
      obtain ⟨hm1, hm2, hm3⟩ := hmem
      obtain ⟨hc1, hc2, hc3⟩ := hp
      simp only [add_chunk]
      split
      · refine ⟨?_, ihl _ _ _ hm2 hc2, ?_⟩
        · rw [add_chunk_pm_outside _ _ _ _ _ _ (fun h => hm1 h.symm)]
          exact hc1
        · rw [pcoh_congr _ fun a ha =>
            add_chunk_pm_outside l toAdd (some y) pm alt a
              (fun h => hm3 (h ▸ ha))]
          exact hc3
      · split
        · refine ⟨?_, ?_, ihr _ _ _ hm3 hc3⟩
          · rw [add_chunk_pm_outside _ _ _ _ _ _ (fun h => hm1 h.symm)]
            exact hc1
          · rw [pcoh_congr _ fun a ha =>
              add_chunk_pm_outside r toAdd (some y) pm alt a
                (fun h => hm2 (h ▸ ha))]
            exact hc2
        · split
          · refine ⟨?_, ihl _ _ _ hm2 hc2, ?_⟩
            · rw [add_chunk_pm_outside _ _ _ _ _ _ (fun h => hm1 h.symm)]
              exact hc1
            · rw [pcoh_congr _ fun a ha =>
                add_chunk_pm_outside l toAdd (some y) pm alt a
                  (fun h => hm3 (h ▸ ha))]
              exact hc3
          · refine ⟨?_, ?_, ihr _ _ _ hm3 hc3⟩
            · rw [add_chunk_pm_outside _ _ _ _ _ _ (fun h => hm1 h.symm)]
              exact hc1
            · rw [pcoh_congr _ fun a ha =>
                add_chunk_pm_outside r toAdd (some y) pm alt a
                  (fun h => hm2 (h ▸ ha))]
              exact hc2

/-! ## Lemmas on `remove_chunk` -/

theorem mem_addrs_node {a y : Nat} {l r : HTree} :
    a ∈ addrs (.node y l r) ↔ a = y ∨ a ∈ addrs l ∨ a ∈ addrs r := by
  simp [addrs]

theorem nodup_node {y : Nat} {l r : HTree} :
    (addrs (.node y l r)).Nodup ↔
      y ∉ addrs l ∧ y ∉ addrs r ∧ (addrs l).Nodup ∧ (addrs r).Nodup ∧
      ∀ a ∈ addrs l, a ∉ addrs r := by
  simp only [addrs, List.nodup_cons, List.nodup_append, List.mem_append, not_or]
  constructor
  · rintro ⟨⟨h1, h2⟩, h3, h4, h5⟩
    exact ⟨h1, h2, h3, h4, h5⟩
  · rintro ⟨h1, h2, h3, h4, h5⟩
    exact ⟨⟨h1, h2⟩, h3, h4, h5⟩

theorem mem_addrs_nil {a : Nat} : a ∈ addrs .nil ↔ False := by
  simp [addrs]

theorem find_largest_leaf (x : Nat) (l : HTree) :
    find_largest (.node x l .nil) = x := rfl

theorem find_largest_step (x ry : Nat) (l rl rr : HTree) :
    find_largest (.node x l (.node ry rl rr)) =
      find_largest (.node ry rl rr) := rfl

theorem find_smallest_leaf (x : Nat) (r : HTree) :
    find_smallest (.node x .nil r) = x := rfl

theorem find_smallest_step (x ly : Nat) (ll lr r : HTree) :
    find_smallest (.node x (.node ly ll lr) r) =
      find_smallest (.node ly ll lr) := rfl

theorem removeLargest_leaf0 (y : Nat) (p : Option Nat) (pm : PM) :
    removeLargest (.node y .nil .nil) p pm = (.nil, pm) := rfl

theorem removeLargest_leaf1 (y c : Nat) (cl cr : HTree) (p : Option Nat)
    (pm : PM) : removeLargest (.node y (.node c cl cr) .nil) p pm =
      (.node c cl cr, pupd pm c p) := rfl

theorem removeLargest_step (y ry : Nat) (l rl rr : HTree) (p : Option Nat)
    (pm : PM) : removeLargest (.node y l (.node ry rl rr)) p pm =
      (.node y l (removeLargest (.node ry rl rr) (some y) pm).1,
       (removeLargest (.node ry rl rr) (some y) pm).2) := rfl

theorem removeSmallest_leaf0 (y : Nat) (p : Option Nat) (pm : PM) :
    removeSmallest (.node y .nil .nil) p pm = (.nil, pm) := rfl

theorem removeSmallest_leaf1 (y c : Nat) (cl cr : HTree) (p : Option Nat)
    (pm : PM) : removeSmallest (.node y .nil (.node c cl cr)) p pm =
      (.node c cl cr, pupd pm c p) := rfl

theorem removeSmallest_step (y ly : Nat) (ll lr r : HTree) (p : Option Nat)
    (pm : PM) : removeSmallest (.node y (.node ly ll lr) r) p pm =
      (.node y (removeSmallest (.node ly ll lr) (some y) pm).1 r,
       (removeSmallest (.node ly ll lr) (some y) pm).2) := rfl

theorem removeLargest_mem {y : Nat} {l r : HTree} (p : Option Nat) (pm : PM)
    (hnd : (addrs (.node y l r)).Nodup) (a : Nat) :
    a ∈ addrs (removeLargest (.node y l r) p pm).1 ↔
      a ∈ addrs (.node y l r) ∧ a ≠ find_largest (.node y l r) := by
  induction r generalizing y l p pm with
  | nil =>
      rw [nodup_node] at hnd
      obtain ⟨hy1, _, _, _, _⟩ := hnd
      rcases l with _ | ⟨c, cl, cr⟩
      · rw [removeLargest_leaf0, find_largest_leaf]
        simp only [mem_addrs_nil, mem_addrs_node, false_iff]
        rintro ⟨rfl | h | h, hne⟩
        · exact hne rfl
        · exact h
        · exact h
      · rw [removeLargest_leaf1, find_largest_leaf]
        simp only [mem_addrs_node, mem_addrs_nil]
        constructor
        · intro ha
          have ham : a ∈ addrs (.node c cl cr : HTree) := mem_addrs_node.mpr ha
          exact ⟨Or.inr (Or.inl (mem_addrs_node.mp ham)), fun h => hy1 (h ▸ ham)⟩
        · rintro ⟨rfl | ha | ha, hne⟩
          · exact absurd rfl hne
          · exact ha
          · exact absurd ha id
  | node ry rl rr _ ihr =>
      rw [nodup_node] at hnd
      obtain ⟨hy1, hy2, hndl, hndr, hdis⟩ := hnd
      have hflmem := find_largest_mem ry rl rr
      rw [removeLargest_step, find_largest_step]
      simp only [mem_addrs_node]
      rw [ihr _ _ hndr]
      rw [mem_addrs_node]
      constructor
      · rintro (rfl | ha | ⟨ha, hne⟩)
        · exact ⟨Or.inl rfl, fun h => hy2 (h ▸ hflmem)⟩
        · exact ⟨Or.inr (Or.inl ha), fun h => hdis a ha (h ▸ hflmem)⟩
        · exact ⟨Or.inr (Or.inr ha), hne⟩
      · rintro ⟨rfl | ha | ha, hne⟩
        · exact Or.inl rfl
        · exact Or.inr (Or.inl ha)
        · exact Or.inr (Or.inr ⟨ha, hne⟩)

theorem removeSmallest_mem {y : Nat} {l r : HTree} (p : Option Nat) (pm : PM)
    (hnd : (addrs (.node y l r)).Nodup) (a : Nat) :
    a ∈ addrs (removeSmallest (.node y l r) p pm).1 ↔
      a ∈ addrs (.node y l r) ∧ a ≠ find_smallest (.node y l r) := by
  induction l generalizing y r p pm with
  | nil =>
      rw [nodup_node] at hnd
      obtain ⟨_, hy2, _, _, _⟩ := hnd
      rcases r with _ | ⟨c, cl, cr⟩
      · rw [removeSmallest_leaf0, find_smallest_leaf]
        simp only [mem_addrs_nil, mem_addrs_node, false_iff]
        rintro ⟨rfl | h | h, hne⟩
        · exact hne rfl
        · exact h
        · exact h
      · rw [removeSmallest_leaf1, find_smallest_leaf]
        simp only [mem_addrs_node, mem_addrs_nil]
        constructor
        · intro ha
          have ham : a ∈ addrs (.node c cl cr : HTree) := mem_addrs_node.mpr ha
          exact ⟨Or.inr (Or.inr (mem_addrs_node.mp ham)),
            fun h => hy2 (h ▸ ham)⟩
        · rintro ⟨rfl | ha | ha, hne⟩
          · exact absurd rfl hne
          · exact absurd ha id
          · exact ha
  | node ly ll lr ihl _ =>
      rw [nodup_node] at hnd
      obtain ⟨hy1, hy2, hndl, hndr, hdis⟩ := hnd
      have hfsmem := find_smallest_mem ly ll lr
      rw [removeSmallest_step, find_smallest_step]
      simp only [mem_addrs_node]
      rw [ihl _ _ hndl]
      rw [mem_addrs_node]
      constructor
      · rintro (rfl | ⟨ha, hne⟩ | ha)
        · exact ⟨Or.inl rfl, fun h => hy1 (h ▸ hfsmem)⟩
        · exact ⟨Or.inr (Or.inl ha), hne⟩
        · exact ⟨Or.inr (Or.inr ha), fun h => hdis _ (h ▸ hfsmem) ha⟩
      · rintro ⟨rfl | ha | ha, hne⟩
        · exact Or.inl rfl
        · exact Or.inr (Or.inl ⟨ha, hne⟩)
        · exact Or.inr (Or.inr ha)

theorem removeLargest_nodup {y : Nat} {l r : HTree} {p : Option Nat} {pm : PM}
    (hnd : (addrs (.node y l r)).Nodup) :
    (addrs (removeLargest (.node y l r) p pm).1).Nodup := by
  induction r generalizing y l p pm with
  | nil =>
      have hnd2 := nodup_node.mp hnd
      rcases l with _ | ⟨c, cl, cr⟩
      · rw [removeLargest_leaf0]
        simp [addrs]
      · rw [removeLargest_leaf1]
        exact hnd2.2.2.1
  | node ry rl rr _ ihr =>
      obtain ⟨hy1, hy2, hndl, hndr, hdis⟩ := nodup_node.mp hnd
      rw [removeLargest_step]
      rw [nodup_node]
      refine ⟨hy1, ?_, hndl, ihr hndr, ?_⟩
      · intro hmem
        rw [removeLargest_mem _ _ hndr] at hmem
        exact hy2 hmem.1
      · intro a ha hmem
        rw [removeLargest_mem _ _ hndr] at hmem
        exact hdis a ha hmem.1

theorem removeSmallest_nodup {y : Nat} {l r : HTree} {p : Option Nat} {pm : PM}
    (hnd : (addrs (.node y l r)).Nodup) :
    (addrs (removeSmallest (.node y l r) p pm).1).Nodup := by
  induction l generalizing y r p pm with
  | nil =>
      have hnd2 := nodup_node.mp hnd
      rcases r with _ | ⟨c, cl, cr⟩
      · rw [removeSmallest_leaf0]
        simp [addrs]
      · rw [removeSmallest_leaf1]
        exact hnd2.2.2.2.1
  | node ly ll lr ihl _ =>
      obtain ⟨hy1, hy2, hndl, hndr, hdis⟩ := nodup_node.mp hnd
      rw [removeSmallest_step]
      rw [nodup_node]
      refine ⟨?_, hy2, ihl hndl, hndr, ?_⟩
      · intro hmem
        rw [removeSmallest_mem _ _ hndl] at hmem
        exact hy1 hmem.1
      · intro a ha hmem
        rw [removeSmallest_mem _ _ hndl] at ha
        exact hdis a ha.1 hmem

theorem removeLargest_ord {sz : Nat → Nat} {y : Nat} {l r : HTree}
    {p : Option Nat} {pm : PM} (hnd : (addrs (.node y l r)).Nodup)
    (hord : ord sz (.node y l r)) :
    ord sz (removeLargest (.node y l r) p pm).1 := by
  induction r generalizing y l p pm with
  | nil =>
      rcases l with _ | ⟨c, cl, cr⟩
      · rw [removeLargest_leaf0]
        exact trivial
      · rw [removeLargest_leaf1]
        exact hord.2.2.1
  | node ry rl rr _ ihr =>
      obtain ⟨hy1, hy2, hndl, hndr, hdis⟩ := nodup_node.mp hnd
      obtain ⟨h1, h2, h3, h4⟩ := hord
      rw [removeLargest_step]
      refine ⟨h1, ?_, h3, ihr hndr h4⟩
      intro a ha
      rw [removeLargest_mem _ _ hndr] at ha
      exact h2 a ha.1

theorem removeSmallest_ord {sz : Nat → Nat} {y : Nat} {l r : HTree}
    {p : Option Nat} {pm : PM} (hnd : (addrs (.node y l r)).Nodup)
    (hord : ord sz (.node y l r)) :
    ord sz (removeSmallest (.node y l r) p pm).1 := by
  induction l generalizing y r p pm with
  | nil =>
      rcases r with _ | ⟨c, cl, cr⟩
      · rw [removeSmallest_leaf0]
        exact trivial
      · rw [removeSmallest_leaf1]
        exact hord.2.2.2
  | node ly ll lr ihl _ =>
      obtain ⟨hy1, hy2, hndl, hndr, hdis⟩ := nodup_node.mp hnd
      obtain ⟨h1, h2, h3, h4⟩ := hord
      rw [removeSmallest_step]
      refine ⟨?_, h2, ihl hndl h3, h4⟩
      intro a ha
      rw [removeSmallest_mem _ _ hndl] at ha
      exact h1 a ha.1

theorem removeLargest_pm_outside {t : HTree} {p : Option Nat} {pm : PM}
    (a : Nat) (ha : a ∉ addrs t) : (removeLargest t p pm).2 a = pm a := by
  induction t generalizing p pm with
  | nil => rfl
  | node y l r ihl ihr =>
      rw [mem_addrs_node, not_or, not_or] at ha
      obtain ⟨ha1, ha2, ha3⟩ := ha
      rcases r with _ | ⟨ry, rl, rr⟩
      · rcases l with _ | ⟨c, cl, cr⟩
        · rfl
        · rw [removeLargest_leaf1]
          have hca : a ≠ c := by
            intro h
            exact ha2 (h ▸ mem_addrs_node.mpr (Or.inl rfl))
          simp [pupd, hca]
      · rw [removeLargest_step]
        exact ihr (by rw [mem_addrs_node, not_or, not_or] at ha3 ⊢; exact ha3)

theorem removeSmallest_pm_outside {t : HTree} {p : Option Nat} {pm : PM}
    (a : Nat) (ha : a ∉ addrs t) : (removeSmallest t p pm).2 a = pm a := by
  induction t generalizing p pm with
  | nil => rfl
  | node y l r ihl ihr =>
      rw [mem_addrs_node, not_or, not_or] at ha
      obtain ⟨ha1, ha2, ha3⟩ := ha
      rcases l with _ | ⟨c, cl, cr⟩
      · rcases r with _ | ⟨c, cl, cr⟩
        · rfl
        · rw [removeSmallest_leaf1]
          have hca : a ≠ c := by
            intro h
            exact ha3 (h ▸ mem_addrs_node.mpr (Or.inl rfl))
          simp [pupd, hca]
      · rw [removeSmallest_step]
        exact ihl (by rw [mem_addrs_node, not_or, not_or] at ha2 ⊢; exact ha2)

theorem removeLargest_pcoh {y : Nat} {l r : HTree} {p : Option Nat} {pm : PM}
    (hnd : (addrs (.node y l r)).Nodup) (hp : pcoh pm (.node y l r) p) :
    pcoh (removeLargest (.node y l r) p pm).2
      (removeLargest (.node y l r) p pm).1 p := by
  induction r generalizing y l p pm with
  | nil =>
      obtain ⟨hy1, hy2, hndl, hndr, hdis⟩ := nodup_node.mp hnd
      obtain ⟨hc1, hc2, hc3⟩ := hp
      rcases l with _ | ⟨c, cl, cr⟩
      · rw [removeLargest_leaf0]
        exact trivial
      · rw [removeLargest_leaf1]
        obtain ⟨hd1, hd2, hd3⟩ := hc2
        obtain ⟨hcnl, hcnr, hndcl, hndcr, hdisc⟩ := nodup_node.mp hndl
        refine ⟨by simp [pupd], ?_, ?_⟩
        · rw [pcoh_congr pm fun b hb => by
            have : b ≠ c := fun h => hcnl (h ▸ hb)
            simp [pupd, this]]
          exact hd2
        · rw [pcoh_congr pm fun b hb => by
            have : b ≠ c := fun h => hcnr (h ▸ hb)
            simp [pupd, this]]
          exact hd3
  | node ry rl rr _ ihr =>
      obtain ⟨hy1, hy2, hndl, hndr, hdis⟩ := nodup_node.mp hnd
      obtain ⟨hc1, hc2, hc3⟩ := hp
      rw [removeLargest_step]
      refine ⟨?_, ?_, ihr hndr hc3⟩
      · rw [removeLargest_pm_outside y hy2]
        exact hc1
      · rw [pcoh_congr pm fun b hb =>
          removeLargest_pm_outside b (fun hmem => hdis b hb hmem)]
        exact hc2

theorem removeSmallest_pcoh {y : Nat} {l r : HTree} {p : Option Nat} {pm : PM}
    (hnd : (addrs (.node y l r)).Nodup) (hp : pcoh pm (.node y l r) p) :
    pcoh (removeSmallest (.node y l r) p pm).2
      (removeSmallest (.node y l r) p pm).1 p := by
  induction l generalizing y r p pm with
  | nil =>
      obtain ⟨hy1, hy2, hndl, hndr, hdis⟩ := nodup_node.mp hnd
      obtain ⟨hc1, hc2, hc3⟩ := hp
      rcases r with _ | ⟨c, cl, cr⟩
      · rw [removeSmallest_leaf0]
        exact trivial
      · rw [removeSmallest_leaf1]
        obtain ⟨hd1, hd2, hd3⟩ := hc3
        obtain ⟨hcnl, hcnr, hndcl, hndcr, hdisc⟩ := nodup_node.mp hndr
        refine ⟨by simp [pupd], ?_, ?_⟩
        · rw [pcoh_congr pm fun b hb => by
            have : b ≠ c := fun h => hcnl (h ▸ hb)
            simp [pupd, this]]
          exact hd2
        · rw [pcoh_congr pm fun b hb => by
            have : b ≠ c := fun h => hcnr (h ▸ hb)
            simp [pupd, this]]
          exact hd3
  | node ly ll lr ihl _ =>
      obtain ⟨hy1, hy2, hndl, hndr, hdis⟩ := nodup_node.mp hnd
      obtain ⟨hc1, hc2, hc3⟩ := hp
      rw [removeSmallest_step]
      refine ⟨?_, ihl hndl hc2, ?_⟩
      · rw [removeSmallest_pm_outside y hy1]
        exact hc1
      · rw [pcoh_congr pm fun b hb =>
          removeSmallest_pm_outside b (fun hmem => hdis b hmem hb)]
        exact hc3

/-! ## Lemmas on `remove_chunk_at` -/

theorem pupd_self {pm : PM} {a : Nat} {v : Option Nat} : pupd pm a v a = v := by
  simp [pupd]

theorem pupd_other {pm : PM} {a b : Nat} {v : Option Nat} (h : b ≠ a) :
    pupd pm a v b = pm b := by
  simp [pupd, h]

theorem removeLargest_subset {t : HTree} {p : Option Nat} {pm : PM} :
    ∀ a ∈ addrs (removeLargest t p pm).1, a ∈ addrs t := by
  induction t generalizing p pm with
  | nil => intro a ha; exact ha
  | node y l r ihl ihr =>
      intro a ha
      rcases r with _ | ⟨ry, rl, rr⟩
      · rcases l with _ | ⟨c, cl, cr⟩
        · exact absurd ha (by rw [removeLargest_leaf0]; exact mem_addrs_nil.mp)
        · rw [removeLargest_leaf1] at ha
          rw [mem_addrs_node]
          exact Or.inr (Or.inl ha)
      · rw [removeLargest_step] at ha
        rw [mem_addrs_node] at ha ⊢
        rcases ha with rfl | ha | ha
        · exact Or.inl rfl
        · exact Or.inr (Or.inl ha)
        · exact Or.inr (Or.inr (ihr _ ha))

theorem removeSmallest_subset {t : HTree} {p : Option Nat} {pm : PM} :
    ∀ a ∈ addrs (removeSmallest t p pm).1, a ∈ addrs t := by
  induction t generalizing p pm with
  | nil => intro a ha; exact ha
  | node y l r ihl ihr =>
      intro a ha
      rcases l with _ | ⟨c, cl, cr⟩
      · rcases r with _ | ⟨c, cl, cr⟩
        · exact absurd ha (by rw [removeSmallest_leaf0]; exact mem_addrs_nil.mp)
        · rw [removeSmallest_leaf1] at ha
          rw [mem_addrs_node]
          exact Or.inr (Or.inr ha)
      · rw [removeSmallest_step] at ha
        rw [mem_addrs_node] at ha ⊢
        rcases ha with rfl | ha | ha
        · exact Or.inl rfl
        · exact Or.inr (Or.inl (ihl _ ha))
        · exact Or.inr (Or.inr ha)

theorem remove_chunk_at_00 (y : Nat) (p : Option Nat) (pm : PM) (alt : Bool) :
    remove_chunk_at y .nil .nil p pm alt = (.nil, pm, alt) := rfl

theorem remove_chunk_at_01 (y ry : Nat) (rl rr : HTree) (p : Option Nat)
    (pm : PM) (alt : Bool) :
    remove_chunk_at y .nil (.node ry rl rr) p pm alt =
      (.node ry rl rr, pupd pm ry p, alt) := rfl

theorem remove_chunk_at_10 (y ly : Nat) (ll lr : HTree) (p : Option Nat)
    (pm : PM) (alt : Bool) :
    remove_chunk_at y (.node ly ll lr) .nil p pm alt =
      (.node ly ll lr, pupd pm ly p, alt) := rfl

theorem remove_chunk_at_2F (y ly ry : Nat) (ll lr rl rr : HTree)
    (p : Option Nat) (pm : PM) :
    remove_chunk_at y (.node ly ll lr) (.node ry rl rr) p pm false =
      (.node (find_largest (.node ly ll lr))
         (removeLargest (.node ly ll lr) (some y) pm).1 (.node ry rl rr),
       pupdOptRoot
         (pupd (pupd (removeLargest (.node ly ll lr) (some y) pm).2
            (find_largest (.node ly ll lr)) p) ry
            (some (find_largest (.node ly ll lr))))
         (removeLargest (.node ly ll lr) (some y) pm).1
         (some (find_largest (.node ly ll lr))), true) := rfl

theorem remove_chunk_at_2T (y ly ry : Nat) (ll lr rl rr : HTree)
    (p : Option Nat) (pm : PM) :
    remove_chunk_at y (.node ly ll lr) (.node ry rl rr) p pm true =
      (.node (find_smallest (.node ry rl rr)) (.node ly ll lr)
         (removeSmallest (.node ry rl rr) (some y) pm).1,
       pupd
         (pupdOptRoot
           (pupd (removeSmallest (.node ry rl rr) (some y) pm).2
              (find_smallest (.node ry rl rr)) p)
           (removeSmallest (.node ry rl rr) (some y) pm).1
           (some (find_smallest (.node ry rl rr))))
         ly (some (find_smallest (.node ry rl rr))), false) := rfl

theorem remove_chunk_at_mem {y : Nat} {l r : HTree} {p : Option Nat}
    {pm : PM} {alt : Bool} (hnd : (addrs (.node y l r)).Nodup) (a : Nat) :
    a ∈ addrs (remove_chunk_at y l r p pm alt).1 ↔
      a ∈ addrs (.node y l r) ∧ a ≠ y := by
  obtain ⟨hy1, hy2, hndl, hndr, hdis⟩ := nodup_node.mp hnd
  rcases l with _ | ⟨ly, ll, lr⟩
  · rcases r with _ | ⟨ry, rl, rr⟩
    · rw [remove_chunk_at_00]
      simp only [mem_addrs_nil, mem_addrs_node, false_iff]
      rintro ⟨rfl | h | h, hne⟩
      · exact hne rfl
      · exact h
      · exact h
    · rw [remove_chunk_at_01]
      simp only [mem_addrs_node, mem_addrs_nil]
      constructor
      · intro ha
        have ham : a ∈ addrs (.node ry rl rr : HTree) := mem_addrs_node.mpr ha
        exact ⟨Or.inr (Or.inr (mem_addrs_node.mp ham)), fun h => hy2 (h ▸ ham)⟩
      · rintro ⟨rfl | ha | ha, hne⟩
        · exact absurd rfl hne
        · exact absurd ha id
        · exact ha
  · rcases r with _ | ⟨ry, rl, rr⟩
    · rw [remove_chunk_at_10]
      simp only [mem_addrs_node, mem_addrs_nil]
      constructor
      · intro ha
        have ham : a ∈ addrs (.node ly ll lr : HTree) := mem_addrs_node.mpr ha
        exact ⟨Or.inr (Or.inl (mem_addrs_node.mp ham)), fun h => hy1 (h ▸ ham)⟩
      · rintro ⟨rfl | ha | ha, hne⟩
        · exact absurd rfl hne
        · exact ha
        · exact absurd ha id
    · cases alt
      · rw [remove_chunk_at_2F]
        have hrepL := find_largest_mem ly ll lr
        simp only [mem_addrs_node]
        rw [removeLargest_mem _ _ hndl]
        rw [mem_addrs_node]
        constructor
        · rintro (rfl | ⟨ha, hne⟩ | ha)
          · exact ⟨Or.inr (Or.inl (mem_addrs_node.mp hrepL)),
              fun h => hy1 (h ▸ hrepL)⟩
          · refine ⟨Or.inr (Or.inl ha), ?_⟩
            rintro rfl
            exact hy1 (mem_addrs_node.mpr ha)
          · refine ⟨Or.inr (Or.inr ha), ?_⟩
            rintro rfl
            exact hy2 (mem_addrs_node.mpr ha)
        · rintro ⟨rfl | ha | ha, hne⟩
          · exact absurd rfl hne
          · by_cases hrep : a = find_largest (.node ly ll lr)
            · exact Or.inl hrep
            · exact Or.inr (Or.inl ⟨ha, hrep⟩)
          · exact Or.inr (Or.inr ha)
      · rw [remove_chunk_at_2T]
        have hrepR := find_smallest_mem ry rl rr
        simp only [mem_addrs_node]
        rw [removeSmallest_mem _ _ hndr]
        rw [mem_addrs_node]
        constructor
        · rintro (rfl | ha | ⟨ha, hne⟩)
          · exact ⟨Or.inr (Or.inr (mem_addrs_node.mp hrepR)),
              fun h => hy2 (h ▸ hrepR)⟩
          · refine ⟨Or.inr (Or.inl ha), ?_⟩
            rintro rfl
            exact hy1 (mem_addrs_node.mpr ha)
          · refine ⟨Or.inr (Or.inr ha), ?_⟩
            rintro rfl
            exact hy2 (mem_addrs_node.mpr ha)
        · rintro ⟨rfl | ha | ha, hne⟩
          · exact absurd rfl hne
          · exact Or.inr (Or.inl ha)
          · by_cases hrep : a = find_smallest (.node ry rl rr)
            · exact Or.inl hrep
            · exact Or.inr (Or.inr ⟨ha, hrep⟩)

theorem remove_chunk_at_nodup {y : Nat} {l r : HTree} {p : Option Nat}
    {pm : PM} {alt : Bool} (hnd : (addrs (.node y l r)).Nodup) :
    (addrs (remove_chunk_at y l r p pm alt).1).Nodup := by
  obtain ⟨hy1, hy2, hndl, hndr, hdis⟩ := nodup_node.mp hnd
  rcases l with _ | ⟨ly, ll, lr⟩
  · rcases r with _ | ⟨ry, rl, rr⟩
    · rw [remove_chunk_at_00]; simp [addrs]
    · rw [remove_chunk_at_01]; exact hndr
  · rcases r with _ | ⟨ry, rl, rr⟩
    · rw [remove_chunk_at_10]; exact hndl
    · cases alt
      · rw [remove_chunk_at_2F]
        rw [nodup_node]
        have hrepL := find_largest_mem ly ll lr
        refine ⟨?_, fun h => hdis _ hrepL h, removeLargest_nodup hndl, hndr, ?_⟩
        · intro hmem
          exact ((removeLargest_mem _ _ hndl _).mp hmem).2 rfl
        · intro a ha
          exact hdis a (removeLargest_subset a ha)
      · rw [remove_chunk_at_2T]
        rw [nodup_node]
        have hrepR := find_smallest_mem ry rl rr
        refine ⟨fun h => hdis _ h hrepR, ?_, hndl, removeSmallest_nodup hndr, ?_⟩
        · intro hmem
          exact ((removeSmallest_mem _ _ hndr _).mp hmem).2 rfl
        · intro a ha hmem
          exact hdis a ha (removeSmallest_subset a hmem)

theorem remove_chunk_at_ord {sz : Nat → Nat} {y : Nat} {l r : HTree}
    {p : Option Nat} {pm : PM} {alt : Bool}
    (hnd : (addrs (.node y l r)).Nodup) (hord : ord sz (.node y l r)) :
    ord sz (remove_chunk_at y l r p pm alt).1 := by
  obtain ⟨hy1, hy2, hndl, hndr, hdis⟩ := nodup_node.mp hnd
  obtain ⟨h1, h2, h3, h4⟩ := hord
  rcases l with _ | ⟨ly, ll, lr⟩
  · rcases r with _ | ⟨ry, rl, rr⟩
    · rw [remove_chunk_at_00]; exact trivial
    · rw [remove_chunk_at_01]; exact h4
  · rcases r with _ | ⟨ry, rl, rr⟩
    · rw [remove_chunk_at_10]; exact h3
    · cases alt
      · rw [remove_chunk_at_2F]
        have hrepL := find_largest_mem ly ll lr
        refine ⟨?_, ?_, removeLargest_ord hndl h3, h4⟩
        · intro a ha
          exact find_largest_max ly ll lr h3 a (removeLargest_subset a ha)
        · intro a ha
          exact le_trans (h1 _ hrepL) (h2 a ha)
      · rw [remove_chunk_at_2T]
        have hrepR := find_smallest_mem ry rl rr
        refine ⟨?_, ?_, h3, removeSmallest_ord hndr h4⟩
        · intro a ha
          exact le_trans (h1 a ha) (h2 _ hrepR)
        · intro a ha
          exact find_smallest_min ry rl rr h4 a (removeSmallest_subset a ha)

theorem remove_chunk_at_pm_outside {y : Nat} {l r : HTree} {p : Option Nat}
    {pm : PM} {alt : Bool} (a : Nat) (ha : a ∉ addrs (.node y l r)) :
    (remove_chunk_at y l r p pm alt).2.1 a = pm a := by
  rw [mem_addrs_node, not_or, not_or] at ha
  obtain ⟨ha1, ha2, ha3⟩ := ha
  rcases l with _ | ⟨ly, ll, lr⟩
  · rcases r with _ | ⟨ry, rl, rr⟩
    · rw [remove_chunk_at_00]
    · rw [remove_chunk_at_01]
      exact pupd_other fun h =>
        ha3 (h ▸ mem_addrs_node.mpr (Or.inl rfl))
  · rcases r with _ | ⟨ry, rl, rr⟩
    · rw [remove_chunk_at_10]
      exact pupd_other fun h =>
        ha2 (h ▸ mem_addrs_node.mpr (Or.inl rfl))
    · cases alt
      · have hrepL := find_largest_mem ly ll lr
        have e1 : (removeLargest (.node ly ll lr) (some y) pm).2 a = pm a :=
          removeLargest_pm_outside a ha2
        have e2 : pupd (removeLargest (.node ly ll lr) (some y) pm).2
            (find_largest (.node ly ll lr)) p a = pm a :=
          (pupd_other fun h : a = find_largest (.node ly ll lr) => ha2 (h ▸ hrepL)).trans e1
        have e3 : pupd (pupd (removeLargest (.node ly ll lr) (some y) pm).2
            (find_largest (.node ly ll lr)) p) ry
            (some (find_largest (.node ly ll lr))) a = pm a :=
          (pupd_other fun h : a = ry =>
            ha3 (h ▸ mem_addrs_node.mpr (Or.inl rfl))).trans e2
        have e4 : pupdOptRoot
            (pupd (pupd (removeLargest (.node ly ll lr) (some y) pm).2
               (find_largest (.node ly ll lr)) p) ry
               (some (find_largest (.node ly ll lr))))
            (removeLargest (.node ly ll lr) (some y) pm).1
            (some (find_largest (.node ly ll lr))) a = pm a := by
          unfold pupdOptRoot
          rcases hres : (removeLargest (.node ly ll lr) (some y) pm).1 with
            _ | ⟨c, cl, cr⟩
          · exact e3
          · have hc : c ∈ addrs (removeLargest (.node ly ll lr) (some y) pm).1 := by
              rw [hres]; exact mem_addrs_node.mpr (Or.inl rfl)
            have hcL := removeLargest_subset c hc
            simp only [rootAddr]
            exact (pupd_other fun h : a = c => ha2 (h ▸ hcL)).trans e3
        exact e4
      · have hrepR := find_smallest_mem ry rl rr
        have e1 : (removeSmallest (.node ry rl rr) (some y) pm).2 a = pm a :=
          removeSmallest_pm_outside a ha3
        have e2 : pupd (removeSmallest (.node ry rl rr) (some y) pm).2
            (find_smallest (.node ry rl rr)) p a = pm a :=
          (pupd_other fun h : a = find_smallest (.node ry rl rr) => ha3 (h ▸ hrepR)).trans e1
        have e3 : pupdOptRoot
            (pupd (removeSmallest (.node ry rl rr) (some y) pm).2
               (find_smallest (.node ry rl rr)) p)
            (removeSmallest (.node ry rl rr) (some y) pm).1
            (some (find_smallest (.node ry rl rr))) a = pm a := by
          unfold pupdOptRoot
          rcases hres : (removeSmallest (.node ry rl rr) (some y) pm).1 with
            _ | ⟨c, cl, cr⟩
          · exact e2
          · have hc : c ∈ addrs (removeSmallest (.node ry rl rr) (some y) pm).1 := by
              rw [hres]; exact mem_addrs_node.mpr (Or.inl rfl)
            have hcR := removeSmallest_subset c hc
            simp only [rootAddr]
            exact (pupd_other fun h : a = c => ha3 (h ▸ hcR)).trans e2
        have e4 : pupd (pupdOptRoot
            (pupd (removeSmallest (.node ry rl rr) (some y) pm).2
               (find_smallest (.node ry rl rr)) p)
            (removeSmallest (.node ry rl rr) (some y) pm).1
            (some (find_smallest (.node ry rl rr)))) ly
            (some (find_smallest (.node ry rl rr))) a = pm a :=
          (pupd_other fun h : a = ly =>
            ha2 (h ▸ mem_addrs_node.mpr (Or.inl rfl))).trans e3
        exact e4

theorem pupdOptRoot_not_mem {pm : PM} {t : HTree} {v : Option Nat} {b : Nat}
    (hb : b ∉ addrs t) : pupdOptRoot pm t v b = pm b := by
  rcases t with _ | ⟨c, cl, cr⟩
  · rfl
  · have : b ≠ c := fun h => hb (h ▸ mem_addrs_node.mpr (Or.inl rfl))
    simp only [pupdOptRoot, rootAddr]
    exact pupd_other this

theorem remove_chunk_at_pcoh {y : Nat} {l r : HTree} {p : Option Nat}
    {pm : PM} {alt : Bool} (hnd : (addrs (.node y l r)).Nodup)
    (hp : pcoh pm (.node y l r) p) :
    pcoh (remove_chunk_at y l r p pm alt).2.1
      (remove_chunk_at y l r p pm alt).1 p := by
  obtain ⟨hy1, hy2, hndl, hndr, hdis⟩ := nodup_node.mp hnd
  obtain ⟨hc1, hc2, hc3⟩ := hp
  rcases l with _ | ⟨ly, ll, lr⟩
  · rcases r with _ | ⟨ry, rl, rr⟩
    · rw [remove_chunk_at_00]
      exact trivial
    · rw [remove_chunk_at_01]
      obtain ⟨hd1, hd2, hd3⟩ := hc3
      obtain ⟨hrn1, hrn2, hndrl, hndrr, hdisr⟩ := nodup_node.mp hndr
      refine ⟨pupd_self, ?_, ?_⟩
      · rw [pcoh_congr pm fun b hb =>
          pupd_other fun h : b = ry => hrn1 (h ▸ hb)]
        exact hd2
      · rw [pcoh_congr pm fun b hb =>
          pupd_other fun h : b = ry => hrn2 (h ▸ hb)]
        exact hd3
  · rcases r with _ | ⟨ry, rl, rr⟩
    · rw [remove_chunk_at_10]
      obtain ⟨hd1, hd2, hd3⟩ := hc2
      obtain ⟨hln1, hln2, hndll, hndlr, hdisl⟩ := nodup_node.mp hndl
      refine ⟨pupd_self, ?_, ?_⟩
      · rw [pcoh_congr pm fun b hb =>
          pupd_other fun h : b = ly => hln1 (h ▸ hb)]
        exact hd2
      · rw [pcoh_congr pm fun b hb =>
          pupd_other fun h : b = ly => hln2 (h ▸ hb)]
        exact hd3
    · cases alt
      · -- predecessor branch
        rw [remove_chunk_at_2F]
        have hrepL := find_largest_mem ly ll lr
        have hpc : pcoh (removeLargest (.node ly ll lr) (some y) pm).2
            (removeLargest (.node ly ll lr) (some y) pm).1 (some y) :=
          removeLargest_pcoh hndl hc2
        have hmemres := fun b => removeLargest_mem (some y) pm hndl b
        have hndres : (addrs (removeLargest (.node ly ll lr) (some y) pm).1).Nodup :=
          removeLargest_nodup hndl
        have hrepry : find_largest (.node ly ll lr) ≠ ry :=
          fun h => hdis _ hrepL (h ▸ mem_addrs_node.mpr (Or.inl rfl))
        obtain ⟨hr1, hr2, hr3⟩ := hc3
        obtain ⟨hrn1, hrn2, hndrl, hndrr, hdisr⟩ := nodup_node.mp hndr
        -- agreement of the final parent map with `res.2` inside `res.1`
        -- minus its root, and with `pm` inside `rl`/`rr`
        refine ⟨?_, ?_, ?_⟩
        · -- the replacement's parent is the removed node's parent
          have h1 : (pupd (pupd (removeLargest (.node ly ll lr) (some y) pm).2
              (find_largest (.node ly ll lr)) p) ry
              (some (find_largest (.node ly ll lr))))
              (find_largest (.node ly ll lr)) = p :=
            (pupd_other hrepry).trans pupd_self
          rcases hres : (removeLargest (.node ly ll lr) (some y) pm).1 with
            _ | ⟨c, cl, cr⟩
          · simp only [pupdOptRoot, hres, rootAddr]
            exact h1
          · have hcmem : c ∈ addrs (removeLargest (.node ly ll lr) (some y) pm).1 := by
              rw [hres]; exact mem_addrs_node.mpr (Or.inl rfl)
            have hcne : find_largest (.node ly ll lr) ≠ c :=
              fun h => ((hmemres c).mp hcmem).2 h.symm
            simp only [pupdOptRoot, hres, rootAddr]
            exact (pupd_other hcne).trans h1
        · -- coherence inside the removed-from left subtree
          rcases hres : (removeLargest (.node ly ll lr) (some y) pm).1 with
            _ | ⟨c, cl, cr⟩
          · exact trivial
          · rw [hres] at hpc hndres
            obtain ⟨hq1, hq2, hq3⟩ := hpc
            obtain ⟨hcn1, hcn2, hndcl, hndcr, hdisc⟩ := nodup_node.mp hndres
            have hsub : ∀ b, b ∈ addrs (.node c cl cr : HTree) →
                b ∈ addrs (.node ly ll lr : HTree) := by
              intro b hb
              rw [← hres] at hb
              exact removeLargest_subset b hb
            have hagree : ∀ b, b ∈ addrs cl ∨ b ∈ addrs cr →
                pupdOptRoot (pupd (pupd
                    (removeLargest (.node ly ll lr) (some y) pm).2
                    (find_largest (.node ly ll lr)) p) ry
                    (some (find_largest (.node ly ll lr))))
                  (.node c cl cr) (some (find_largest (.node ly ll lr))) b =
                (removeLargest (.node ly ll lr) (some y) pm).2 b := by
              intro b hb
              have hbmem : b ∈ addrs (.node c cl cr : HTree) :=
                mem_addrs_node.mpr (Or.inr hb)
              have hbc : b ≠ c := by
                rintro rfl
                rcases hb with hb | hb
                · exact hcn1 hb
                · exact hcn2 hb
              have hbrep : b ≠ find_largest (.node ly ll lr) := by
                have := (hmemres b).mp (hres ▸ hbmem)
                exact this.2
              have hbry : b ≠ ry :=
                fun h => hdis b (hsub b hbmem) (h ▸ mem_addrs_node.mpr (Or.inl rfl))
              simp only [pupdOptRoot, rootAddr]
              rw [pupd_other hbc, pupd_other hbry, pupd_other hbrep]
            refine ⟨?_, ?_, ?_⟩
            · simp only [pupdOptRoot, rootAddr]
              exact pupd_self
            · rw [pcoh_congr _ fun b hb => hagree b (Or.inl hb)]
              exact hq2
            · rw [pcoh_congr _ fun b hb => hagree b (Or.inr hb)]
              exact hq3
        · -- coherence inside the untouched right subtree
          have hagree : ∀ b, b ∈ addrs rl ∨ b ∈ addrs rr →
              pupdOptRoot (pupd (pupd
                  (removeLargest (.node ly ll lr) (some y) pm).2
                  (find_largest (.node ly ll lr)) p) ry
                  (some (find_largest (.node ly ll lr))))
                (removeLargest (.node ly ll lr) (some y) pm).1
                (some (find_largest (.node ly ll lr))) b = pm b := by
            intro b hb
            have hbR : b ∈ addrs (.node ry rl rr : HTree) :=
              mem_addrs_node.mpr (Or.inr hb)
            have hbL : b ∉ addrs (.node ly ll lr : HTree) :=
              fun h => hdis b h hbR
            have hbry : b ≠ ry := by
              rintro rfl
              rcases hb with hb | hb
              · exact hrn1 hb
              · exact hrn2 hb
            have hbrep : b ≠ find_largest (.node ly ll lr) :=
              fun h => hbL (h ▸ hrepL)
            have hbres : b ∉ addrs (removeLargest (.node ly ll lr) (some y) pm).1 :=
              fun h => hbL (removeLargest_subset b h)
            rw [pupdOptRoot_not_mem hbres, pupd_other hbry, pupd_other hbrep]
            exact removeLargest_pm_outside b hbL
          have hry : pupdOptRoot (pupd (pupd
              (removeLargest (.node ly ll lr) (some y) pm).2
              (find_largest (.node ly ll lr)) p) ry
              (some (find_largest (.node ly ll lr))))
              (removeLargest (.node ly ll lr) (some y) pm).1
              (some (find_largest (.node ly ll lr))) ry =
              some (find_largest (.node ly ll lr)) := by
            have hryres : ry ∉ addrs (removeLargest (.node ly ll lr) (some y) pm).1 :=
              fun h => hdis ry (removeLargest_subset ry h)
                (mem_addrs_node.mpr (Or.inl rfl))
            rw [pupdOptRoot_not_mem hryres]
            exact pupd_self
          refine ⟨hry, ?_, ?_⟩
          · rw [pcoh_congr _ fun b hb => hagree b (Or.inl hb)]
            exact hr2
          · rw [pcoh_congr _ fun b hb => hagree b (Or.inr hb)]
            exact hr3
      · -- successor branch
        rw [remove_chunk_at_2T]
        have hrepR := find_smallest_mem ry rl rr
        have hpc : pcoh (removeSmallest (.node ry rl rr) (some y) pm).2
            (removeSmallest (.node ry rl rr) (some y) pm).1 (some y) :=
          removeSmallest_pcoh hndr hc3
        have hmemres := fun b => removeSmallest_mem (some y) pm hndr b
        have hndres : (addrs (removeSmallest (.node ry rl rr) (some y) pm).1).Nodup :=
          removeSmallest_nodup hndr
        have hreply : find_smallest (.node ry rl rr) ≠ ly :=
          fun h => hdis _ (h ▸ mem_addrs_node.mpr (Or.inl rfl)) hrepR
        obtain ⟨hl1, hl2, hl3⟩ := hc2
        obtain ⟨hln1, hln2, hndll, hndlr, hdisl⟩ := nodup_node.mp hndl
        refine ⟨?_, ?_, ?_⟩
        · -- the replacement's parent is the removed node's parent
          have h1 : pupd (removeSmallest (.node ry rl rr) (some y) pm).2
              (find_smallest (.node ry rl rr)) p
              (find_smallest (.node ry rl rr)) = p := pupd_self
          have h2 : pupdOptRoot (pupd
              (removeSmallest (.node ry rl rr) (some y) pm).2
              (find_smallest (.node ry rl rr)) p)
              (removeSmallest (.node ry rl rr) (some y) pm).1
              (some (find_smallest (.node ry rl rr)))
              (find_smallest (.node ry rl rr)) = p := by
            have hrepres : find_smallest (.node ry rl rr) ∉
                addrs (removeSmallest (.node ry rl rr) (some y) pm).1 :=
              fun h => ((hmemres _).mp h).2 rfl
            rw [pupdOptRoot_not_mem hrepres]
            exact h1
          exact (pupd_other hreply).trans h2
        · -- coherence inside the untouched left subtree
          have hagree : ∀ b, b ∈ addrs ll ∨ b ∈ addrs lr →
              pupd (pupdOptRoot (pupd
                  (removeSmallest (.node ry rl rr) (some y) pm).2
                  (find_smallest (.node ry rl rr)) p)
                  (removeSmallest (.node ry rl rr) (some y) pm).1
                  (some (find_smallest (.node ry rl rr)))) ly
                (some (find_smallest (.node ry rl rr))) b = pm b := by
            intro b hb
            have hbL : b ∈ addrs (.node ly ll lr : HTree) :=
              mem_addrs_node.mpr (Or.inr hb)
            have hbR : b ∉ addrs (.node ry rl rr : HTree) :=
              fun h => hdis b hbL h
            have hbly : b ≠ ly := by
              rintro rfl
              rcases hb with hb | hb
              · exact hln1 hb
              · exact hln2 hb
            have hbrep : b ≠ find_smallest (.node ry rl rr) :=
              fun h => hbR (h ▸ hrepR)
            have hbres : b ∉ addrs (removeSmallest (.node ry rl rr) (some y) pm).1 :=
              fun h => hbR (removeSmallest_subset b h)
            rw [pupd_other hbly, pupdOptRoot_not_mem hbres, pupd_other hbrep]
            exact removeSmallest_pm_outside b hbR
          have hly : pupd (pupdOptRoot (pupd
              (removeSmallest (.node ry rl rr) (some y) pm).2
              (find_smallest (.node ry rl rr)) p)
              (removeSmallest (.node ry rl rr) (some y) pm).1
              (some (find_smallest (.node ry rl rr)))) ly
              (some (find_smallest (.node ry rl rr))) ly =
              some (find_smallest (.node ry rl rr)) := pupd_self
          refine ⟨hly, ?_, ?_⟩
          · rw [pcoh_congr _ fun b hb => hagree b (Or.inl hb)]
            exact hl2
          · rw [pcoh_congr _ fun b hb => hagree b (Or.inr hb)]
            exact hl3
        · -- coherence inside the removed-from right subtree
          rcases hres : (removeSmallest (.node ry rl rr) (some y) pm).1 with
            _ | ⟨c, cl, cr⟩
          · exact trivial
          · rw [hres] at hpc hndres
            obtain ⟨hq1, hq2, hq3⟩ := hpc
            obtain ⟨hcn1, hcn2, hndcl, hndcr, hdisc⟩ := nodup_node.mp hndres
            have hsub : ∀ b, b ∈ addrs (.node c cl cr : HTree) →
                b ∈ addrs (.node ry rl rr : HTree) := by
              intro b hb
              rw [← hres] at hb
              exact removeSmallest_subset b hb
            have hagree : ∀ b, b ∈ addrs cl ∨ b ∈ addrs cr →
                pupd (pupdOptRoot (pupd
                    (removeSmallest (.node ry rl rr) (some y) pm).2
                    (find_smallest (.node ry rl rr)) p)
                    (.node c cl cr)
                    (some (find_smallest (.node ry rl rr)))) ly
                  (some (find_smallest (.node ry rl rr))) b =
                (removeSmallest (.node ry rl rr) (some y) pm).2 b := by
              intro b hb
              have hbmem : b ∈ addrs (.node c cl cr : HTree) :=
                mem_addrs_node.mpr (Or.inr hb)
              have hbc : b ≠ c := by
                rintro rfl
                rcases hb with hb | hb
                · exact hcn1 hb
                · exact hcn2 hb
              have hbrep : b ≠ find_smallest (.node ry rl rr) := by
                have := (hmemres b).mp (hres ▸ hbmem)
                exact this.2
              have hbly : b ≠ ly :=
                fun h => hdis b (h ▸ mem_addrs_node.mpr (Or.inl rfl))
                  (hsub b hbmem)
              simp only [pupdOptRoot, rootAddr]
              rw [pupd_other hbly, pupd_other hbc, pupd_other hbrep]
            have hchead : pupd (pupdOptRoot (pupd
                (removeSmallest (.node ry rl rr) (some y) pm).2
                (find_smallest (.node ry rl rr)) p)
                (.node c cl cr)
                (some (find_smallest (.node ry rl rr)))) ly
                (some (find_smallest (.node ry rl rr))) c =
                some (find_smallest (.node ry rl rr)) := by
              have hcly : c ≠ ly :=
                fun h => hdis c (h ▸ mem_addrs_node.mpr (Or.inl rfl))
                  (hsub c (mem_addrs_node.mpr (Or.inl rfl)))
              rw [pupd_other hcly]
              simp only [pupdOptRoot, rootAddr]
              exact pupd_self
            refine ⟨hchead, ?_, ?_⟩
            · rw [pcoh_congr _ fun b hb => hagree b (Or.inl hb)]
              exact hq2
            · rw [pcoh_congr _ fun b hb => hagree b (Or.inr hb)]
              exact hq3

/-! ## Lemmas on `remove_chunk` (removal by address) -/

theorem remove_chunk_not_mem {t : HTree} {x : Nat} {p : Option Nat} {pm : PM}
    {alt : Bool} (hx : x ∉ addrs t) :
    remove_chunk t x p pm alt = (t, pm, alt) := by
  induction t generalizing p pm alt with
  | nil => rfl
  | node y l r ihl ihr =>
      rw [mem_addrs_node, not_or, not_or] at hx
      obtain ⟨hx1, hx2, hx3⟩ := hx
      simp only [remove_chunk, if_neg (fun h : y = x => hx1 h.symm)]
      rw [ihl hx2, ihr hx3]

theorem remove_chunk_mem {t : HTree} {x : Nat} {p : Option Nat} {pm : PM}
    {alt : Bool} (hnd : (addrs t).Nodup) (hx : x ∈ addrs t) (a : Nat) :
    a ∈ addrs (remove_chunk t x p pm alt).1 ↔ a ∈ addrs t ∧ a ≠ x := by
  induction t generalizing p pm alt with
  | nil => exact absurd hx mem_addrs_nil.mp
  | node y l r ihl ihr =>
      obtain ⟨hy1, hy2, hndl, hndr, hdis⟩ := nodup_node.mp hnd
      by_cases hyx : y = x
      · subst hyx
        simp only [remove_chunk, if_pos rfl]
        exact remove_chunk_at_mem hnd a
      · simp only [remove_chunk, if_neg hyx]
        rw [mem_addrs_node] at hx
        rcases hx with rfl | hx | hx
        · exact absurd rfl hyx
        · have hxr : x ∉ addrs r := hdis x hx
          rw [remove_chunk_not_mem hxr]
          simp only [mem_addrs_node]
          rw [ihl hndl hx]
          constructor
          · rintro (rfl | ⟨ha, hne⟩ | ha)
            · exact ⟨Or.inl rfl, fun h => hyx h⟩
            · exact ⟨Or.inr (Or.inl ha), hne⟩
            · exact ⟨Or.inr (Or.inr ha), fun h => hdis x hx (h ▸ ha)⟩
          · rintro ⟨rfl | ha | ha, hne⟩
            · exact Or.inl rfl
            · exact Or.inr (Or.inl ⟨ha, hne⟩)
            · exact Or.inr (Or.inr ha)
        · have hxl : x ∉ addrs l := fun h => hdis x h hx
          rw [remove_chunk_not_mem hxl]
          simp only [mem_addrs_node]
          rw [ihr hndr hx]
          constructor
          · rintro (rfl | ha | ⟨ha, hne⟩)
            · exact ⟨Or.inl rfl, fun h => hyx h⟩
            · exact ⟨Or.inr (Or.inl ha), fun h => hdis a ha (h ▸ hx)⟩
            · exact ⟨Or.inr (Or.inr ha), hne⟩
          · rintro ⟨rfl | ha | ha, hne⟩
            · exact Or.inl rfl
            · exact Or.inr (Or.inl ha)
            · exact Or.inr (Or.inr ⟨ha, hne⟩)

theorem remove_chunk_nodup {t : HTree} {x : Nat} {p : Option Nat} {pm : PM}
    {alt : Bool} (hnd : (addrs t).Nodup) :
    (addrs (remove_chunk t x p pm alt).1).Nodup := by
  induction t generalizing p pm alt with
  | nil => exact hnd
  | node y l r ihl ihr =>
      obtain ⟨hy1, hy2, hndl, hndr, hdis⟩ := nodup_node.mp hnd
      by_cases hyx : y = x
      · subst hyx
        simp only [remove_chunk, if_pos rfl]
        exact remove_chunk_at_nodup hnd
      · simp only [remove_chunk, if_neg hyx]
        by_cases hxl : x ∈ addrs l
        · have hxr : x ∉ addrs r := hdis x hxl
          rw [remove_chunk_not_mem hxr]
          rw [nodup_node]
          refine ⟨?_, hy2, ihl hndl, hndr, ?_⟩
          · intro hmem
            exact hy1 ((remove_chunk_mem hndl hxl y).mp hmem).1
          · intro a ha
            exact hdis a ((remove_chunk_mem hndl hxl a).mp ha).1
        · rw [remove_chunk_not_mem hxl]
          by_cases hxr : x ∈ addrs r
          · rw [nodup_node]
            refine ⟨hy1, ?_, hndl, ihr hndr, ?_⟩
            · intro hmem
              exact hy2 ((remove_chunk_mem hndr hxr y).mp hmem).1
            · intro a ha hmem
              exact hdis a ha ((remove_chunk_mem hndr hxr a).mp hmem).1
          · rw [remove_chunk_not_mem hxr]
            exact hnd

theorem remove_chunk_ord {sz : Nat → Nat} {t : HTree} {x : Nat}
    {p : Option Nat} {pm : PM} {alt : Bool} (hnd : (addrs t).Nodup)
    (hord : ord sz t) : ord sz (remove_chunk t x p pm alt).1 := by
  induction t generalizing p pm alt with
  | nil => exact trivial
  | node y l r ihl ihr =>
      obtain ⟨hy1, hy2, hndl, hndr, hdis⟩ := nodup_node.mp hnd
      obtain ⟨h1, h2, h3, h4⟩ := hord
      by_cases hyx : y = x
      · subst hyx
        simp only [remove_chunk, if_pos rfl]
        exact remove_chunk_at_ord hnd ⟨h1, h2, h3, h4⟩
      · simp only [remove_chunk, if_neg hyx]
        by_cases hxl : x ∈ addrs l
        · rw [remove_chunk_not_mem (hdis x hxl)]
          refine ⟨?_, h2, ihl hndl h3, h4⟩
          intro a ha
          exact h1 a ((remove_chunk_mem hndl hxl a).mp ha).1
        · rw [remove_chunk_not_mem hxl]
          by_cases hxr : x ∈ addrs r
          · refine ⟨h1, ?_, h3, ihr hndr h4⟩
            intro a ha
            exact h2 a ((remove_chunk_mem hndr hxr a).mp ha).1
          · rw [remove_chunk_not_mem hxr]
            exact ⟨h1, h2, h3, h4⟩

theorem remove_chunk_pm_outside {t : HTree} {x : Nat} {p : Option Nat}
    {pm : PM} {alt : Bool} (a : Nat) (ha : a ∉ addrs t) :
    (remove_chunk t x p pm alt).2.1 a = pm a := by
  induction t generalizing p pm alt with
  | nil => rfl
  | node y l r ihl ihr =>
      have ha2 : a ∉ addrs l := fun h =>
        ha (mem_addrs_node.mpr (Or.inr (Or.inl h)))
      have ha3 : a ∉ addrs r := fun h =>
        ha (mem_addrs_node.mpr (Or.inr (Or.inr h)))
      by_cases hyx : y = x
      · subst hyx
        simp only [remove_chunk, if_pos rfl]
        exact remove_chunk_at_pm_outside a ha
      · simp only [remove_chunk, if_neg hyx]
        exact (ihr ha3).trans (ihl ha2)

theorem remove_chunk_pcoh {t : HTree} {x : Nat} {p : Option Nat} {pm : PM}
    {alt : Bool} (hnd : (addrs t).Nodup) (hp : pcoh pm t p) :
    pcoh (remove_chunk t x p pm alt).2.1 (remove_chunk t x p pm alt).1 p := by
  induction t generalizing p pm alt with
  | nil => exact trivial
  | node y l r ihl ihr =>
      obtain ⟨hy1, hy2, hndl, hndr, hdis⟩ := nodup_node.mp hnd
      obtain ⟨hc1, hc2, hc3⟩ := hp
      by_cases hyx : y = x
      · subst hyx
        simp only [remove_chunk, if_pos rfl]
        exact remove_chunk_at_pcoh hnd ⟨hc1, hc2, hc3⟩
      · simp only [remove_chunk, if_neg hyx]
        by_cases hxl : x ∈ addrs l
        · rw [remove_chunk_not_mem (hdis x hxl)]
          refine ⟨?_, ihl hndl hc2, ?_⟩
          · exact (remove_chunk_pm_outside y hy1).trans hc1
          · rw [pcoh_congr pm fun b hb =>
              remove_chunk_pm_outside b (fun h => hdis b h hb)]
            exact hc3
        · rw [remove_chunk_not_mem hxl]
          by_cases hxr : x ∈ addrs r
          · refine ⟨?_, ?_, ihr hndr hc3⟩
            · exact (remove_chunk_pm_outside y hy2).trans hc1
            · rw [pcoh_congr pm fun b hb =>
                remove_chunk_pm_outside b (hdis b hb)]
              exact hc2
          · rw [remove_chunk_not_mem hxr]
            exact ⟨hc1, hc2, hc3⟩

/-! ## Lemmas on `remove_chunk_by_size` and the first-fit search policy -/

theorem remove_chunk_self (y : Nat) (l r : HTree) (p : Option Nat) (pm : PM)
    (alt : Bool) : remove_chunk (.node y l r) y p pm alt =
      remove_chunk_at y l r p pm alt := by
  simp [remove_chunk]

theorem rcbs_lt {sz : Nat → Nat} {y q : Nat} {l r : HTree} {p : Option Nat}
    {pm : PM} {alt : Bool} (h : sz y < q) :
    remove_chunk_by_size sz (.node y l r) q p pm alt =
      ((remove_chunk_by_size sz r q (some y) pm alt).1,
       .node y l (remove_chunk_by_size sz r q (some y) pm alt).2.1,
       (remove_chunk_by_size sz r q (some y) pm alt).2.2.1,
       (remove_chunk_by_size sz r q (some y) pm alt).2.2.2) := by
  simp only [remove_chunk_by_size, if_pos h]

theorem rcbs_ge {sz : Nat → Nat} {y q : Nat} {l r : HTree} {p : Option Nat}
    {pm : PM} {alt : Bool} (h : ¬sz y < q) :
    remove_chunk_by_size sz (.node y l r) q p pm alt =
      (some y, (remove_chunk_at y l r p pm alt).1,
       (remove_chunk_at y l r p pm alt).2.1,
       (remove_chunk_at y l r p pm alt).2.2) := by
  simp only [remove_chunk_by_size, if_neg h]

theorem rcbs_result {sz : Nat → Nat} (t : HTree) (q : Nat) (p : Option Nat)
    (pm : PM) (alt : Bool) :
    (remove_chunk_by_size sz t q p pm alt).1 = firstFit sz t q := by
  induction t generalizing p pm alt with
  | nil => rfl
  | node y l r ihl ihr =>
      by_cases h : sz y < q
      · rw [rcbs_lt h]
        simp only [firstFit, if_pos h]
        exact ihr _ _ _
      · rw [rcbs_ge h]
        simp only [firstFit, if_neg h]

theorem firstFit_none_iff {sz : Nat → Nat} (t : HTree) (q : Nat) :
    firstFit sz t q = none ↔ ∀ a ∈ searchPath sz t q, sz a < q := by
  induction t with
  | nil => simp [firstFit, searchPath]
  | node y l r ihl ihr =>
      by_cases h : sz y < q
      · simp only [firstFit, searchPath, if_pos h]
        rw [ihr]
        constructor
        · intro hall a ha
          rcases List.mem_cons.mp ha with rfl | ha
          · exact h
          · exact hall a ha
        · intro hall a ha
          exact hall a (List.mem_cons_of_mem _ ha)
      · simp only [firstFit, searchPath, if_neg h]
        constructor
        · intro hcon
          exact absurd hcon (by simp)
        · intro hall
          exact absurd (hall y (List.mem_singleton.mpr rfl)) h

theorem firstFit_some {sz : Nat → Nat} (t : HTree) (q : Nat) (x : Nat)
    (hx : firstFit sz t q = some x) :
    q ≤ sz x ∧ x ∈ addrs t ∧
      ∃ pre, searchPath sz t q = pre ++ [x] ∧ ∀ a ∈ pre, sz a < q := by
  induction t with
  | nil => exact absurd hx (by simp [firstFit])
  | node y l r ihl ihr =>
      by_cases h : sz y < q
      · simp only [firstFit, if_pos h] at hx
        obtain ⟨h1, h2, pre, h3, h4⟩ := ihr hx
        refine ⟨h1, mem_addrs_node.mpr (Or.inr (Or.inr h2)), y :: pre, ?_, ?_⟩
        · simp only [searchPath, if_pos h, h3, List.cons_append]
        · intro a ha
          rcases List.mem_cons.mp ha with rfl | ha
          · exact h
          · exact h4 a ha
      · simp only [firstFit, if_neg h, Option.some_inj] at hx
        subst hx
        refine ⟨not_lt.mp h, mem_addrs_node.mpr (Or.inl rfl), [], ?_, ?_⟩
        · simp [searchPath, if_neg h]
        · intro a ha
          exact absurd ha (List.not_mem_nil a)

theorem rcbs_none_eq {sz : Nat → Nat} {t : HTree} {q : Nat} {p : Option Nat}
    {pm : PM} {alt : Bool}
    (h : (remove_chunk_by_size sz t q p pm alt).1 = none) :
    remove_chunk_by_size sz t q p pm alt = (none, t, pm, alt) := by
  induction t generalizing p pm alt with
  | nil => rfl
  | node y l r ihl ihr =>
      by_cases hlt : sz y < q
      · rw [rcbs_lt hlt] at h ⊢
        simp only at h
        rw [ihr h]
      · rw [rcbs_ge hlt] at h
        exact absurd h (by simp)

theorem rcbs_some_mem {sz : Nat → Nat} {t : HTree} {q x : Nat}
    {p : Option Nat} {pm : PM} {alt : Bool}
    (h : (remove_chunk_by_size sz t q p pm alt).1 = some x) :
    x ∈ addrs t ∧ q ≤ sz x := by
  rw [rcbs_result] at h
  obtain ⟨h1, h2, _⟩ := firstFit_some t q x h
  exact ⟨h2, h1⟩

theorem rcbs_mem {sz : Nat → Nat} {t : HTree} {q x : Nat} {p : Option Nat}
    {pm : PM} {alt : Bool} (hnd : (addrs t).Nodup)
    (h : (remove_chunk_by_size sz t q p pm alt).1 = some x) (a : Nat) :
    a ∈ addrs (remove_chunk_by_size sz t q p pm alt).2.1 ↔
      a ∈ addrs t ∧ a ≠ x := by
  induction t generalizing p pm alt with
  | nil => exact absurd h (by simp [remove_chunk_by_size])
  | node y l r ihl ihr =>
      obtain ⟨hy1, hy2, hndl, hndr, hdis⟩ := nodup_node.mp hnd
      by_cases hlt : sz y < q
      · rw [rcbs_lt hlt] at h ⊢
        simp only at h ⊢
        have hxr : x ∈ addrs r := (rcbs_some_mem h).1
        simp only [mem_addrs_node]
        rw [ihr hndr h]
        constructor
        · rintro (rfl | ha | ⟨ha, hne⟩)
          · exact ⟨Or.inl rfl, fun hh => hy2 (hh ▸ hxr)⟩
          · exact ⟨Or.inr (Or.inl ha), fun hh => hdis a ha (hh ▸ hxr)⟩
          · exact ⟨Or.inr (Or.inr ha), hne⟩
        · rintro ⟨rfl | ha | ha, hne⟩
          · exact Or.inl rfl
          · exact Or.inr (Or.inl ha)
          · exact Or.inr (Or.inr ⟨ha, hne⟩)
      · rw [rcbs_ge hlt] at h ⊢
        simp only [Option.some_inj] at h
        subst h
        simp only
        exact remove_chunk_at_mem hnd a

theorem rcbs_nodup {sz : Nat → Nat} {t : HTree} {q : Nat} {p : Option Nat}
    {pm : PM} {alt : Bool} (hnd : (addrs t).Nodup) :
    (addrs (remove_chunk_by_size sz t q p pm alt).2.1).Nodup := by
  induction t generalizing p pm alt with
  | nil => exact hnd
  | node y l r ihl ihr =>
      obtain ⟨hy1, hy2, hndl, hndr, hdis⟩ := nodup_node.mp hnd
      by_cases hlt : sz y < q
      · rw [rcbs_lt hlt]
        simp only
        rcases hres : (remove_chunk_by_size sz r q (some y) pm alt).1 with _ | x
        · rw [rcbs_none_eq hres]
          exact hnd
        · rw [nodup_node]
          have hxr : x ∈ addrs r := (rcbs_some_mem hres).1
          refine ⟨hy1, ?_, hndl, ihr hndr, ?_⟩
          · intro hmem
            exact hy2 ((rcbs_mem hndr hres y).mp hmem).1
          · intro a ha hmem
            exact hdis a ha ((rcbs_mem hndr hres a).mp hmem).1
      · rw [rcbs_ge hlt]
        simp only
        exact remove_chunk_at_nodup hnd

theorem rcbs_ord {sz : Nat → Nat} {t : HTree} {q : Nat} {p : Option Nat}
    {pm : PM} {alt : Bool} (hnd : (addrs t).Nodup) (hord : ord sz t) :
    ord sz (remove_chunk_by_size sz t q p pm alt).2.1 := by
  induction t generalizing p pm alt with
  | nil => exact trivial
  | node y l r ihl ihr =>
      obtain ⟨hy1, hy2, hndl, hndr, hdis⟩ := nodup_node.mp hnd
      obtain ⟨h1, h2, h3, h4⟩ := hord
      by_cases hlt : sz y < q
      · rw [rcbs_lt hlt]
        simp only
        rcases hres : (remove_chunk_by_size sz r q (some y) pm alt).1 with _ | x
        · rw [rcbs_none_eq hres]
          exact ⟨h1, h2, h3, h4⟩
        · refine ⟨h1, ?_, h3, ihr hndr h4⟩
          intro a ha
          exact h2 a ((rcbs_mem hndr hres a).mp ha).1
      · rw [rcbs_ge hlt]
        simp only
        exact remove_chunk_at_ord hnd ⟨h1, h2, h3, h4⟩

theorem rcbs_pm_outside {sz : Nat → Nat} {t : HTree} {q : Nat}
    {p : Option Nat} {pm : PM} {alt : Bool} (a : Nat) (ha : a ∉ addrs t) :
    (remove_chunk_by_size sz t q p pm alt).2.2.1 a = pm a := by
  induction t generalizing p pm alt with
  | nil => rfl
  | node y l r ihl ihr =>
      have ha3 : a ∉ addrs r := fun h =>
        ha (mem_addrs_node.mpr (Or.inr (Or.inr h)))
      by_cases hlt : sz y < q
      · rw [rcbs_lt hlt]
        simp only
        exact ihr ha3
      · rw [rcbs_ge hlt]
        simp only
        exact remove_chunk_at_pm_outside a ha

theorem rcbs_pcoh {sz : Nat → Nat} {t : HTree} {q : Nat} {p : Option Nat}
    {pm : PM} {alt : Bool} (hnd : (addrs t).Nodup) (hp : pcoh pm t p) :
    pcoh (remove_chunk_by_size sz t q p pm alt).2.2.1
      (remove_chunk_by_size sz t q p pm alt).2.1 p := by
  induction t generalizing p pm alt with
  | nil => exact trivial
  | node y l r ihl ihr =>
      obtain ⟨hy1, hy2, hndl, hndr, hdis⟩ := nodup_node.mp hnd
      obtain ⟨hc1, hc2, hc3⟩ := hp
      by_cases hlt : sz y < q
      · rw [rcbs_lt hlt]
        simp only
        refine ⟨?_, ?_, ihr hndr hc3⟩
        · exact (rcbs_pm_outside y hy2).trans hc1
        · rw [pcoh_congr pm fun b hb =>
            rcbs_pm_outside b (hdis b hb)]
          exact hc2
      · rw [rcbs_ge hlt]
        simp only
        exact remove_chunk_at_pcoh hnd ⟨hc1, hc2, hc3⟩

/-! ## The physical heap: chunk records and address arithmetic

A `Chunk` models one chunk between `first_chunk` and `guard_addr`: its
header address, the `size` field of the header, the `size` field of the
footer (stored separately — the code must keep them equal, the model does
not), and the header's `in_use` flag.  The list is kept in physical
(address) order. -/

structure Chunk where
  addr : Nat
  size : Nat
  fsize : Nat
  inUse : Bool
deriving Repr, DecidableEq

/-- `header_to_footer(c) + footer_pad`: the first address past the chunk,
i.e. the header address of the physically next chunk. -/
def endAddr (c : Chunk) : Nat := c.addr + header_pad + c.size + footer_pad

/-- Read the chunk record whose header is at address `a`. -/
def findChunk (cs : List Chunk) (a : Nat) : Option Chunk :=
  cs.find? (fun c => c.addr = a)

/-- Read the header `size` field at address `a` (0 when no chunk is there —
the C code would read garbage; reachable states never do). -/
def szOf (cs : List Chunk) (a : Nat) : Nat :=
  ((findChunk cs a).map Chunk.size).getD 0

/-- The size environment handed to the tree operations: tree keys are the
`size` fields of the chunk headers hosting the nodes. -/
def szFn (cs : List Chunk) : Nat → Nat := fun a => szOf cs a

/-- In-place update of the chunk record at address `a` (a header/footer
field store). -/
def setChunk (cs : List Chunk) (a : Nat) (f : Chunk → Chunk) : List Chunk :=
  cs.map (fun c => if c.addr = a then f c else c)

/-- Replace the chunk record at address `a` by the given records
(used when a split writes a fresh header/footer pair inside a chunk,
turning one record into two). -/
def replaceChunk (cs : List Chunk) (a : Nat) (new : List Chunk) : List Chunk :=
  match cs with
  | [] => []
  | c :: t => if c.addr = a then new ++ t else c :: replaceChunk t a new

/-- Delete the chunk record at address `a` (used when coalescing absorbs a
neighbor: its header and footer become interior bytes). -/
def dropChunk (cs : List Chunk) (a : Nat) : List Chunk :=
  match cs with
  | [] => []
  | c :: t => if c.addr = a then t else c :: dropChunk t a

/-! ## Allocator state and the two public operations -/

/-- The global variables of `tralloc.c` (the padding constants are compile
time constants here).  `tree` is the tree hanging from `fake_root`:
`fake_root == NULL` is modelled by `tree = nil`, otherwise the root node of
`tree` is the sentinel chunk `fake_root` points to.  `guardAddr = 0` models
the initial NULL `guard_addr`. -/
structure AllocState where
  brk : Nat
  firstChunk : Option Nat
  guardAddr : Nat
  chunks : List Chunk
  tree : HTree
  pm : PM
  eqAlt : Bool
  spAlt : Bool

/-- The state at program start: no heap, no sentinel, both alternators
false, program break at `b`. -/
def initState (b : Nat) : AllocState :=
  { brk := b, firstChunk := none, guardAddr := 0, chunks := [], tree := .nil,
    pm := fun _ => none, eqAlt := false, spAlt := false }

/-- Lines 106-108 of `tralloc.c`: round the request up to the word size,
then raise it to `node_pad` when smaller, so a freed chunk can always host
the three tree-node pointers. -/
def effSize (n : Nat) : Nat :=
  let s := ceil_size n intptrSize
  if s < node_pad then node_pad else s

/-- Lines 106-108 of `tralloc.c` with the `size_t` wraparound of
`ceil_size_w`: for requests above `2 ^ 64 - 8` the rounded size wraps to 0
and is then raised to `node_pad`. -/
def effSize_w (n : Nat) : Nat :=
  let s := ceil_size_w n intptrSize
  if s < node_pad then node_pad else s

/-- `tralloc(size)`: create the sentinel on first use, round the request,
search the free tree (first-acceptable fit); on a miss grow the heap by
`header_pad + size + footer_pad` via `sbrk` (the result — the old break —
is used unchecked); on a hit split the found chunk when it can hold the
request plus a minimal free chunk.  Returns the new state and the payload
address `header_to_node(found)`. -/
def trallocStep (σ : AllocState) (n : Nat) : AllocState × Nat :=
  -- lines 96-104: create fake_root (sbrk(header_pad + node_pad))
  let σ1 :=
    match σ.tree with
    | .nil =>
        { σ with brk := σ.brk + (header_pad + node_pad),
                 tree := .node σ.brk .nil .nil,
                 pm := pupd σ.pm σ.brk none }
    | .node _ _ _ => σ
  let eff := effSize n
  -- line 111: remove_chunk_by_size(fake_root, size)
  let sch := remove_chunk_by_size (szFn σ1.chunks) σ1.tree eff none σ1.pm σ1.spAlt
  let σ2 := { σ1 with tree := sch.2.1, pm := sch.2.2.1, spAlt := sch.2.2.2 }
  match sch.1 with
  | none =>
      -- lines 112-118: grow the heap; sbrk returns the old break, which is
      -- used as the new chunk's address without any failure check
      let a := σ2.brk
      ({ σ2 with
          brk := σ2.brk + (header_pad + eff + footer_pad),
          firstChunk := match σ2.firstChunk with
                        | none => some a
                        | some f => some f,
          guardAddr := a + header_pad + eff + footer_pad,
          chunks := σ2.chunks ++ [⟨a, eff, eff, true⟩] },
       a + header_pad)
  | some f =>
      match findChunk σ2.chunks f with
      | none => (σ2, f + header_pad)
      | some c =>
          if c.size ≥ eff + footer_pad + header_pad + node_pad then
            -- lines 119-128: split off the dividend, insert it, shrink the
            -- found chunk to exactly the request
            let d := f + header_pad + eff + footer_pad
            let dsz := c.size - eff - footer_pad - header_pad
            let chunks1 := replaceChunk σ2.chunks f [c, ⟨d, dsz, dsz, false⟩]
            let ins := add_chunk (szFn chunks1) σ2.tree d none σ2.pm σ2.eqAlt
            let chunks2 := setChunk chunks1 f
              (fun c0 => { c0 with size := eff, fsize := eff, inUse := true })
            ({ σ2 with chunks := chunks2, tree := ins.1, pm := ins.2.1,
                       eqAlt := ins.2.2 }, f + header_pad)
          else
            -- line 130: whole chunk returned unmodified, just marked in use
            let chunks2 := setChunk σ2.chunks f
              (fun c0 => { c0 with inUse := true })
            ({ σ2 with chunks := chunks2 }, f + header_pad)

/-- `trfree(to_free)`: recover the header from the payload pointer, merge
with a free physical predecessor (found by reading the footer that ends at
the header) and then with a free physical successor (found by address
arithmetic against `guard_addr`), removing each merged neighbor from the
free tree, then insert the resulting chunk. -/
def trfreeStep (σ : AllocState) (ptr : Nat) : AllocState :=
  let x0 := ptr - header_pad
  -- lines 137-148: predecessor merge
  let s1 :=
    if some x0 ≠ σ.firstChunk then
      match σ.chunks.find? (fun c => c.addr + header_pad + c.size = x0 - footer_pad) with
      | none => (σ, x0)
      | some cprev =>
          -- footer_to_header: footer address minus footer->size minus header_pad
          let cand := x0 - footer_pad - cprev.fsize - header_pad
          match findChunk σ.chunks cand with
          | none => (σ, x0)
          | some cc =>
              if cc.inUse then (σ, x0)
              else
                let rm := remove_chunk σ.tree cand none σ.pm σ.spAlt
                let newSize := cc.size + footer_pad + header_pad + szOf σ.chunks x0
                let chunks1 := setChunk σ.chunks cand
                  (fun c0 => { c0 with size := newSize, fsize := newSize })
                ({ σ with chunks := dropChunk chunks1 x0, tree := rm.1,
                          pm := rm.2.1, spAlt := rm.2.2 }, cand)
    else (σ, x0)
  let σ1 := s1.1
  let x1 := s1.2
  -- lines 149-158: successor merge
  let x1sz := szOf σ1.chunks x1
  let σ2 :=
    if x1 + header_pad + x1sz + footer_pad ≠ σ1.guardAddr then
      let nxt := x1 + header_pad + x1sz + footer_pad
      match findChunk σ1.chunks nxt with
      | none => σ1
      | some cn =>
          if cn.inUse then σ1
          else
            let rm := remove_chunk σ1.tree nxt none σ1.pm σ1.spAlt
            let newSize := x1sz + footer_pad + header_pad + cn.size
            let chunks1 := setChunk σ1.chunks x1
              (fun c0 => { c0 with size := newSize, fsize := newSize })
            { σ1 with chunks := dropChunk chunks1 nxt, tree := rm.1,
                      pm := rm.2.1, spAlt := rm.2.2 }
    else σ1
  -- lines 159-160: mark free, insert into the tree
  let chunks3 := setChunk σ2.chunks x1 (fun c0 => { c0 with inUse := false })
  let ins := add_chunk (szFn chunks3) σ2.tree x1 none σ2.pm σ2.eqAlt
  { σ2 with chunks := chunks3, tree := ins.1, pm := ins.2.1, eqAlt := ins.2.2 }

/-- A pointer that may legally be passed to `release`: the payload address
of some currently in-use chunk (returned by `allocate` and not yet
released). -/
def ValidFree (σ : AllocState) (ptr : Nat) : Prop :=
  ∃ c ∈ σ.chunks, c.addr + header_pad = ptr ∧ c.inUse = true

/-- States reachable by some sequence of `allocate`/`release` calls from a
program start (with arbitrary initial break), where every released pointer
was live. -/
inductive Reach : AllocState → Prop
  | init (b : Nat) : Reach (initState b)
  | alloc {σ : AllocState} (n : Nat) : Reach σ → Reach (trallocStep σ n).1
  | free {σ : AllocState} (ptr : Nat) : Reach σ → ValidFree σ ptr →
      Reach (trfreeStep σ ptr)

/-! ## Claim C1: first-acceptable-fit search -/

/-- C1: `remove_chunk_by_size` follows a single root-to-leaf path
(`searchPath`): at each node whose size is strictly less than the request
it descends right only, and at the first node whose size is at least the
request (`firstFit`) it removes that node and returns it; it returns `none`
iff no node on that path satisfies the request — even when a sufficient
chunk exists elsewhere in the tree (the search never enters a left
subtree). -/
theorem claim_C1 (sz : Nat → Nat) (t : HTree) (q : Nat) (p : Option Nat)
    (pm : PM) (alt : Bool) (hnd : (addrs t).Nodup) :
    (remove_chunk_by_size sz t q p pm alt).1 = firstFit sz t q
    ∧ (firstFit sz t q = none ↔ ∀ a ∈ searchPath sz t q, sz a < q)
    ∧ (∀ x, firstFit sz t q = some x →
        q ≤ sz x ∧ x ∈ addrs t ∧
        (∃ pre, searchPath sz t q = pre ++ [x] ∧ ∀ a ∈ pre, sz a < q) ∧
        x ∉ addrs (remove_chunk_by_size sz t q p pm alt).2.1 ∧
        (∀ a ∈ addrs t, a ≠ x →
          a ∈ addrs (remove_chunk_by_size sz t q p pm alt).2.1))
    ∧ ((remove_chunk_by_size sz t q p pm alt).1 = none →
        remove_chunk_by_size sz t q p pm alt = (none, t, pm, alt)) := by
  refine ⟨rcbs_result t q p pm alt, firstFit_none_iff t q, ?_, rcbs_none_eq⟩
  intro x hx
  obtain ⟨h1, h2, h3⟩ := firstFit_some t q x hx
  have hres : (remove_chunk_by_size sz t q p pm alt).1 = some x := by
    rw [rcbs_result]; exact hx
  refine ⟨h1, h2, h3, ?_, ?_⟩
  · intro hmem
    exact ((rcbs_mem hnd hres x).mp hmem).2 rfl
  · intro a ha hne
    exact (rcbs_mem hnd hres a).mpr ⟨ha, hne⟩

/-- Witness tree for C1: chunks of sizes 40, 80 and 120 (the spec's §8
example), rooted at the 80-chunk.  Requesting 50 returns the 80-chunk even
though the smaller, still-sufficient 120... (the 40-chunk is too small, the
120-chunk is never examined). -/
def c1Tree : HTree := .node 1 (.node 2 .nil .nil) (.node 3 .nil .nil)

/-- Size environment for `c1Tree`: node 1 has size 80, node 2 size 40,
node 3 size 120. -/
def c1Sz : Nat → Nat := fun a => if a = 1 then 80 else if a = 2 then 40 else
  if a = 3 then 120 else 0

theorem claim_C1_witness :
    (addrs c1Tree).Nodup
    ∧ (remove_chunk_by_size c1Sz c1Tree 50 none (fun _ => none) false).1 =
        firstFit c1Sz c1Tree 50
    ∧ firstFit c1Sz c1Tree 50 = some 1 := by
  refine ⟨by decide, ?_, by decide⟩
  exact (claim_C1 c1Sz c1Tree 50 none (fun _ => none) false (by decide)).1

/-! ## Claim C6: round-trip reuse -/

/-- C6: from the initial state (no other free chunks), `p1 = allocate(64);
release(p1); p2 = allocate(64)` returns the identical payload address,
does not move the program break (no heap growth), and leaves the free tree
exactly as it was after the first allocation (no new node). -/
theorem claim_C6 :
    (trallocStep (trfreeStep (trallocStep (initState 0) 64).1
        (trallocStep (initState 0) 64).2) 64).2 =
      (trallocStep (initState 0) 64).2
    ∧ (trallocStep (trfreeStep (trallocStep (initState 0) 64).1
        (trallocStep (initState 0) 64).2) 64).1.brk =
      (trfreeStep (trallocStep (initState 0) 64).1
        (trallocStep (initState 0) 64).2).brk
    ∧ (trallocStep (trfreeStep (trallocStep (initState 0) 64).1
        (trallocStep (initState 0) 64).2) 64).1.tree =
      (trallocStep (initState 0) 64).1.tree
    ∧ (trallocStep (trfreeStep (trallocStep (initState 0) 64).1
        (trallocStep (initState 0) 64).2) 64).1.chunks =
      (trallocStep (initState 0) 64).1.chunks := by
  refine ⟨?_, ?_, ?_, ?_⟩ <;> decide

/-! ## Claim C9: the allocate path cannot fail visibly -/

/-- C9: when the free-tree search misses, `tralloc` grows the heap by
exactly `header_pad + target + footer_pad` bytes, uses the value returned
by `sbrk` (the old program break — whatever it is, including the failure
sentinel value: the hypothesis places no constraint on `σ.brk`) as the new
chunk's header address without any check, and unconditionally returns the
payload address `σ.brk + header_pad`.  There is no error return. -/
theorem claim_C9 (σ : AllocState) (n : Nat) (fr : Nat) (l r : HTree)
    (hroot : σ.tree = .node fr l r)
    (hmiss : (remove_chunk_by_size (szFn σ.chunks) σ.tree (effSize n) none
      σ.pm σ.spAlt).1 = none) :
    (trallocStep σ n).2 = σ.brk + header_pad
    ∧ (trallocStep σ n).1.brk =
        σ.brk + (header_pad + effSize n + footer_pad)
    ∧ (trallocStep σ n).1.chunks =
        σ.chunks ++ [⟨σ.brk, effSize n, effSize n, true⟩]
    ∧ (trallocStep σ n).1.guardAddr =
        σ.brk + header_pad + effSize n + footer_pad := by
  have heq := rcbs_none_eq hmiss
  obtain ⟨brk0, fc0, ga0, cs0, tr0, pm0, ea0, sa0⟩ := σ
  simp only at hroot heq ⊢
  subst hroot
  simp [trallocStep, heq]

/-- Concrete state with the heap break at the `sbrk` failure sentinel
`(void * )-1 = 2^64 - 1`: the next allocation happily uses the sentinel as
a chunk address. -/
def c9State : AllocState :=
  { brk := 2 ^ 64 - 1, firstChunk := some 40, guardAddr := 2 ^ 64 - 1,
    chunks := [⟨40, 64, 64, true⟩], tree := .node 0 .nil .nil,
    pm := fun _ => none, eqAlt := false, spAlt := false }

theorem claim_C9_witness :
    (trallocStep c9State 64).2 = (2 ^ 64 - 1) + header_pad := by
  exact (claim_C9 c9State 64 0 .nil .nil rfl (by decide)).1

/-! ## Chunk lookup lemmas -/

theorem findChunk_addr {cs : List Chunk} {a : Nat} {c : Chunk}
    (h : findChunk cs a = some c) : c.addr = a := by
  have := List.find?_some h
  simpa using this

theorem findChunk_mem {cs : List Chunk} {a : Nat} {c : Chunk}
    (h : findChunk cs a = some c) : c ∈ cs :=
  List.mem_of_find?_eq_some h

theorem findChunk_cons_pos {c : Chunk} {t : List Chunk} {a : Nat}
    (h : c.addr = a) : findChunk (c :: t) a = some c := by
  unfold findChunk
  exact List.find?_cons_of_pos _ (by simp [h])

theorem findChunk_cons_neg {c : Chunk} {t : List Chunk} {a : Nat}
    (h : c.addr ≠ a) : findChunk (c :: t) a = findChunk t a := by
  unfold findChunk
  exact List.find?_cons_of_neg _ (by simp [h])

theorem setChunk_cons {c : Chunk} {t : List Chunk} {a : Nat}
    {g : Chunk → Chunk} :
    setChunk (c :: t) a g = (if c.addr = a then g c else c) :: setChunk t a g :=
  rfl

theorem findChunk_setChunk_self (cs : List Chunk) (a : Nat) (g : Chunk → Chunk)
    (hg : ∀ c, (g c).addr = c.addr) :
    findChunk (setChunk cs a g) a = (findChunk cs a).map g := by
  induction cs with
  | nil => rfl
  | cons c t ih =>
      rw [setChunk_cons]
      by_cases hca : c.addr = a
      · rw [if_pos hca, findChunk_cons_pos (by rw [hg c]; exact hca),
          findChunk_cons_pos hca]
        rfl
      · rw [if_neg hca, findChunk_cons_neg hca, findChunk_cons_neg hca]
        exact ih

theorem findChunk_setChunk_other (cs : List Chunk) (a b : Nat)
    (g : Chunk → Chunk) (hg : ∀ c, (g c).addr = c.addr) (hne : b ≠ a) :
    findChunk (setChunk cs a g) b = findChunk cs b := by
  induction cs with
  | nil => rfl
  | cons c t ih =>
      rw [setChunk_cons]
      by_cases hca : c.addr = a
      · have h1 : (g c).addr ≠ b := by
          rw [hg c, hca]; exact fun h => hne h.symm
        have h2 : c.addr ≠ b := by
          rw [hca]; exact fun h => hne h.symm
        rw [if_pos hca, findChunk_cons_neg h1, findChunk_cons_neg h2]
        exact ih
      · rw [if_neg hca]
        by_cases hcb : c.addr = b
        · rw [findChunk_cons_pos hcb, findChunk_cons_pos hcb]
        · rw [findChunk_cons_neg hcb, findChunk_cons_neg hcb]
          exact ih

theorem replaceChunk_cons_pos {e : Chunk} {t : List Chunk} {f : Nat}
    {new : List Chunk} (h : e.addr = f) :
    replaceChunk (e :: t) f new = new ++ t := by
  simp [replaceChunk, h]

theorem replaceChunk_cons_neg {e : Chunk} {t : List Chunk} {f : Nat}
    {new : List Chunk} (h : e.addr ≠ f) :
    replaceChunk (e :: t) f new = e :: replaceChunk t f new := by
  simp [replaceChunk, h]

theorem findChunk_replaceChunk_self {cs : List Chunk} {f : Nat} {c : Chunk}
    {rest : List Chunk} (h : findChunk cs f = some c) (hca : c.addr = f) :
    findChunk (replaceChunk cs f (c :: rest)) f = some c := by
  induction cs with
  | nil => exact absurd h (by simp [findChunk])
  | cons e t ih =>
      by_cases hef : e.addr = f
      · rw [replaceChunk_cons_pos hef, List.cons_append,
          findChunk_cons_pos hca]
      · rw [replaceChunk_cons_neg hef, findChunk_cons_neg hef]
        rw [findChunk_cons_neg hef] at h
        exact ih h

theorem findChunk_replaceChunk_second {cs : List Chunk} {f d : Nat}
    {c e2 : Chunk} (h : findChunk cs f = some c) (hca : c.addr = f)
    (he2 : e2.addr = d) (hdf : d ≠ f) (hfresh : ∀ e ∈ cs, e.addr ≠ d) :
    findChunk (replaceChunk cs f [c, e2]) d = some e2 := by
  induction cs with
  | nil => exact absurd h (by simp [findChunk])
  | cons e t ih =>
      by_cases hef : e.addr = f
      · have hcd : c.addr ≠ d := by
          rw [hca]; exact fun hh => hdf hh.symm
        rw [replaceChunk_cons_pos hef, List.cons_append,
          findChunk_cons_neg hcd, List.cons_append, findChunk_cons_pos he2]
      · rw [replaceChunk_cons_neg hef,
          findChunk_cons_neg (hfresh e (List.mem_cons_self e t))]
        rw [findChunk_cons_neg hef] at h
        exact ih h (fun e3 he3 => hfresh e3 (List.mem_cons_of_mem e he3))

/-! ## Claim C4 (amended): the split decision in `tralloc` -/

/-- The precise claim text "split iff the found size strictly exceeds
`target + (header_pad + footer_pad + node_pad)`", rendered on the model:
a split is observable as the chunk list growing by one record. -/
def C4SplitStrictClaim : Prop :=
  ∀ (σ : AllocState) (n f : Nat) (c : Chunk) (fr : Nat) (l r : HTree),
    σ.tree = .node fr l r →
    (remove_chunk_by_size (szFn σ.chunks) σ.tree (effSize n) none σ.pm
      σ.spAlt).1 = some f →
    findChunk σ.chunks f = some c →
    ((trallocStep σ n).1.chunks.length = σ.chunks.length + 1 ↔
      c.size > effSize n + (header_pad + footer_pad + node_pad))

/-- A reachable state holding a free chunk of size 112 at address 40:
`allocate(112); allocate(64); release(p1)`. -/
def c4State : AllocState :=
  trfreeStep (trallocStep (trallocStep (initState 0) 112).1 64).1
    (trallocStep (initState 0) 112).2

/-- Counterexample to the strict reading of C4: requesting 64 from the free
112-chunk hits the boundary `112 = 64 + header_pad + footer_pad + node_pad`
exactly — the code (`>=` on line 119) splits, the strict claim says it must
not. -/
theorem claim_C4_counterexample : ¬C4SplitStrictClaim := by
  intro h
  have h2 := h c4State 64 40 ⟨40, 112, 112, false⟩ 0 .nil (.node 40 .nil .nil)
    (by decide) (by decide) (by decide)
  have h3 : (trallocStep c4State 64).1.chunks.length =
      c4State.chunks.length + 1 := by decide
  exact absurd (h2.mp h3) (by decide)

/-- C4 (amended: the code splits when the found size is at least — not
strictly greater than — `target + header_pad + footer_pad + node_pad`):
when the search returns a chunk, the split happens iff
`found.size ≥ target + overhead`; on a split the returned chunk's size
becomes exactly the target with a matching footer, the remainder becomes a
new free chunk at `found + header_pad + target + footer_pad` of size
`found.size - target - header_pad - footer_pad` with matching footer,
inserted into the free tree; otherwise the found chunk is returned with its
original size, only its `in_use` flag set, and nothing is inserted into the
tree. -/
theorem claim_C4 (σ : AllocState) (n f : Nat) (c : Chunk) (fr : Nat)
    (l r : HTree) (hroot : σ.tree = .node fr l r)
    (hfound : (remove_chunk_by_size (szFn σ.chunks) σ.tree (effSize n) none
      σ.pm σ.spAlt).1 = some f)
    (hc : findChunk σ.chunks f = some c)
    (hfresh : ∀ e ∈ σ.chunks,
      e.addr ≠ f + header_pad + effSize n + footer_pad) :
    (c.size ≥ effSize n + footer_pad + header_pad + node_pad →
      findChunk (trallocStep σ n).1.chunks f =
        some { c with size := effSize n, fsize := effSize n, inUse := true }
      ∧ findChunk (trallocStep σ n).1.chunks
          (f + header_pad + effSize n + footer_pad) =
        some ⟨f + header_pad + effSize n + footer_pad,
              c.size - effSize n - footer_pad - header_pad,
              c.size - effSize n - footer_pad - header_pad, false⟩
      ∧ (f + header_pad + effSize n + footer_pad) ∈
          addrs (trallocStep σ n).1.tree)
    ∧ (¬c.size ≥ effSize n + footer_pad + header_pad + node_pad →
      findChunk (trallocStep σ n).1.chunks f = some { c with inUse := true }
      ∧ (trallocStep σ n).1.tree =
        (remove_chunk_by_size (szFn σ.chunks) σ.tree (effSize n) none σ.pm
          σ.spAlt).2.1)
    ∧ (trallocStep σ n).2 = f + header_pad := by
  obtain ⟨brk0, fc0, ga0, cs0, tr0, pm0, ea0, sa0⟩ := σ
  simp only at hroot hfound hc hfresh ⊢
  subst hroot
  have hca : c.addr = f := findChunk_addr hc
  have hdf : f + header_pad + effSize n + footer_pad ≠ f := by
    rw [header_pad_eq, footer_pad_eq]
    omega
  constructor
  · intro hsplit
    simp only [trallocStep, hfound, hc, if_pos hsplit]
    refine ⟨?_, ?_, ?_⟩
    · have hset := findChunk_setChunk_self
        (replaceChunk cs0 f [c, ⟨f + header_pad + effSize n + footer_pad,
          c.size - effSize n - footer_pad - header_pad,
          c.size - effSize n - footer_pad - header_pad, false⟩]) f
        (fun c0 => { c0 with size := effSize n, fsize := effSize n, inUse := true })
        (fun c0 => rfl)
      rw [hset]
      rw [findChunk_replaceChunk_self hc hca]
      rfl
    · have hset := findChunk_setChunk_other
        (replaceChunk cs0 f [c, ⟨f + header_pad + effSize n + footer_pad,
          c.size - effSize n - footer_pad - header_pad,
          c.size - effSize n - footer_pad - header_pad, false⟩]) f
        (f + header_pad + effSize n + footer_pad)
        (fun c0 => { c0 with size := effSize n, fsize := effSize n, inUse := true })
        (fun c0 => rfl) hdf
      rw [hset]
      exact findChunk_replaceChunk_second hc hca rfl hdf hfresh
    · rw [add_chunk_mem]
      exact Or.inl rfl
  constructor
  · intro hnsplit
    simp only [trallocStep, hfound, hc, if_neg hnsplit]
    refine ⟨?_, by trivial⟩
    have hset := findChunk_setChunk_self cs0 f
      (fun c0 => { c0 with inUse := true }) (fun c0 => rfl)
    rw [hset, hc]
    rfl
  · by_cases hsplit : c.size ≥ effSize n + footer_pad + header_pad + node_pad
    · simp only [trallocStep, hfound, hc, if_pos hsplit]
    · simp only [trallocStep, hfound, hc, if_neg hsplit]

/-- Witness for the amended C4, at the same boundary state: the split fires
at exact equality, the remainder is the minimal 24-byte free node, and it
lands in the tree. -/
theorem claim_C4_witness :
    (⟨40, 112, 112, false⟩ : Chunk).size ≥
        effSize 64 + footer_pad + header_pad + node_pad
    ∧ findChunk (trallocStep c4State 64).1.chunks 40 =
        some ⟨40, 64, 64, true⟩
    ∧ findChunk (trallocStep c4State 64).1.chunks 128 = some ⟨128, 24, 24, false⟩
    ∧ (128 : Nat) ∈ addrs (trallocStep c4State 64).1.tree := by
  have h := claim_C4 c4State 64 40 ⟨40, 112, 112, false⟩ 0 .nil
    (.node 40 .nil .nil) (by decide) (by decide) (by decide) (by decide)
  have h2 := h.1 (by decide)
  exact ⟨by decide, by
      have := h2.1
      simpa using this, by
      have := h2.2.1
      simpa using this, by
      have := h2.2.2
      simpa using this⟩

/-! ## List-surgery toolkit for the chunk list -/

theorem findChunk_none_iff {cs : List Chunk} {a : Nat} :
    findChunk cs a = none ↔ ∀ c ∈ cs, c.addr ≠ a := by
  unfold findChunk
  rw [List.find?_eq_none]
  constructor
  · intro h c hc
    have := h c hc
    simpa using this
  · intro h c hc
    simpa using h c hc

theorem findChunk_eq_of_mem {cs : List Chunk} {c : Chunk} {a : Nat}
    (hnd : (cs.map Chunk.addr).Nodup) (hc : c ∈ cs) (ha : c.addr = a) :
    findChunk cs a = some c := by
  induction cs with
  | nil => exact absurd hc (List.not_mem_nil c)
  | cons e t ih =>
      rw [List.map_cons, List.nodup_cons] at hnd
      rcases List.mem_cons.mp hc with rfl | hc2
      · exact findChunk_cons_pos ha
      · have hea : e.addr ≠ a := by
          intro h
          exact hnd.1 (h ▸ ha ▸ List.mem_map_of_mem Chunk.addr hc2)
        rw [findChunk_cons_neg hea]
        exact ih hnd.2 hc2

theorem findChunk_append_left {cs ds : List Chunk} {a : Nat} {c : Chunk}
    (h : findChunk cs a = some c) : findChunk (cs ++ ds) a = some c := by
  induction cs with
  | nil => exact absurd h (by simp [findChunk])
  | cons e t ih =>
      by_cases hea : e.addr = a
      · rw [findChunk_cons_pos hea] at h
        rw [List.cons_append, findChunk_cons_pos hea]
        exact h
      · rw [findChunk_cons_neg hea] at h
        rw [List.cons_append, findChunk_cons_neg hea]
        exact ih h

theorem findChunk_append_right {cs ds : List Chunk} {a : Nat}
    (h : findChunk cs a = none) :
    findChunk (cs ++ ds) a = findChunk ds a := by
  induction cs with
  | nil => rfl
  | cons e t ih =>
      rw [findChunk_none_iff] at h
      have hea : e.addr ≠ a := h e (List.mem_cons_self e t)
      rw [List.cons_append, findChunk_cons_neg hea]
      exact ih (findChunk_none_iff.mpr fun c hc => h c (List.mem_cons_of_mem e hc))

theorem dropChunk_cons_pos {e : Chunk} {t : List Chunk} {a : Nat}
    (h : e.addr = a) : dropChunk (e :: t) a = t := by
  simp [dropChunk, h]

theorem dropChunk_cons_neg {e : Chunk} {t : List Chunk} {a : Nat}
    (h : e.addr ≠ a) : dropChunk (e :: t) a = e :: dropChunk t a := by
  simp [dropChunk, h]

theorem findChunk_dropChunk_other {cs : List Chunk} {a b : Nat} (hne : b ≠ a) :
    findChunk (dropChunk cs a) b = findChunk cs b := by
  induction cs with
  | nil => rfl
  | cons e t ih =>
      by_cases hea : e.addr = a
      · rw [dropChunk_cons_pos hea,
          findChunk_cons_neg (by rw [hea]; exact fun h => hne h.symm)]
      · rw [dropChunk_cons_neg hea]
        by_cases heb : e.addr = b
        · rw [findChunk_cons_pos heb, findChunk_cons_pos heb]
        · rw [findChunk_cons_neg heb, findChunk_cons_neg heb]
          exact ih

theorem setChunk_decomp {pre post : List Chunk} {c : Chunk} {a : Nat}
    {g : Chunk → Chunk} (hpre : ∀ e ∈ pre, e.addr ≠ a) (hca : c.addr = a)
    (hpost : ∀ e ∈ post, e.addr ≠ a) :
    setChunk (pre ++ c :: post) a g = pre ++ g c :: post := by
  induction pre with
  | nil =>
      simp only [List.nil_append, setChunk_cons, if_pos hca]
      congr 1
      have : ∀ cs : List Chunk, (∀ e ∈ cs, e.addr ≠ a) → setChunk cs a g = cs := by
        intro cs
        induction cs with
        | nil => intro _; rfl
        | cons e t ih2 =>
            intro h
            rw [setChunk_cons, if_neg (h e (List.mem_cons_self e t))]
            rw [ih2 fun e2 he2 => h e2 (List.mem_cons_of_mem e he2)]
      exact this post hpost
  | cons e t ih =>
      have hea : e.addr ≠ a := hpre e (List.mem_cons_self e t)
      simp only [List.cons_append, setChunk_cons, if_neg hea]
      rw [ih fun e2 he2 => hpre e2 (List.mem_cons_of_mem e he2)]

theorem replaceChunk_decomp {pre post new : List Chunk} {c : Chunk} {a : Nat}
    (hpre : ∀ e ∈ pre, e.addr ≠ a) (hca : c.addr = a) :
    replaceChunk (pre ++ c :: post) a new = pre ++ new ++ post := by
  induction pre with
  | nil =>
      simp only [List.nil_append]
      rw [replaceChunk_cons_pos hca]
  | cons e t ih =>
      have hea : e.addr ≠ a := hpre e (List.mem_cons_self e t)
      simp only [List.cons_append]
      rw [replaceChunk_cons_neg hea]
      rw [ih fun e2 he2 => hpre e2 (List.mem_cons_of_mem e he2)]

theorem dropChunk_decomp {pre post : List Chunk} {c : Chunk} {a : Nat}
    (hpre : ∀ e ∈ pre, e.addr ≠ a) (hca : c.addr = a) :
    dropChunk (pre ++ c :: post) a = pre ++ post := by
  induction pre with
  | nil =>
      simp only [List.nil_append]
      rw [dropChunk_cons_pos hca]
  | cons e t ih =>
      have hea : e.addr ≠ a := hpre e (List.mem_cons_self e t)
      simp only [List.cons_append]
      rw [dropChunk_cons_neg hea]
      rw [ih fun e2 he2 => hpre e2 (List.mem_cons_of_mem e he2)]

/-! ## Geometry of a chained chunk list -/

/-- The physical-adjacency relation maintained along the chunk list. -/
def chAdj (c1 c2 : Chunk) : Prop := endAddr c1 = c2.addr

/-- The no-two-adjacent-free relation. -/
def nafRel (c1 c2 : Chunk) : Prop := c1.inUse = true ∨ c2.inUse = true

theorem endAddr_gt (c : Chunk) : c.addr < endAddr c := by
  unfold endAddr
  rw [header_pad_eq, footer_pad_eq]
  omega

theorem chain_head_le {c : Chunk} {cs : List Chunk}
    (h : List.Chain' chAdj (c :: cs)) : ∀ e ∈ cs, endAddr c ≤ e.addr := by
  induction cs generalizing c with
  | nil => intro e he; exact absurd he (List.not_mem_nil e)
  | cons e2 t ih =>
      intro e he
      have h1 : chAdj c e2 := (List.chain'_cons.mp h).1
      have h2 := (List.chain'_cons.mp h).2
      rcases List.mem_cons.mp he with rfl | he2
      · exact le_of_eq h1
      · have := ih h2 e he2
        have h3 : endAddr c ≤ e2.addr := le_of_eq h1
        have h4 : e2.addr < endAddr e2 := endAddr_gt e2
        omega

theorem chain_pairwise_lt {cs : List Chunk} (h : List.Chain' chAdj cs) :
    cs.Pairwise (fun c1 c2 => c1.addr < c2.addr) := by
  induction cs with
  | nil => exact List.Pairwise.nil
  | cons c t ih =>
      rcases t with _ | ⟨e, t2⟩
      · exact List.pairwise_singleton _ c
      · have h2 := (List.chain'_cons.mp h).2
        refine List.Pairwise.cons ?_ (ih h2)
        intro e2 he2
        have := chain_head_le h e2 he2
        have := endAddr_gt c
        omega

theorem chain_addr_nodup {cs : List Chunk} (h : List.Chain' chAdj cs) :
    (cs.map Chunk.addr).Nodup := by
  have hp := chain_pairwise_lt h
  have h2 : (cs.map Chunk.addr).Pairwise (fun a b => a < b) :=
    List.pairwise_map.mpr hp
  exact h2.nodup
theorem chain_pairwise_hs {cs : List Chunk} (h : List.Chain' chAdj cs) :
    cs.Pairwise (fun c1 c2 =>
      c1.addr + header_pad + c1.size < c2.addr + header_pad + c2.size) := by
  induction cs with
  | nil => exact List.Pairwise.nil
  | cons c t ih =>
      rcases t with _ | ⟨e, t2⟩
      · exact List.pairwise_singleton _ c
      · have h2 := (List.chain'_cons.mp h).2
        refine List.Pairwise.cons ?_ (ih h2)
        intro e2 he2
        have h3 := chain_head_le h e2 he2
        unfold endAddr at h3
        rw [footer_pad_eq] at h3
        omega

theorem footerOwner_eq {cs : List Chunk} {cp : Chunk} {v : Nat}
    (hp : cs.Pairwise (fun c1 c2 =>
      c1.addr + header_pad + c1.size < c2.addr + header_pad + c2.size))
    (hmem : cp ∈ cs) (hv : cp.addr + header_pad + cp.size = v) :
    cs.find? (fun c => c.addr + header_pad + c.size = v) = some cp := by
  induction cs with
  | nil => exact absurd hmem (List.not_mem_nil cp)
  | cons e t ih =>
      rw [List.pairwise_cons] at hp
      by_cases he : e.addr + header_pad + e.size = v
      · have hcpe : cp = e := by
          rcases List.mem_cons.mp hmem with rfl | hmem2
          · rfl
          · exact absurd (hp.1 cp hmem2) (by omega)
        subst hcpe
        exact List.find?_cons_of_pos _ (by simp [he])
      · have hcpe : cp ≠ e := fun hh => he (hh ▸ hv)
        rw [List.find?_cons_of_neg _ (by simp [he])]
        exact ih hp.2 ((List.mem_cons.mp hmem).resolve_left hcpe)

/-! ## Arithmetic facts about `ceil_size` and `effSize` -/

theorem ceil_size_ge (n : Nat) : n ≤ ceil_size n intptrSize := by
  simp only [ceil_size, intptrSize]
  split
  · have := Nat.mod_lt n (show 0 < 8 by omega)
    omega
  · exact le_rfl

theorem ceil_size_mod (n : Nat) : ceil_size n intptrSize % 8 = 0 := by
  simp only [ceil_size, intptrSize]
  split
  · omega
  · omega

theorem ceil_size_least (n m : Nat) (hm : m % 8 = 0) (hnm : n ≤ m) :
    ceil_size n intptrSize ≤ m := by
  simp only [ceil_size, intptrSize]
  split
  · omega
  · exact hnm

theorem effSize_ge (n : Nat) : n ≤ effSize n := by
  simp only [effSize]
  split
  · have h1 := ceil_size_ge n
    omega
  · exact ceil_size_ge n

theorem effSize_min (n : Nat) : node_pad ≤ effSize n := by
  simp only [effSize]
  split
  · exact le_rfl
  · omega

theorem effSize_mod (n : Nat) : effSize n % 8 = 0 := by
  simp only [effSize]
  split
  · rw [node_pad_eq]
  · exact ceil_size_mod n

theorem effSize_pos (n : Nat) : 0 < effSize n := by
  have := effSize_min n
  rw [node_pad_eq] at this
  omega

/-! ## The global allocator invariant -/

/-- All structural invariants of a reachable allocator state. -/
structure WF (σ : AllocState) : Prop where
  /-- Before the first call: no sentinel means no heap at all. -/
  tree_nil : σ.tree = .nil → σ.chunks = [] ∧ σ.firstChunk = none
  /-- Geometry around the sentinel: the heap region starts right after the
  sentinel block `fake_root .. fake_root + header_pad + node_pad`, and the
  program break sits at the guard address (top of heap) once chunks exist,
  with the guard address being the end of the last chunk. -/
  base : ∀ fr l r, σ.tree = .node fr l r →
    (σ.chunks = [] ∧ σ.brk = fr + header_pad + node_pad ∧
      σ.firstChunk = none) ∨
    (∃ c0 t0, σ.chunks = c0 :: t0 ∧ c0.addr = fr + header_pad + node_pad ∧
      σ.firstChunk = some c0.addr ∧ σ.brk = σ.guardAddr ∧
      ∀ cl, σ.chunks.getLast? = some cl → σ.guardAddr = endAddr cl)
  /-- Chunks are physically contiguous, in address order. -/
  chain : σ.chunks.Chain' chAdj
  /-- Boundary-tag consistency: every footer equals its header. -/
  fs : ∀ c ∈ σ.chunks, c.fsize = c.size
  /-- All chunk sizes are multiples of the word size. -/
  szmul : ∀ c ∈ σ.chunks, c.size % 8 = 0
  /-- All chunk sizes can host a tree node. -/
  szmin : ∀ c ∈ σ.chunks, node_pad ≤ c.size
  /-- No two physically adjacent chunks are both free. -/
  noadj : σ.chunks.Chain' nafRel
  /-- The tree holds exactly the sentinel and the free chunks. -/
  tmem : ∀ a, a ∈ addrs σ.tree ↔
    (rootAddr σ.tree = some a ∨ ∃ c ∈ σ.chunks, c.addr = a ∧ c.inUse = false)
  /-- Tree node addresses are distinct. -/
  tnodup : (addrs σ.tree).Nodup
  /-- BST ordering by chunk size. -/
  tord : ord (szFn σ.chunks) σ.tree
  /-- Every node's parent pointer is its structural parent. -/
  tpcoh : pcoh σ.pm σ.tree none

theorem wf_init (b : Nat) : WF (initState b) := by
  refine ⟨fun _ => ⟨rfl, rfl⟩, fun fr l r h => by exact absurd h (by simp [initState]),
    ?_, ?_, ?_, ?_, ?_, ?_, ?_, ?_, ?_⟩
  · exact List.chain'_nil
  · intro c hc; exact absurd hc (List.not_mem_nil c)
  · intro c hc; exact absurd hc (List.not_mem_nil c)
  · intro c hc; exact absurd hc (List.not_mem_nil c)
  · exact List.chain'_nil
  · intro a
    simp [initState, addrs, rootAddr]
  · simp [initState, addrs]
  · exact trivial
  · exact trivial

/-! ## Derived facts about well-formed states -/

theorem wf_addr_lb {σ : AllocState} (hwf : WF σ) {fr : Nat} {l r : HTree}
    (htr : σ.tree = .node fr l r) :
    ∀ c ∈ σ.chunks, fr + header_pad + node_pad ≤ c.addr := by
  intro c hc
  rcases hwf.base fr l r htr with ⟨he, _, _⟩ | ⟨c0, t0, hcs, ha0, _, _, _⟩
  · rw [he] at hc
    exact absurd hc (List.not_mem_nil c)
  · rw [hcs] at hc
    rcases List.mem_cons.mp hc with rfl | hc2
    · omega
    · have := chain_head_le (hcs ▸ hwf.chain) c hc2
      have := endAddr_gt c0
      omega

theorem wf_szFn_root {σ : AllocState} (hwf : WF σ) {fr : Nat} {l r : HTree}
    (htr : σ.tree = .node fr l r) : szFn σ.chunks fr = 0 := by
  have hnone : findChunk σ.chunks fr = none := by
    rw [findChunk_none_iff]
    intro c hc
    have := wf_addr_lb hwf htr c hc
    rw [header_pad_eq, node_pad_eq] at this
    omega
  simp [szFn, szOf, hnone]

theorem wf_search_found {σ : AllocState} (hwf : WF σ) {fr q f : Nat}
    {l r : HTree} (htr : σ.tree = .node fr l r) (hq : 0 < q)
    (hf : (remove_chunk_by_size (szFn σ.chunks) σ.tree q none σ.pm
      σ.spAlt).1 = some f) :
    ∃ c ∈ σ.chunks, c.addr = f ∧ c.inUse = false ∧ q ≤ c.size ∧
      findChunk σ.chunks f = some c := by
  obtain ⟨hmem, hsz⟩ := rcbs_some_mem hf
  rcases (hwf.tmem f).mp hmem with hroot | ⟨c, hc, hca, hcu⟩
  · rw [htr] at hroot
    simp only [rootAddr, Option.some_inj] at hroot
    subst hroot
    rw [wf_szFn_root hwf htr] at hsz
    omega
  · have hfind := findChunk_eq_of_mem (chain_addr_nodup hwf.chain) hc hca
    have hcsz : szFn σ.chunks f = c.size := by
      simp [szFn, szOf, hfind]
    exact ⟨c, hc, hca, hcu, by rw [hcsz] at hsz; exact hsz, hfind⟩

theorem wf_decomp {σ : AllocState} (hwf : WF σ) {c : Chunk} (hc : c ∈ σ.chunks) :
    ∃ pre post, σ.chunks = pre ++ c :: post ∧
      (∀ e ∈ pre, e.addr ≠ c.addr) ∧ (∀ e ∈ post, e.addr ≠ c.addr) := by
  obtain ⟨pre, post, hsplit⟩ := List.append_of_mem hc
  refine ⟨pre, post, hsplit, ?_, ?_⟩
  · intro e he heq
    have hnd := chain_addr_nodup hwf.chain
    rw [hsplit, List.map_append, List.map_cons] at hnd
    have := (List.nodup_append.mp hnd).2.2
    exact this (List.mem_map_of_mem Chunk.addr he)
      (heq ▸ List.mem_cons_self c.addr (post.map Chunk.addr))
  · intro e he heq
    have hnd := chain_addr_nodup hwf.chain
    rw [hsplit, List.map_append, List.map_cons] at hnd
    have h2 := (List.nodup_append.mp hnd).2.1
    rw [List.nodup_cons] at h2
    exact h2.1 (heq ▸ List.mem_map_of_mem Chunk.addr he)

/-! ## Generic preservation lemmas for `setChunk` -/

theorem setChunk_eq_map (cs : List Chunk) (a : Nat) (g : Chunk → Chunk) :
    setChunk cs a g = cs.map (fun c => if c.addr = a then g c else c) := rfl

theorem chain_chAdj_setChunk {cs : List Chunk} {a : Nat} {g : Chunk → Chunk}
    (hg : ∀ c, (g c).addr = c.addr ∧ (g c).size = c.size)
    (h : cs.Chain' chAdj) : (setChunk cs a g).Chain' chAdj := by
  rw [setChunk_eq_map, List.chain'_map]
  refine h.imp ?_
  intro c1 c2 h12
  unfold chAdj endAddr at h12 ⊢
  by_cases h1 : c1.addr = a <;> by_cases h2 : c2.addr = a <;>
    simp only [h1, h2, if_pos, if_neg, (hg c1).1, (hg c1).2, (hg c2).1,
      (hg c2).2, ite_true, ite_false] <;> simp_all

theorem naf_setChunk_toUse {cs : List Chunk} {a : Nat} {g : Chunk → Chunk}
    (hg : ∀ c, (g c).inUse = true) (h : cs.Chain' nafRel) :
    (setChunk cs a g).Chain' nafRel := by
  rw [setChunk_eq_map, List.chain'_map]
  refine h.imp ?_
  intro c1 c2 h12
  unfold nafRel at h12 ⊢
  by_cases h1 : c1.addr = a
  · simp [h1, hg c1]
  · by_cases h2 : c2.addr = a
    · simp [h1, h2, hg c2]
    · simpa [h1, h2] using h12

theorem szFn_setChunk_pres {cs : List Chunk} {a : Nat} {g : Chunk → Chunk}
    (hg : ∀ c, (g c).addr = c.addr ∧ (g c).size = c.size) (b : Nat) :
    szFn (setChunk cs a g) b = szFn cs b := by
  by_cases hba : b = a
  · subst hba
    rw [szFn, szOf, findChunk_setChunk_self cs b g (fun c => (hg c).1)]
    rcases h : findChunk cs b with _ | c
    · simp [szFn, szOf, h]
    · simp [szFn, szOf, h, (hg c).2]
  · rw [szFn, szOf,
      findChunk_setChunk_other cs a b g (fun c => (hg c).1) hba]
    rfl

theorem getLast?_setChunk {cs : List Chunk} {a : Nat} {g : Chunk → Chunk} :
    (setChunk cs a g).getLast? =
      cs.getLast?.map (fun c => if c.addr = a then g c else c) := by
  rw [setChunk_eq_map]
  exact List.getLast?_map _ cs

/-! ## Step characterizations of `trallocStep` -/

theorem trallocStep_eq_fake (σ : AllocState) (n : Nat) (hnil : σ.tree = .nil)
    (hc0 : σ.chunks = []) (hfc : σ.firstChunk = none) :
    trallocStep σ n =
      ({ brk := σ.brk + (header_pad + node_pad) +
            (header_pad + effSize n + footer_pad),
         firstChunk := some (σ.brk + (header_pad + node_pad)),
         guardAddr := σ.brk + (header_pad + node_pad) + header_pad +
            effSize n + footer_pad,
         chunks := [⟨σ.brk + (header_pad + node_pad), effSize n, effSize n,
            true⟩],
         tree := .node σ.brk .nil .nil,
         pm := pupd σ.pm σ.brk none,
         eqAlt := σ.eqAlt, spAlt := σ.spAlt },
       σ.brk + (header_pad + node_pad) + header_pad) := by
  obtain ⟨brk0, fc0, ga0, cs0, tr0, pm0, ea0, sa0⟩ := σ
  simp only at hnil hc0 hfc
  subst hnil
  subst hc0
  subst hfc
  have hlt : szFn [] brk0 < effSize n := by
    have := effSize_pos n
    simpa [szFn, szOf, findChunk] using this
  simp only [trallocStep, rcbs_lt hlt]
  simp [remove_chunk_by_size]

theorem trallocStep_eq_miss (σ : AllocState) (n : Nat) (fr : Nat)
    (l r : HTree) (htr : σ.tree = .node fr l r)
    (hmiss : (remove_chunk_by_size (szFn σ.chunks) σ.tree (effSize n) none
      σ.pm σ.spAlt).1 = none) :
    trallocStep σ n =
      ({ σ with
         brk := σ.brk + (header_pad + effSize n + footer_pad),
         firstChunk := match σ.firstChunk with
                       | none => some σ.brk
                       | some f0 => some f0,
         guardAddr := σ.brk + header_pad + effSize n + footer_pad,
         chunks := σ.chunks ++ [⟨σ.brk, effSize n, effSize n, true⟩] },
       σ.brk + header_pad) := by
  have heq := rcbs_none_eq hmiss
  obtain ⟨brk0, fc0, ga0, cs0, tr0, pm0, ea0, sa0⟩ := σ
  simp only at htr hmiss heq ⊢
  subst htr
  simp [trallocStep, heq]

theorem trallocStep_eq_nosplit (σ : AllocState) (n : Nat) (fr f : Nat)
    (l r : HTree) (c : Chunk) (htr : σ.tree = .node fr l r)
    (hf : (remove_chunk_by_size (szFn σ.chunks) σ.tree (effSize n) none
      σ.pm σ.spAlt).1 = some f)
    (hfind : findChunk σ.chunks f = some c)
    (hcond : ¬c.size ≥ effSize n + footer_pad + header_pad + node_pad) :
    trallocStep σ n =
      ({ σ with
         chunks := setChunk σ.chunks f (fun c0 => { c0 with inUse := true }),
         tree := (remove_chunk_by_size (szFn σ.chunks) σ.tree (effSize n)
           none σ.pm σ.spAlt).2.1,
         pm := (remove_chunk_by_size (szFn σ.chunks) σ.tree (effSize n)
           none σ.pm σ.spAlt).2.2.1,
         spAlt := (remove_chunk_by_size (szFn σ.chunks) σ.tree (effSize n)
           none σ.pm σ.spAlt).2.2.2 },
       f + header_pad) := by
  obtain ⟨brk0, fc0, ga0, cs0, tr0, pm0, ea0, sa0⟩ := σ
  simp only at htr hf hfind ⊢
  subst htr
  simp [trallocStep, hf, hfind, hcond]

theorem trallocStep_eq_split (σ : AllocState) (n : Nat) (fr f : Nat)
    (l r : HTree) (c : Chunk) (htr : σ.tree = .node fr l r)
    (hf : (remove_chunk_by_size (szFn σ.chunks) σ.tree (effSize n) none
      σ.pm σ.spAlt).1 = some f)
    (hfind : findChunk σ.chunks f = some c)
    (hcond : c.size ≥ effSize n + footer_pad + header_pad + node_pad) :
    trallocStep σ n =
      ({ σ with
         chunks := setChunk
           (replaceChunk σ.chunks f
             [c, ⟨f + header_pad + effSize n + footer_pad,
                  c.size - effSize n - footer_pad - header_pad,
                  c.size - effSize n - footer_pad - header_pad, false⟩]) f
           (fun c0 =>
             { c0 with size := effSize n, fsize := effSize n, inUse := true }),
         tree := (add_chunk
           (szFn (replaceChunk σ.chunks f
             [c, ⟨f + header_pad + effSize n + footer_pad,
                  c.size - effSize n - footer_pad - header_pad,
                  c.size - effSize n - footer_pad - header_pad, false⟩]))
           (remove_chunk_by_size (szFn σ.chunks) σ.tree (effSize n) none
             σ.pm σ.spAlt).2.1
           (f + header_pad + effSize n + footer_pad) none
           (remove_chunk_by_size (szFn σ.chunks) σ.tree (effSize n) none
             σ.pm σ.spAlt).2.2.1 σ.eqAlt).1,
         pm := (add_chunk
           (szFn (replaceChunk σ.chunks f
             [c, ⟨f + header_pad + effSize n + footer_pad,
                  c.size - effSize n - footer_pad - header_pad,
                  c.size - effSize n - footer_pad - header_pad, false⟩]))
           (remove_chunk_by_size (szFn σ.chunks) σ.tree (effSize n) none
             σ.pm σ.spAlt).2.1
           (f + header_pad + effSize n + footer_pad) none
           (remove_chunk_by_size (szFn σ.chunks) σ.tree (effSize n) none
             σ.pm σ.spAlt).2.2.1 σ.eqAlt).2.1,
         eqAlt := (add_chunk
           (szFn (replaceChunk σ.chunks f
             [c, ⟨f + header_pad + effSize n + footer_pad,
                  c.size - effSize n - footer_pad - header_pad,
                  c.size - effSize n - footer_pad - header_pad, false⟩]))
           (remove_chunk_by_size (szFn σ.chunks) σ.tree (effSize n) none
             σ.pm σ.spAlt).2.1
           (f + header_pad + effSize n + footer_pad) none
           (remove_chunk_by_size (szFn σ.chunks) σ.tree (effSize n) none
             σ.pm σ.spAlt).2.2.1 σ.eqAlt).2.2,
         spAlt := (remove_chunk_by_size (szFn σ.chunks) σ.tree (effSize n)
           none σ.pm σ.spAlt).2.2.2 },
       f + header_pad) := by
  obtain ⟨brk0, fc0, ga0, cs0, tr0, pm0, ea0, sa0⟩ := σ
  simp only at htr hf hfind ⊢
  subst htr
  simp [trallocStep, hf, hfind, hcond]

/-! ## Preservation of the invariant by `trallocStep` -/

theorem wf_alloc_fake {σ : AllocState} (n : Nat) (hwf : WF σ)
    (hnil : σ.tree = .nil) : WF (trallocStep σ n).1 := by
  obtain ⟨hc0, hfc⟩ := hwf.tree_nil hnil
  rw [trallocStep_eq_fake σ n hnil hc0 hfc]
  constructor
  · intro h
    simp at h
  · intro fr l r h
    simp only at h
    injection h with h1 h2 h3
    subst h1
    right
    refine ⟨_, [], rfl, rfl, rfl, by simp only; omega, ?_⟩
    intro cl hcl
    simp only [List.getLast?_singleton, Option.some_inj] at hcl
    subst hcl
    simp only [endAddr]
  · exact List.chain'_singleton _
  · intro c hc
    simp only [List.mem_singleton] at hc
    subst hc
    rfl
  · intro c hc
    simp only [List.mem_singleton] at hc
    subst hc
    exact effSize_mod n
  · intro c hc
    simp only [List.mem_singleton] at hc
    subst hc
    exact effSize_min n
  · exact List.chain'_singleton _
  · intro a
    constructor
    · intro ha
      rw [mem_addrs_node] at ha
      rcases ha with rfl | h | h
      · exact Or.inl rfl
      · exact absurd h mem_addrs_nil.mp
      · exact absurd h mem_addrs_nil.mp
    · rintro (h | ⟨c, hc, hca, hcu⟩)
      · simp only [rootAddr, Option.some_inj] at h
        rw [mem_addrs_node]
        exact Or.inl h.symm
      · rcases List.mem_singleton.mp hc with rfl
        exact absurd hcu (by simp)
  · simp [addrs]
  · exact ⟨by simp [addrs], by simp [addrs], trivial, trivial⟩
  · exact ⟨pupd_self, trivial, trivial⟩


theorem chain_end_le_last {cs : List Chunk} (h : cs.Chain' chAdj) {cl : Chunk}
    (hl : cs.getLast? = some cl) : ∀ c ∈ cs, endAddr c ≤ endAddr cl := by
  induction cs with
  | nil => simp at hl
  | cons e t ih =>
      rcases t with _ | ⟨e2, t2⟩
      · simp only [List.getLast?_singleton, Option.some_inj] at hl
        subst hl
        intro c hc
        rcases List.mem_singleton.mp hc with rfl
        exact le_rfl
      · have h1 : chAdj e e2 := (List.chain'_cons.mp h).1
        have h2 := (List.chain'_cons.mp h).2
        have hl2 : (e2 :: t2).getLast? = some cl := by
          rw [List.getLast?_cons_cons] at hl
          exact hl
        intro c hc
        rcases List.mem_cons.mp hc with rfl | hc2
        · have he2 := ih h2 hl2 e2 (List.mem_cons_self e2 t2)
          have : endAddr c = e2.addr := h1
          have := endAddr_gt e2
          omega
        · exact ih h2 hl2 c hc2

theorem wf_alloc_miss {σ : AllocState} (n : Nat) {fr : Nat} {l r : HTree}
    (hwf : WF σ) (htr : σ.tree = .node fr l r)
    (hmiss : (remove_chunk_by_size (szFn σ.chunks) σ.tree (effSize n) none
      σ.pm σ.spAlt).1 = none) : WF (trallocStep σ n).1 := by
  have hbrkfr : fr + header_pad + node_pad ≤ σ.brk := by
    rcases hwf.base fr l r htr with ⟨he, hb, _⟩ | ⟨c0, t0, hcs, ha0, _, hbg, hlast⟩
    · omega
    · rcases hl : σ.chunks.getLast? with _ | cl
      · rw [hcs] at hl
        simp at hl
      · have hclm : cl ∈ σ.chunks := List.mem_of_mem_getLast? (by rw [hl]; rfl)
        have := wf_addr_lb hwf htr cl hclm
        have := endAddr_gt cl
        have := hlast cl hl
        omega
  have hlink : ∀ cl, σ.chunks.getLast? = some cl → endAddr cl = σ.brk := by
    intro cl hl
    rcases hwf.base fr l r htr with ⟨he, _, _⟩ | ⟨c0, t0, hcs, _, _, hbg, hlast⟩
    · rw [he] at hl
      simp at hl
    · rw [hbg, hlast cl hl]
  have hfresh : ∀ c ∈ σ.chunks, c.addr < σ.brk := by
    intro c hc
    rcases hl : σ.chunks.getLast? with _ | cl
    · rw [List.getLast?_eq_none_iff] at hl
      rw [hl] at hc
      exact absurd hc (List.not_mem_nil c)
    · have h1 := chain_end_le_last hwf.chain hl c hc
      have h2 := hlink cl hl
      have := endAddr_gt c
      omega
  rw [trallocStep_eq_miss σ n fr l r htr hmiss]
  constructor
  · intro h
    simp only at h
    rw [htr] at h
    exact absurd h (by simp)
  · intro fr' l' r' h
    simp only at h
    rw [htr] at h
    injection h with h1 h2 h3
    subst h1
    right
    simp only
    rcases hwf.base fr l r htr with ⟨he, hb, hfc⟩ | ⟨c0, t0, hcs, ha0, hfc, hbg, hlast⟩
    · refine ⟨⟨σ.brk, effSize n, effSize n, true⟩, [],
        by rw [he]; rfl, by simp only; omega, by rw [hfc], by omega, ?_⟩
      intro cl hcl
      rw [he] at hcl
      simp only [List.nil_append, List.getLast?_singleton,
        Option.some_inj] at hcl
      subst hcl
      simp only [endAddr]
    · refine ⟨c0, t0 ++ [⟨σ.brk, effSize n, effSize n, true⟩],
        by rw [hcs]; simp, ha0, by rw [hfc], by omega, ?_⟩
      intro cl hcl
      rw [List.getLast?_concat] at hcl
      injection hcl with hcl
      subst hcl
      simp only [endAddr]
  · simp only
    rw [List.chain'_append]
    refine ⟨hwf.chain, List.chain'_singleton _, ?_⟩
    intro x hx y hy
    simp only [List.head?, Option.mem_def, Option.some_inj] at hy
    subst hy
    exact hlink x hx
  · intro c hc
    simp only at hc
    rcases List.mem_append.mp hc with hc2 | hc2
    · exact hwf.fs c hc2
    · rcases List.mem_singleton.mp hc2 with rfl
      rfl
  · intro c hc
    simp only at hc
    rcases List.mem_append.mp hc with hc2 | hc2
    · exact hwf.szmul c hc2
    · rcases List.mem_singleton.mp hc2 with rfl
      exact effSize_mod n
  · intro c hc
    simp only at hc
    rcases List.mem_append.mp hc with hc2 | hc2
    · exact hwf.szmin c hc2
    · rcases List.mem_singleton.mp hc2 with rfl
      exact effSize_min n
  · simp only
    rw [List.chain'_append]
    refine ⟨hwf.noadj, List.chain'_singleton _, ?_⟩
    intro x hx y hy
    simp only [List.head?, Option.mem_def, Option.some_inj] at hy
    subst hy
    exact Or.inr rfl
  · intro a
    simp only
    rw [hwf.tmem a]
    constructor
    · rintro (h | ⟨c, hc, hca, hcu⟩)
      · exact Or.inl h
      · exact Or.inr ⟨c, List.mem_append_left _ hc, hca, hcu⟩
    · rintro (h | ⟨c, hc, hca, hcu⟩)
      · exact Or.inl h
      · rcases List.mem_append.mp hc with hc2 | hc2
        · exact Or.inr ⟨c, hc2, hca, hcu⟩
        · rcases List.mem_singleton.mp hc2 with rfl
          simp at hcu
  · exact hwf.tnodup
  · simp only
    rw [ord_congr ?hsz]
    · exact hwf.tord
    case hsz =>
      intro a ha
      rcases (hwf.tmem a).mp ha with h | ⟨c, hc, hca, hcu⟩
      · rw [htr] at h
        simp only [rootAddr, Option.some_inj] at h
        cases h
        have hn : findChunk σ.chunks fr = none := by
          rw [findChunk_none_iff]
          intro c hc heq
          have := wf_addr_lb hwf htr c hc
          rw [header_pad_eq, node_pad_eq] at this
          omega
        have hn2 : findChunk (σ.chunks ++ [⟨σ.brk, effSize n, effSize n,
            true⟩]) fr = none := by
          rw [findChunk_append_right hn]
          rw [findChunk_none_iff]
          intro c hc heq
          rcases List.mem_singleton.mp hc with rfl
          simp only at heq
          rw [header_pad_eq, node_pad_eq] at hbrkfr
          omega
        simp [szFn, szOf, hn, hn2]
      · have hfind := findChunk_eq_of_mem (chain_addr_nodup hwf.chain) hc hca
        rw [szFn, szFn, szOf, szOf, findChunk_append_left hfind, hfind]
  · exact hwf.tpcoh

theorem free_in_setChunk_inuse {cs : List Chunk} {f a : Nat} :
    (∃ c2 ∈ setChunk cs f (fun c0 => { c0 with inUse := true }),
      c2.addr = a ∧ c2.inUse = false) ↔
    ((∃ c2 ∈ cs, c2.addr = a ∧ c2.inUse = false) ∧ a ≠ f) := by
  rw [setChunk_eq_map]
  constructor
  · rintro ⟨c2, hc2, hca, hcu⟩
    obtain ⟨c0, hc0, hm⟩ := List.mem_map.mp hc2
    by_cases h0 : c0.addr = f
    · rw [if_pos h0] at hm
      rw [← hm] at hcu
      simp at hcu
    · rw [if_neg h0] at hm
      subst hm
      exact ⟨⟨c0, hc0, hca, hcu⟩, hca ▸ h0⟩
  · rintro ⟨⟨c2, hc2, hca, hcu⟩, hne⟩
    refine ⟨c2, ?_, hca, hcu⟩
    have h0 : c2.addr ≠ f := hca ▸ hne
    have := List.mem_map_of_mem (fun c0 => if c0.addr = f then
      { c0 with inUse := true } else c0) hc2
    simpa [h0] using this

theorem wf_alloc_nosplit {σ : AllocState} (n : Nat) {fr f : Nat}
    {l r : HTree} {c : Chunk} (hwf : WF σ) (htr : σ.tree = .node fr l r)
    (hf : (remove_chunk_by_size (szFn σ.chunks) σ.tree (effSize n) none
      σ.pm σ.spAlt).1 = some f)
    (hfind : findChunk σ.chunks f = some c)
    (hcond : ¬c.size ≥ effSize n + footer_pad + header_pad + node_pad) :
    WF (trallocStep σ n).1 := by
  have hcm : c ∈ σ.chunks := findChunk_mem hfind
  have hca : c.addr = f := findChunk_addr hfind
  have hffr : fr < f := by
    have := wf_addr_lb hwf htr c hcm
    rw [header_pad_eq, node_pad_eq] at this
    omega
  have hroot2 : ∃ r2, (remove_chunk_by_size (szFn σ.chunks) σ.tree
      (effSize n) none σ.pm σ.spAlt).2.1 = .node fr l r2 := by
    have hlt : szFn σ.chunks fr < effSize n := by
      rw [wf_szFn_root hwf htr]
      exact effSize_pos n
    rw [htr, rcbs_lt hlt]
    exact ⟨_, rfl⟩
  obtain ⟨r2, hr2⟩ := hroot2
  have hfmem : f ∈ addrs σ.tree := (rcbs_some_mem hf).1
  rw [trallocStep_eq_nosplit σ n fr f l r c htr hf hfind hcond]
  constructor
  · intro h
    simp only at h
    rw [hr2] at h
    exact absurd h (by simp)
  · intro fr' l' r' h
    simp only at h
    rw [hr2] at h
    injection h with h1 h2 h3
    subst h1
    right
    simp only
    rcases hwf.base fr l r htr with ⟨he, _, _⟩ | ⟨c0, t0, hcs, ha0, hfc, hbg, hlast⟩
    · rw [he] at hcm
      exact absurd hcm (List.not_mem_nil c)
    · refine ⟨if c0.addr = f then { c0 with inUse := true } else c0,
        setChunk t0 f (fun c0 => { c0 with inUse := true }),
        by rw [hcs]; rfl, by split <;> exact ha0,
        by rw [hfc]; split <;> rfl, hbg, ?_⟩
      intro cl hcl
      rw [getLast?_setChunk] at hcl
      rcases hl : σ.chunks.getLast? with _ | cl0
      · rw [hl] at hcl
        simp at hcl
      · rw [hl] at hcl
        have hcl2 : cl = if cl0.addr = f then { cl0 with inUse := true }
            else cl0 := by
          injection hcl with h9
          exact h9.symm
        subst hcl2
        have hge := hlast cl0 hl
        split <;> exact hge
  · exact chain_chAdj_setChunk (fun c0 => ⟨rfl, rfl⟩) hwf.chain
  · intro c2 hc2
    rw [setChunk_eq_map] at hc2
    obtain ⟨c0, hc0, hm⟩ := List.mem_map.mp hc2
    have hq := hwf.fs c0 hc0
    subst hm
    split <;> exact hq
  · intro c2 hc2
    rw [setChunk_eq_map] at hc2
    obtain ⟨c0, hc0, hm⟩ := List.mem_map.mp hc2
    have hq := hwf.szmul c0 hc0
    subst hm
    split <;> exact hq
  · intro c2 hc2
    rw [setChunk_eq_map] at hc2
    obtain ⟨c0, hc0, hm⟩ := List.mem_map.mp hc2
    have hq := hwf.szmin c0 hc0
    subst hm
    split <;> exact hq
  · exact naf_setChunk_toUse (fun c0 => rfl) hwf.noadj
  · intro a
    simp only
    rw [free_in_setChunk_inuse]
    constructor
    · intro hmem
      have h2 := (rcbs_mem hwf.tnodup hf a).mp hmem
      rcases (hwf.tmem a).mp h2.1 with h3 | h3
      · left
        rw [hr2]
        rw [htr] at h3
        simpa [rootAddr] using h3
      · exact Or.inr ⟨h3, h2.2⟩
    · intro h
      rcases h with h3 | ⟨h3, hne⟩
      · rw [hr2] at h3
        simp only [rootAddr, Option.some_inj] at h3
        apply (rcbs_mem hwf.tnodup hf a).mpr
        refine ⟨?_, by omega⟩
        rw [htr]
        rw [mem_addrs_node]
        exact Or.inl h3.symm
      · exact (rcbs_mem hwf.tnodup hf a).mpr
          ⟨(hwf.tmem a).mpr (Or.inr h3), hne⟩
  · exact rcbs_nodup hwf.tnodup
  · simp only
    have hpt : ∀ a ∈ addrs (remove_chunk_by_size (szFn σ.chunks) σ.tree
        (effSize n) none σ.pm σ.spAlt).2.1,
        szFn (setChunk σ.chunks f (fun c0 => { c0 with inUse := true })) a =
          szFn σ.chunks a := by
      intro a ha
      exact szFn_setChunk_pres (g := fun c0 => { c0 with inUse := true })
        (fun c0 => ⟨rfl, rfl⟩) a
    rw [ord_congr hpt]
    exact rcbs_ord hwf.tnodup hwf.tord
  · exact rcbs_pcoh hwf.tnodup hwf.tpcoh

/-! ## List surgery helpers for the split branch -/

theorem findChunk_insert_middle {cs ds : List Chunk} {e : Chunk} {a : Nat}
    (he : e.addr ≠ a) :
    findChunk (cs ++ e :: ds) a = findChunk (cs ++ ds) a := by
  induction cs with
  | nil => exact findChunk_cons_neg he
  | cons e2 t ih =>
      by_cases h2 : e2.addr = a
      · rw [List.cons_append, findChunk_cons_pos h2, List.cons_append,
          findChunk_cons_pos h2]
      · rw [List.cons_append, findChunk_cons_neg h2, List.cons_append,
          findChunk_cons_neg h2]
        exact ih

theorem szFn_setChunk_ne {cs : List Chunk} {a b : Nat} {g : Chunk → Chunk}
    (hg : ∀ c, (g c).addr = c.addr) (hab : a ≠ b) :
    szFn (setChunk cs b g) a = szFn cs a := by
  induction cs with
  | nil => rfl
  | cons e t ih =>
      by_cases he : e.addr = b
      · have h1 : setChunk (e :: t) b g = g e :: setChunk t b g := by
          simp [setChunk, he]
        have hga : (g e).addr ≠ a := by
          rw [hg e, he]
          exact fun h => hab h.symm
        have hea : e.addr ≠ a := by
          rw [he]
          exact fun h => hab h.symm
        rw [h1]
        unfold szFn szOf
        rw [findChunk_cons_neg hga, findChunk_cons_neg hea]
        exact ih
      · have h1 : setChunk (e :: t) b g = e :: setChunk t b g := by
          simp [setChunk, he]
        rw [h1]
        by_cases hea : e.addr = a
        · unfold szFn szOf
          rw [findChunk_cons_pos hea, findChunk_cons_pos hea]
        · unfold szFn szOf
          rw [findChunk_cons_neg hea, findChunk_cons_neg hea]
          exact ih

theorem getLast_append_cons (a : Chunk) (l1 l2 : List Chunk) :
    (l1 ++ a :: l2).getLast? = (a :: l2).getLast? := by
  induction l1 with
  | nil => rfl
  | cons e t ih =>
      rw [List.cons_append, ← ih]
      rcases h : t ++ a :: l2 with _ | ⟨b, m⟩
      · exact absurd h (by simp)
      · exact List.getLast?_cons_cons

theorem wf_alloc_split {σ : AllocState} (n : Nat) {fr f : Nat}
    {l r : HTree} {c : Chunk} (hwf : WF σ) (htr : σ.tree = .node fr l r)
    (hf : (remove_chunk_by_size (szFn σ.chunks) σ.tree (effSize n) none
      σ.pm σ.spAlt).1 = some f)
    (hfind : findChunk σ.chunks f = some c)
    (hcond : c.size ≥ effSize n + footer_pad + header_pad + node_pad) :
    WF (trallocStep σ n).1 := by
  have hcm : c ∈ σ.chunks := findChunk_mem hfind
  have hca : c.addr = f := findChunk_addr hfind
  have hcu : c.inUse = false := by
    obtain ⟨c2, _, _, hcu2, _, hfind2⟩ :=
      wf_search_found hwf htr (effSize_pos n) hf
    rw [hfind] at hfind2
    injection hfind2 with h9
    rw [h9]
    exact hcu2
  have hffr : fr < f := by
    have := wf_addr_lb hwf htr c hcm
    rw [header_pad_eq, node_pad_eq] at this
    omega
  have hcond9 : c.size ≥ effSize n + 8 + 16 + 24 := by
    rw [footer_pad_eq, header_pad_eq, node_pad_eq] at hcond
    exact hcond
  have hroot2 : ∃ r2, (remove_chunk_by_size (szFn σ.chunks) σ.tree
      (effSize n) none σ.pm σ.spAlt).2.1 = .node fr l r2 := by
    have hlt : szFn σ.chunks fr < effSize n := by
      rw [wf_szFn_root hwf htr]
      exact effSize_pos n
    rw [htr, rcbs_lt hlt]
    exact ⟨_, rfl⟩
  obtain ⟨r2, hr2⟩ := hroot2
  obtain ⟨pre, post, hsplit, hpre0, hpost0⟩ := wf_decomp hwf hcm
  have hpre : ∀ e ∈ pre, e.addr ≠ f := fun e he => hca ▸ hpre0 e he
  have hpost : ∀ e ∈ post, e.addr ≠ f := fun e he => hca ▸ hpost0 e he
  have hdgt : f < f + header_pad + effSize n + footer_pad := by
    rw [header_pad_eq]
    omega
  have hdne : f + header_pad + effSize n + footer_pad ≠ f := by omega
  have hch1 : replaceChunk σ.chunks f
      [c, ⟨f + header_pad + effSize n + footer_pad,
           c.size - effSize n - footer_pad - header_pad,
           c.size - effSize n - footer_pad - header_pad, false⟩] =
      pre ++ c :: (⟨f + header_pad + effSize n + footer_pad,
           c.size - effSize n - footer_pad - header_pad,
           c.size - effSize n - footer_pad - header_pad, false⟩ : Chunk) ::
        post := by
    rw [hsplit, replaceChunk_decomp hpre hca, List.append_assoc]
    rfl
  have hpost2 : ∀ e ∈ (⟨f + header_pad + effSize n + footer_pad,
      c.size - effSize n - footer_pad - header_pad,
      c.size - effSize n - footer_pad - header_pad, false⟩ : Chunk) :: post,
      e.addr ≠ f := by
    intro e he
    rcases List.mem_cons.mp he with rfl | he2
    · exact hdne
    · exact hpost e he2
  have hch2 : setChunk (pre ++ c ::
      (⟨f + header_pad + effSize n + footer_pad,
        c.size - effSize n - footer_pad - header_pad,
        c.size - effSize n - footer_pad - header_pad, false⟩ : Chunk) :: post)
      f (fun c0 => { c0 with size := effSize n, fsize := effSize n, inUse := true }) =
      pre ++ ({ c with size := effSize n, fsize := effSize n, inUse := true } : Chunk) ::
      (⟨f + header_pad + effSize n + footer_pad,
        c.size - effSize n - footer_pad - header_pad,
        c.size - effSize n - footer_pad - header_pad, false⟩ : Chunk) ::
        post :=
    setChunk_decomp hpre hca hpost2
  have hEnddc : endAddr (⟨f + header_pad + effSize n + footer_pad,
      c.size - effSize n - footer_pad - header_pad,
      c.size - effSize n - footer_pad - header_pad, false⟩ : Chunk) =
      endAddr c := by
    show f + header_pad + effSize n + footer_pad + header_pad +
      (c.size - effSize n - footer_pad - header_pad) + footer_pad =
      c.addr + header_pad + c.size + footer_pad
    rw [hca, header_pad_eq, footer_pad_eq]
    omega
  have hEndcp : endAddr ({ c with size := effSize n, fsize := effSize n, inUse := true } : Chunk) = f + header_pad + effSize n + footer_pad := by
    show c.addr + header_pad + effSize n + footer_pad = _
    rw [hca]
  have hdnotin : f + header_pad + effSize n + footer_pad ∉
      addrs (remove_chunk_by_size (szFn σ.chunks) σ.tree (effSize n) none
        σ.pm σ.spAlt).2.1 := by
    intro hmem
    have h2 := (rcbs_mem hwf.tnodup hf _).mp hmem
    rcases (hwf.tmem _).mp h2.1 with h3 | ⟨e, he, hea, _⟩
    · rw [htr] at h3
      simp only [rootAddr, Option.some_inj] at h3
      rw [header_pad_eq, footer_pad_eq] at h3
      omega
    · have hplt := chain_pairwise_lt hwf.chain
      rw [hsplit] at hplt he
      rw [List.pairwise_append] at hplt
      rcases List.mem_append.mp he with h9 | h9
      · have h4 := hplt.2.2 e h9 c (List.mem_cons_self _ _)
        rw [hea, hca, header_pad_eq, footer_pad_eq] at h4
        omega
      · rcases List.mem_cons.mp h9 with rfl | h9
        · rw [hca, header_pad_eq, footer_pad_eq] at hea
          omega
        · have hccpost : List.Chain' chAdj (c :: post) :=
            (List.chain'_append.mp (hsplit ▸ hwf.chain)).2.1
          have h4 := chain_head_le hccpost e h9
          rw [hea] at h4
          unfold endAddr at h4
          rw [hca, header_pad_eq, footer_pad_eq] at h4
          omega
  have hsh : ∃ l3 r3, (add_chunk (szFn (pre ++ c ::
      (⟨f + header_pad + effSize n + footer_pad,
        c.size - effSize n - footer_pad - header_pad,
        c.size - effSize n - footer_pad - header_pad, false⟩ : Chunk) :: post))
      (HTree.node fr l r2)
      (f + header_pad + effSize n + footer_pad) none
      (remove_chunk_by_size (szFn σ.chunks) σ.tree (effSize n) none σ.pm
        σ.spAlt).2.2.1 σ.eqAlt).1 = HTree.node fr l3 r3 :=
    add_chunk_shape _ _ _ _ _ _ _
  obtain ⟨l3, r3, hsh⟩ := hsh
  rw [trallocStep_eq_split σ n fr f l r c htr hf hfind hcond]
  rw [hch1, hch2]
  constructor
  · intro h
    simp only at h
    rw [hr2, hsh] at h
    exact HTree.noConfusion h
  · intro fr9 l9 r9 h
    simp only at h
    rw [hr2, hsh] at h
    injection h with h1 _ _
    subst h1
    right
    simp only
    rcases hwf.base fr l r htr with ⟨he, _, _⟩ |
      ⟨c0, t0, hcs, ha0, hfc, hbg, hlast⟩
    · rw [he] at hcm
      exact absurd hcm (List.not_mem_nil c)
    · have hgl2 : ∀ cl, (pre ++ ({ c with size := effSize n, fsize := effSize n, inUse := true } : Chunk) ::
          (⟨f + header_pad + effSize n + footer_pad,
            c.size - effSize n - footer_pad - header_pad,
            c.size - effSize n - footer_pad - header_pad, false⟩ : Chunk) ::
          post).getLast? = some cl → σ.guardAddr = endAddr cl := by
        intro cl hcl
        rw [getLast_append_cons] at hcl
        rcases post with _ | ⟨q0, qt⟩
        · have hcl2 : cl = ⟨f + header_pad + effSize n + footer_pad,
              c.size - effSize n - footer_pad - header_pad,
              c.size - effSize n - footer_pad - header_pad, false⟩ := by
            injection hcl with h9
            exact h9.symm
          subst hcl2
          have h8 : σ.chunks.getLast? = some c := by
            rw [hsplit]
            exact getLast_append_cons c pre []
          rw [hEnddc]
          exact hlast c h8
        · have h8 : σ.chunks.getLast? = (q0 :: qt).getLast? := by
            rw [hsplit, getLast_append_cons c pre (q0 :: qt),
              List.getLast?_cons_cons]
          rw [List.getLast?_cons_cons, List.getLast?_cons_cons] at hcl
          apply hlast
          rw [h8]
          exact hcl
      rcases pre with _ | ⟨p0, pt⟩
      · simp only [List.nil_append] at hsplit
        rw [hcs] at hsplit
        injection hsplit with h7 h7b
        refine ⟨{ c with size := effSize n, fsize := effSize n, inUse := true },
          (⟨f + header_pad + effSize n + footer_pad,
            c.size - effSize n - footer_pad - header_pad,
            c.size - effSize n - footer_pad - header_pad, false⟩ : Chunk) ::
            post, by simp, ?_, ?_, hbg, hgl2⟩
        · show c.addr = fr + header_pad + node_pad
          rw [← h7]
          exact ha0
        · rw [hfc, h7]
      · rw [hcs] at hsplit
        injection hsplit with h7 h7b
        refine ⟨p0, pt ++ ({ c with size := effSize n, fsize := effSize n, inUse := true } : Chunk) ::
          (⟨f + header_pad + effSize n + footer_pad,
            c.size - effSize n - footer_pad - header_pad,
            c.size - effSize n - footer_pad - header_pad, false⟩ : Chunk) ::
            post, rfl, ?_, ?_, hbg, hgl2⟩
        · rw [← h7]
          exact ha0
        · rw [hfc, h7]
  · simp only
    have hchain0 := hwf.chain
    rw [hsplit, List.chain'_append] at hchain0
    obtain ⟨hcpre, hcc, hlink⟩ := hchain0
    rw [List.chain'_cons'] at hcc
    obtain ⟨hcy, hcpost⟩ := hcc
    rw [List.chain'_append]
    refine ⟨hcpre, ?_, ?_⟩
    · rw [List.chain'_cons]
      refine ⟨hEndcp, ?_⟩
      rw [List.chain'_cons']
      refine ⟨?_, hcpost⟩
      intro y hy
      have h4 := hcy y hy
      show endAddr (⟨f + header_pad + effSize n + footer_pad,
        c.size - effSize n - footer_pad - header_pad,
        c.size - effSize n - footer_pad - header_pad, false⟩ : Chunk) = y.addr
      rw [hEnddc]
      exact h4
    · intro x hx y hy
      have hy3 : some ({ c with size := effSize n, fsize := effSize n, inUse := true } : Chunk) = some y := hy
      injection hy3 with hy3
      have h4 := hlink x hx c rfl
      rw [← hy3]
      exact h4
  · intro c2 hc2
    rcases List.mem_append.mp hc2 with h9 | h9
    · exact hwf.fs c2 (by rw [hsplit]; exact List.mem_append_left _ h9)
    · rcases List.mem_cons.mp h9 with rfl | h9
      · rfl
      · rcases List.mem_cons.mp h9 with rfl | h9
        · rfl
        · exact hwf.fs c2 (by
            rw [hsplit]
            exact List.mem_append_right _ (List.mem_cons_of_mem _ h9))
  · intro c2 hc2
    rcases List.mem_append.mp hc2 with h9 | h9
    · exact hwf.szmul c2 (by rw [hsplit]; exact List.mem_append_left _ h9)
    · rcases List.mem_cons.mp h9 with rfl | h9
      · exact effSize_mod n
      · rcases List.mem_cons.mp h9 with rfl | h9
        · show (c.size - effSize n - footer_pad - header_pad) % 8 = 0
          have h1 := hwf.szmul c hcm
          have h2 := effSize_mod n
          rw [footer_pad_eq, header_pad_eq]
          omega
        · exact hwf.szmul c2 (by
            rw [hsplit]
            exact List.mem_append_right _ (List.mem_cons_of_mem _ h9))
  · intro c2 hc2
    rcases List.mem_append.mp hc2 with h9 | h9
    · exact hwf.szmin c2 (by rw [hsplit]; exact List.mem_append_left _ h9)
    · rcases List.mem_cons.mp h9 with rfl | h9
      · exact effSize_min n
      · rcases List.mem_cons.mp h9 with rfl | h9
        · show node_pad ≤ c.size - effSize n - footer_pad - header_pad
          rw [node_pad_eq, footer_pad_eq, header_pad_eq]
          omega
        · exact hwf.szmin c2 (by
            rw [hsplit]
            exact List.mem_append_right _ (List.mem_cons_of_mem _ h9))
  · simp only
    have hna0 := hwf.noadj
    rw [hsplit, List.chain'_append] at hna0
    obtain ⟨hnp, hnc, hnl⟩ := hna0
    rw [List.chain'_cons'] at hnc
    obtain ⟨hncy, hnpost⟩ := hnc
    rw [List.chain'_append]
    refine ⟨hnp, ?_, ?_⟩
    · rw [List.chain'_cons]
      refine ⟨Or.inl rfl, ?_⟩
      rw [List.chain'_cons']
      refine ⟨?_, hnpost⟩
      intro y hy
      rcases hncy y hy with h9 | h9
      · rw [hcu] at h9
        exact absurd h9 (by simp)
      · exact Or.inr h9
    · intro x hx y hy
      have hy3 : some ({ c with size := effSize n, fsize := effSize n, inUse := true } : Chunk) = some y := hy
      injection hy3 with hy3
      rw [← hy3]
      exact Or.inr rfl
  · intro a
    simp only
    rw [hr2]
    rw [add_chunk_mem, hsh]
    have hmem2 := rcbs_mem hwf.tnodup hf a
    rw [hr2] at hmem2
    rw [hmem2]
    simp only [rootAddr]
    constructor
    · rintro (rfl | ⟨hmem3, hne⟩)
      · right
        refine ⟨⟨f + header_pad + effSize n + footer_pad,
          c.size - effSize n - footer_pad - header_pad,
          c.size - effSize n - footer_pad - header_pad, false⟩, ?_, rfl, rfl⟩
        exact List.mem_append_right _
          (List.mem_cons_of_mem _ (List.mem_cons_self _ _))
      · rcases (hwf.tmem a).mp hmem3 with h3 | ⟨e, he, hea, heu⟩
        · left
          rw [htr] at h3
          simp only [rootAddr, Option.some_inj] at h3
          exact congrArg some h3
        · right
          rw [hsplit] at he
          rcases List.mem_append.mp he with h9 | h9
          · exact ⟨e, List.mem_append_left _ h9, hea, heu⟩
          · rcases List.mem_cons.mp h9 with rfl | h9
            · exact absurd (hea ▸ hca) hne
            · exact ⟨e, List.mem_append_right _ (List.mem_cons_of_mem _
                (List.mem_cons_of_mem _ h9)), hea, heu⟩
    · rintro (h3 | ⟨e, he, hea, heu⟩)
      · injection h3 with h3
        subst h3
        right
        refine ⟨?_, by omega⟩
        rw [htr]
        exact List.mem_cons_self _ _
      · rcases List.mem_append.mp he with h9 | h9
        · right
          refine ⟨(hwf.tmem a).mpr (Or.inr ⟨e, by
              rw [hsplit]
              exact List.mem_append_left _ h9, hea, heu⟩), ?_⟩
          rw [← hea]
          exact hpre e h9
        · rcases List.mem_cons.mp h9 with rfl | h9
          · exact absurd heu (by simp)
          · rcases List.mem_cons.mp h9 with rfl | h9
            · exact Or.inl hea.symm
            · right
              refine ⟨(hwf.tmem a).mpr (Or.inr ⟨e, by
                  rw [hsplit]
                  exact List.mem_append_right _
                    (List.mem_cons_of_mem _ h9), hea, heu⟩), ?_⟩
              rw [← hea]
              exact hpost e h9
  · simp only
    exact add_chunk_nodup _ _ _ _ _ hdnotin (rcbs_nodup hwf.tnodup)
  · simp only
    have hosz : ord (szFn σ.chunks) (remove_chunk_by_size (szFn σ.chunks)
        σ.tree (effSize n) none σ.pm σ.spAlt).2.1 :=
      rcbs_ord hwf.tnodup hwf.tord
    have hszeq : ∀ a ∈ addrs (remove_chunk_by_size (szFn σ.chunks) σ.tree
        (effSize n) none σ.pm σ.spAlt).2.1,
        szFn (pre ++ c :: (⟨f + header_pad + effSize n + footer_pad,
          c.size - effSize n - footer_pad - header_pad,
          c.size - effSize n - footer_pad - header_pad, false⟩ : Chunk) ::
          post) a = szFn σ.chunks a := by
      intro a ha
      have hned : a ≠ f + header_pad + effSize n + footer_pad :=
        fun h => hdnotin (h ▸ ha)
      have h9 : pre ++ c :: (⟨f + header_pad + effSize n + footer_pad,
          c.size - effSize n - footer_pad - header_pad,
          c.size - effSize n - footer_pad - header_pad, false⟩ : Chunk) ::
          post = (pre ++ [c]) ++ (⟨f + header_pad + effSize n + footer_pad,
          c.size - effSize n - footer_pad - header_pad,
          c.size - effSize n - footer_pad - header_pad, false⟩ : Chunk) ::
          post := by
        simp
      have h10 : σ.chunks = (pre ++ [c]) ++ post := by
        rw [hsplit]
        simp
      rw [h9, h10]
      show szOf ((pre ++ [c]) ++ (⟨f + header_pad + effSize n + footer_pad,
          c.size - effSize n - footer_pad - header_pad,
          c.size - effSize n - footer_pad - header_pad, false⟩ : Chunk) ::
          post) a = szOf ((pre ++ [c]) ++ post) a
      unfold szOf
      rw [findChunk_insert_middle (fun h => hned h.symm)]
    have ho1 : ord (szFn (pre ++ c ::
        (⟨f + header_pad + effSize n + footer_pad,
          c.size - effSize n - footer_pad - header_pad,
          c.size - effSize n - footer_pad - header_pad, false⟩ : Chunk) ::
          post))
        (remove_chunk_by_size (szFn σ.chunks) σ.tree (effSize n) none σ.pm
          σ.spAlt).2.1 := (ord_congr hszeq).mpr hosz
    have ho2 : ord (szFn (pre ++ c ::
        (⟨f + header_pad + effSize n + footer_pad,
          c.size - effSize n - footer_pad - header_pad,
          c.size - effSize n - footer_pad - header_pad, false⟩ : Chunk) ::
          post))
        (add_chunk (szFn (pre ++ c ::
          (⟨f + header_pad + effSize n + footer_pad,
            c.size - effSize n - footer_pad - header_pad,
            c.size - effSize n - footer_pad - header_pad,
            false⟩ : Chunk) :: post))
          (remove_chunk_by_size (szFn σ.chunks) σ.tree (effSize n) none σ.pm
            σ.spAlt).2.1
          (f + header_pad + effSize n + footer_pad) none
          (remove_chunk_by_size (szFn σ.chunks) σ.tree (effSize n) none σ.pm
            σ.spAlt).2.2.1 σ.eqAlt).1 :=
      add_chunk_ord _ _ _ _ _ ho1
    have hszeq2 : ∀ a ∈ addrs (add_chunk (szFn (pre ++ c ::
        (⟨f + header_pad + effSize n + footer_pad,
          c.size - effSize n - footer_pad - header_pad,
          c.size - effSize n - footer_pad - header_pad,
          false⟩ : Chunk) :: post))
        (remove_chunk_by_size (szFn σ.chunks) σ.tree (effSize n) none σ.pm
          σ.spAlt).2.1
        (f + header_pad + effSize n + footer_pad) none
        (remove_chunk_by_size (szFn σ.chunks) σ.tree (effSize n) none σ.pm
          σ.spAlt).2.2.1 σ.eqAlt).1,
        szFn (pre ++ ({ c with size := effSize n, fsize := effSize n, inUse := true } : Chunk) ::
        (⟨f + header_pad + effSize n + footer_pad,
          c.size - effSize n - footer_pad - header_pad,
          c.size - effSize n - footer_pad - header_pad, false⟩ : Chunk) ::
          post) a =
        szFn (pre ++ c :: (⟨f + header_pad + effSize n + footer_pad,
          c.size - effSize n - footer_pad - header_pad,
          c.size - effSize n - footer_pad - header_pad, false⟩ : Chunk) ::
          post) a := by
      intro a ha
      rw [add_chunk_mem] at ha
      have hanef : a ≠ f := by
        rcases ha with rfl | ha2
        · exact hdne
        · exact ((rcbs_mem hwf.tnodup hf a).mp ha2).2
      rw [← hch2]
      exact szFn_setChunk_ne (fun c0 => rfl) hanef
    exact (ord_congr hszeq2).mpr ho2
  · simp only
    exact add_chunk_pcoh _ _ _ _ _ hdnotin (rcbs_pcoh hwf.tnodup hwf.tpcoh)

theorem wf_alloc {σ : AllocState} (n : Nat) (hwf : WF σ) :
    WF (trallocStep σ n).1 := by
  rcases htr : σ.tree with _ | ⟨fr, l, r⟩
  · exact wf_alloc_fake n hwf htr
  · rcases hf : (remove_chunk_by_size (szFn σ.chunks) σ.tree (effSize n)
      none σ.pm σ.spAlt).1 with _ | f
    · exact wf_alloc_miss n hwf htr hf
    · rcases hfind : findChunk σ.chunks f with _ | c
      · obtain ⟨c2, _, _, _, _, hfind2⟩ :=
          wf_search_found hwf htr (effSize_pos n) hf
        rw [hfind] at hfind2
        exact absurd hfind2 (by simp)
      · by_cases hcond :
          c.size ≥ effSize n + footer_pad + header_pad + node_pad
        · exact wf_alloc_split n hwf htr hf hfind hcond
        · exact wf_alloc_nosplit n hwf htr hf hfind hcond

/-! ## Helpers for the `trfree` preservation proof -/

theorem remove_chunk_root_shape {y x : Nat} {l r : HTree} {p : Option Nat}
    {pm : PM} {alt : Bool} (h : y ≠ x) :
    ∃ l2 r2, (remove_chunk (.node y l r) x p pm alt).1 = .node y l2 r2 := by
  simp only [remove_chunk, if_neg h]
  exact ⟨_, _, rfl⟩

theorem addr_inj {cs : List Chunk} (hnd : (cs.map Chunk.addr).Nodup)
    {c1 c2 : Chunk} (h1 : c1 ∈ cs) (h2 : c2 ∈ cs)
    (h : c1.addr = c2.addr) : c1 = c2 := by
  induction cs with
  | nil => exact absurd h1 (List.not_mem_nil c1)
  | cons e t ih =>
      rw [List.map_cons, List.nodup_cons] at hnd
      rcases List.mem_cons.mp h1 with rfl | h1b
      · rcases List.mem_cons.mp h2 with rfl | h2b
        · rfl
        · exact absurd (h ▸ List.mem_map_of_mem Chunk.addr h2b) hnd.1
      · rcases List.mem_cons.mp h2 with rfl | h2b
        · exact absurd (h ▸ List.mem_map_of_mem Chunk.addr h1b) hnd.1
        · exact ih hnd.2 h1b h2b

theorem hsum_inj {cs : List Chunk} (hp : cs.Pairwise (fun c1 c2 =>
      c1.addr + header_pad + c1.size < c2.addr + header_pad + c2.size))
    {c1 c2 : Chunk} (h1 : c1 ∈ cs) (h2 : c2 ∈ cs)
    (h : c1.addr + header_pad + c1.size = c2.addr + header_pad + c2.size) :
    c1 = c2 := by
  induction cs with
  | nil => exact absurd h1 (List.not_mem_nil c1)
  | cons e t ih =>
      rw [List.pairwise_cons] at hp
      rcases List.mem_cons.mp h1 with rfl | h1b
      · rcases List.mem_cons.mp h2 with rfl | h2b
        · rfl
        · exact absurd h (Nat.ne_of_lt (hp.1 c2 h2b))
      · rcases List.mem_cons.mp h2 with rfl | h2b
        · exact absurd h (Nat.ne_of_gt (hp.1 c1 h1b))
        · exact ih hp.2 h1b h2b

theorem nodup_decomp_ne {cs pre post : List Chunk} {c : Chunk}
    (hnd : (cs.map Chunk.addr).Nodup) (hsp : cs = pre ++ c :: post) :
    (∀ e ∈ pre, e.addr ≠ c.addr) ∧ (∀ e ∈ post, e.addr ≠ c.addr) := by
  subst hsp
  rw [List.map_append, List.map_cons, List.nodup_append] at hnd
  constructor
  · intro e he heq
    exact hnd.2.2 (List.mem_map_of_mem Chunk.addr he)
      (heq ▸ List.mem_cons_self c.addr (post.map Chunk.addr))
  · intro e he heq
    have := List.nodup_cons.mp hnd.2.1
    exact this.1 (heq ▸ List.mem_map_of_mem Chunk.addr he)

theorem chain_and {R S : Chunk → Chunk → Prop} {cs : List Chunk}
    (hr : cs.Chain' R) (hs : cs.Chain' S) :
    cs.Chain' (fun c1 c2 => R c1 c2 ∧ S c1 c2) := by
  induction cs with
  | nil => exact List.chain'_nil
  | cons e t ih =>
      rcases t with _ | ⟨e2, t2⟩
      · exact List.chain'_singleton e
      · rw [List.chain'_cons] at hr hs ⊢
        exact ⟨⟨hr.1, hs.1⟩, ih hr.2 hs.2⟩

theorem chain_imp_mem {R S : Chunk → Chunk → Prop} {cs : List Chunk}
    (hr : cs.Chain' R)
    (h : ∀ c1 ∈ cs, ∀ c2 ∈ cs, R c1 c2 → S c1 c2) : cs.Chain' S := by
  induction cs with
  | nil => exact List.chain'_nil
  | cons e t ih =>
      rcases t with _ | ⟨e2, t2⟩
      · exact List.chain'_singleton e
      · rw [List.chain'_cons] at hr ⊢
        refine ⟨h e (List.mem_cons_self _ _) e2
          (List.mem_cons_of_mem _ (List.mem_cons_self _ _)) hr.1, ?_⟩
        exact ih hr.2 (fun c1 h1 c2 h2 hrr =>
          h c1 (List.mem_cons_of_mem _ h1) c2 (List.mem_cons_of_mem _ h2) hrr)

/-- Stage 1 of `trfree` (lines 137-148 of `tralloc.c`): if the chunk being
freed is not the first chunk, read the predecessor footer, locate the
predecessor header, and if that chunk is free, remove it from the tree and
absorb the freed chunk into it.  Returns the updated state and the header
address of the surviving chunk. -/
def freeStage1 (σ : AllocState) (x0 : Nat) : AllocState × Nat :=
  if some x0 ≠ σ.firstChunk then
    match σ.chunks.find? (fun c => c.addr + header_pad + c.size = x0 - footer_pad) with
    | none => (σ, x0)
    | some cprev =>
        let cand := x0 - footer_pad - cprev.fsize - header_pad
        match findChunk σ.chunks cand with
        | none => (σ, x0)
        | some cc =>
            if cc.inUse then (σ, x0)
            else
              let rm := remove_chunk σ.tree cand none σ.pm σ.spAlt
              let newSize := cc.size + footer_pad + header_pad + szOf σ.chunks x0
              let chunks1 := setChunk σ.chunks cand
                (fun c0 => { c0 with size := newSize, fsize := newSize })
              ({ σ with chunks := dropChunk chunks1 x0, tree := rm.1,
                        pm := rm.2.1, spAlt := rm.2.2 }, cand)
  else (σ, x0)

/-- Stage 2 of `trfree` (lines 149-158): if the surviving chunk does not end
at the guard address, look at the physical successor, and if it is free,
remove it from the tree and absorb it. -/
def freeStage2 (σ1 : AllocState) (x1 : Nat) : AllocState :=
  let x1sz := szOf σ1.chunks x1
  if x1 + header_pad + x1sz + footer_pad ≠ σ1.guardAddr then
    let nxt := x1 + header_pad + x1sz + footer_pad
    match findChunk σ1.chunks nxt with
    | none => σ1
    | some cn =>
        if cn.inUse then σ1
        else
          let rm := remove_chunk σ1.tree nxt none σ1.pm σ1.spAlt
          let newSize := x1sz + footer_pad + header_pad + cn.size
          let chunks1 := setChunk σ1.chunks x1
            (fun c0 => { c0 with size := newSize, fsize := newSize })
          { σ1 with chunks := dropChunk chunks1 nxt, tree := rm.1,
                    pm := rm.2.1, spAlt := rm.2.2 }
  else σ1

/-- Stage 3 of `trfree` (lines 159-160): mark the surviving chunk free and
insert it into the tree. -/
def freeStage3 (σ2 : AllocState) (x1 : Nat) : AllocState :=
  let chunks3 := setChunk σ2.chunks x1 (fun c0 => { c0 with inUse := false })
  let ins := add_chunk (szFn chunks3) σ2.tree x1 none σ2.pm σ2.eqAlt
  { σ2 with chunks := chunks3, tree := ins.1, pm := ins.2.1, eqAlt := ins.2.2 }

theorem trfreeStep_stages (σ : AllocState) (ptr : Nat) :
    trfreeStep σ ptr =
      freeStage3
        (freeStage2 (freeStage1 σ (ptr - header_pad)).1
          (freeStage1 σ (ptr - header_pad)).2)
        (freeStage1 σ (ptr - header_pad)).2 := rfl

/-- Between the two merge stages of `trfree`, the pair relation that the
chunk list satisfies: the physical predecessor of the chunk being freed
(header at `x`) is already in use, while its successor is unconstrained;
all other adjacent pairs satisfy the usual no-adjacent-free relation. -/
def midRel (x : Nat) (c1 c2 : Chunk) : Prop :=
  (c2.addr = x → c1.inUse = true) ∧
  (c1.addr ≠ x → c1.inUse = true ∨ c2.inUse = true)

/-- After the successor merge, additionally the successor of the chunk
being freed is in use. -/
def mid2Rel (x : Nat) (c1 c2 : Chunk) : Prop :=
  (c2.addr = x → c1.inUse = true) ∧ (c1.addr = x → c2.inUse = true) ∧
  (c1.addr ≠ x → c1.inUse = true ∨ c2.inUse = true)

/-- The invariant holding between the stages of `trfree`: like `WF` but the
chunk at `x` (the one being freed) is outside the tree regardless of its
`in_use` flag, and the no-adjacent-free condition is weakened around it. -/
structure WFmid (σ : AllocState) (x : Nat) : Prop where
  base : ∃ fr l r, σ.tree = HTree.node fr l r ∧
    ∃ c0 t0, σ.chunks = c0 :: t0 ∧ c0.addr = fr + header_pad + node_pad ∧
      σ.firstChunk = some c0.addr ∧ σ.brk = σ.guardAddr ∧
      ∀ cl, σ.chunks.getLast? = some cl → σ.guardAddr = endAddr cl
  chain : σ.chunks.Chain' chAdj
  fs : ∀ c ∈ σ.chunks, c.fsize = c.size
  szmul : ∀ c ∈ σ.chunks, c.size % 8 = 0
  szmin : ∀ c ∈ σ.chunks, node_pad ≤ c.size
  hx : ∃ cx ∈ σ.chunks, cx.addr = x
  naf : σ.chunks.Chain' (midRel x)
  tmem : ∀ a, a ∈ addrs σ.tree ↔
    (rootAddr σ.tree = some a ∨
      ∃ c ∈ σ.chunks, c.addr = a ∧ c.inUse = false ∧ c.addr ≠ x)
  tnodup : (addrs σ.tree).Nodup
  tord : ord (szFn σ.chunks) σ.tree
  tpcoh : pcoh σ.pm σ.tree none

theorem freeStage1_first {σ : AllocState} {x0 : Nat}
    (h : some x0 = σ.firstChunk) : freeStage1 σ x0 = (σ, x0) := by
  unfold freeStage1
  rw [if_neg (fun h2 => h2 h)]

theorem freeStage1_skip {σ : AllocState} {x0 : Nat} {cprev cc : Chunk}
    (h1 : some x0 ≠ σ.firstChunk)
    (h2 : σ.chunks.find? (fun c =>
      c.addr + header_pad + c.size = x0 - footer_pad) = some cprev)
    (h3 : findChunk σ.chunks (x0 - footer_pad - cprev.fsize - header_pad) =
      some cc)
    (h4 : cc.inUse = true) : freeStage1 σ x0 = (σ, x0) := by
  unfold freeStage1
  rw [if_pos h1, h2]
  simp only [h3, h4, if_true]

theorem freeStage1_merge {σ : AllocState} {x0 : Nat} {cprev cc : Chunk}
    (h1 : some x0 ≠ σ.firstChunk)
    (h2 : σ.chunks.find? (fun c =>
      c.addr + header_pad + c.size = x0 - footer_pad) = some cprev)
    (h3 : findChunk σ.chunks (x0 - footer_pad - cprev.fsize - header_pad) =
      some cc)
    (h4 : cc.inUse = false) :
    freeStage1 σ x0 =
      ({ σ with
         chunks := dropChunk (setChunk σ.chunks
           (x0 - footer_pad - cprev.fsize - header_pad)
           (fun c0 => { c0 with
             size := cc.size + footer_pad + header_pad + szOf σ.chunks x0,
             fsize := cc.size + footer_pad + header_pad + szOf σ.chunks x0 }))
           x0,
         tree := (remove_chunk σ.tree
           (x0 - footer_pad - cprev.fsize - header_pad) none σ.pm
           σ.spAlt).1,
         pm := (remove_chunk σ.tree
           (x0 - footer_pad - cprev.fsize - header_pad) none σ.pm
           σ.spAlt).2.1,
         spAlt := (remove_chunk σ.tree
           (x0 - footer_pad - cprev.fsize - header_pad) none σ.pm
           σ.spAlt).2.2 },
       x0 - footer_pad - cprev.fsize - header_pad) := by
  unfold freeStage1
  rw [if_pos h1, h2]
  simp only [h3, h4, Bool.false_eq_true, if_false]

theorem freeStage2_guard {σ1 : AllocState} {x1 : Nat}
    (h : x1 + header_pad + szOf σ1.chunks x1 + footer_pad = σ1.guardAddr) :
    freeStage2 σ1 x1 = σ1 := by
  unfold freeStage2
  rw [if_neg (fun h2 => h2 h)]

theorem freeStage2_skip {σ1 : AllocState} {x1 : Nat} {cn : Chunk}
    (h1 : x1 + header_pad + szOf σ1.chunks x1 + footer_pad ≠ σ1.guardAddr)
    (h2 : findChunk σ1.chunks
      (x1 + header_pad + szOf σ1.chunks x1 + footer_pad) = some cn)
    (h3 : cn.inUse = true) : freeStage2 σ1 x1 = σ1 := by
  unfold freeStage2
  rw [if_pos h1]
  simp only [h2, h3, if_true]

theorem freeStage2_merge {σ1 : AllocState} {x1 : Nat} {cn : Chunk}
    (h1 : x1 + header_pad + szOf σ1.chunks x1 + footer_pad ≠ σ1.guardAddr)
    (h2 : findChunk σ1.chunks
      (x1 + header_pad + szOf σ1.chunks x1 + footer_pad) = some cn)
    (h3 : cn.inUse = false) :
    freeStage2 σ1 x1 =
      { σ1 with
        chunks := dropChunk (setChunk σ1.chunks x1
          (fun c0 => { c0 with
            size := szOf σ1.chunks x1 + footer_pad + header_pad + cn.size,
            fsize := szOf σ1.chunks x1 + footer_pad + header_pad + cn.size }))
          (x1 + header_pad + szOf σ1.chunks x1 + footer_pad),
        tree := (remove_chunk σ1.tree
          (x1 + header_pad + szOf σ1.chunks x1 + footer_pad) none σ1.pm
          σ1.spAlt).1,
        pm := (remove_chunk σ1.tree
          (x1 + header_pad + szOf σ1.chunks x1 + footer_pad) none σ1.pm
          σ1.spAlt).2.1,
        spAlt := (remove_chunk σ1.tree
          (x1 + header_pad + szOf σ1.chunks x1 + footer_pad) none σ1.pm
          σ1.spAlt).2.2 } := by
  unfold freeStage2
  rw [if_pos h1]
  simp only [h2, h3, Bool.false_eq_true, if_false]

theorem wfmid_of_wf {σ : AllocState} {cx : Chunk} (hwf : WF σ)
    (hcm : cx ∈ σ.chunks) (hcu : cx.inUse = true)
    (hpred : ∀ c1 ∈ σ.chunks, endAddr c1 = cx.addr → c1.inUse = true) :
    WFmid σ cx.addr := by
  rcases htr : σ.tree with _ | ⟨fr, l, r⟩
  · obtain ⟨he, _⟩ := hwf.tree_nil htr
    rw [he] at hcm
    exact absurd hcm (List.not_mem_nil cx)
  rcases hwf.base fr l r htr with ⟨he, _, _⟩ |
    ⟨c0, t0, hcs, ha0, hfc, hbg, hlast⟩
  · rw [he] at hcm
    exact absurd hcm (List.not_mem_nil cx)
  have hnd := chain_addr_nodup hwf.chain
  refine ⟨⟨fr, l, r, htr, c0, t0, hcs, ha0, hfc, hbg, hlast⟩, hwf.chain,
    hwf.fs, hwf.szmul, hwf.szmin, ⟨cx, hcm, rfl⟩, ?_, ?_, hwf.tnodup,
    hwf.tord, hwf.tpcoh⟩
  · apply chain_imp_mem (chain_and hwf.chain hwf.noadj)
    intro c1 h1 c2 h2 hrr
    refine ⟨?_, fun _ => hrr.2⟩
    intro hc2x
    exact hpred c1 h1 (hrr.1.trans hc2x)
  · intro a
    rw [hwf.tmem a]
    constructor
    · rintro (h3 | ⟨c, hc, hca2, hcu2⟩)
      · exact Or.inl h3
      · refine Or.inr ⟨c, hc, hca2, hcu2, ?_⟩
        intro hax
        have h5 := addr_inj hnd hc hcm hax
        rw [h5, hcu] at hcu2
        exact Bool.noConfusion hcu2
    · rintro (h3 | ⟨c, hc, hca2, hcu2, _⟩)
      · exact Or.inl h3
      · exact Or.inr ⟨c, hc, hca2, hcu2⟩

theorem wfmid_stage1 {σ : AllocState} {cx : Chunk} (hwf : WF σ)
    (hcm : cx ∈ σ.chunks) (hcu : cx.inUse = true) :
    WFmid (freeStage1 σ cx.addr).1 (freeStage1 σ cx.addr).2 := by
  have hnd := chain_addr_nodup hwf.chain
  rcases htr : σ.tree with _ | ⟨fr, l, r⟩
  · obtain ⟨he, _⟩ := hwf.tree_nil htr
    rw [he] at hcm
    exact absurd hcm (List.not_mem_nil cx)
  rcases hwf.base fr l r htr with ⟨he, _, _⟩ |
    ⟨c0, t0, hcs, ha0, hfc, hbg, hlast⟩
  · rw [he] at hcm
    exact absurd hcm (List.not_mem_nil cx)
  by_cases hfirst : some cx.addr = σ.firstChunk
  · rw [freeStage1_first hfirst]
    apply wfmid_of_wf hwf hcm hcu
    intro c1 h1 hend
    exfalso
    have hxc0 : cx.addr = c0.addr := by
      rw [hfc] at hfirst
      exact Option.some_inj.mp hfirst
    have hge : c0.addr ≤ c1.addr := by
      rw [hcs] at h1
      rcases List.mem_cons.mp h1 with rfl | h1b
      · exact le_rfl
      · have h6 := chain_head_le (hcs ▸ hwf.chain) c1 h1b
        have h7 := endAddr_gt c0
        omega
    have h8 := endAddr_gt c1
    rw [hend, hxc0] at h8
    omega
  · obtain ⟨pre, post, hsplit, hpreX, hpostX⟩ := wf_decomp hwf hcm
    rcases List.eq_nil_or_concat pre with rfl | ⟨pre2, P, rfl⟩
    · exfalso
      apply hfirst
      rw [hfc]
      simp only [List.nil_append] at hsplit
      rw [hcs] at hsplit
      injection hsplit with h7 _
      rw [h7]
    simp only [List.concat_eq_append] at hsplit hpreX
    have hsplit2 : σ.chunks = pre2 ++ P :: cx :: post := by
      rw [hsplit]
      simp
    have hchain2 := hwf.chain
    rw [hsplit2, List.chain'_append] at hchain2
    obtain ⟨hcpre2, hc2, hlink2⟩ := hchain2
    have hPcx : chAdj P cx := (List.chain'_cons.mp hc2).1
    obtain ⟨hcxy, hcpost⟩ := List.chain'_cons'.mp (List.chain'_cons.mp hc2).2
    have hPm : P ∈ σ.chunks := by
      rw [hsplit2]
      exact List.mem_append_right _ (List.mem_cons_self _ _)
    have hPfs : P.fsize = P.size := hwf.fs P hPm
    have hPend : P.addr + header_pad + P.size + footer_pad = cx.addr := hPcx
    have hfoot : σ.chunks.find? (fun c =>
        c.addr + header_pad + c.size = cx.addr - footer_pad) = some P := by
      apply footerOwner_eq (chain_pairwise_hs hwf.chain) hPm
      omega
    have hcand : cx.addr - footer_pad - P.fsize - header_pad = P.addr := by
      rw [hPfs]
      omega
    have hfindP : findChunk σ.chunks
        (cx.addr - footer_pad - P.fsize - header_pad) = some P := by
      rw [hcand]
      exact findChunk_eq_of_mem hnd hPm rfl
    by_cases hPu : P.inUse = true
    · rw [freeStage1_skip hfirst hfoot hfindP hPu]
      apply wfmid_of_wf hwf hcm hcu
      intro c1 h1 hend
      have h7 : c1 = P := by
        apply hsum_inj (chain_pairwise_hs hwf.chain) h1 hPm
        unfold endAddr at hend
        omega
      rw [h7]
      exact hPu
    · have hPu2 : P.inUse = false := by
        cases h : P.inUse
        · rfl
        · exact absurd h hPu
      rw [freeStage1_merge hfirst hfoot hfindP hPu2]
      have hszx : szOf σ.chunks cx.addr = cx.size := by
        unfold szOf
        rw [findChunk_eq_of_mem hnd hcm rfl]
        rfl
      rw [hcand, hszx]
      have hne2 := nodup_decomp_ne hnd hsplit2
      have hpre2P : ∀ e ∈ pre2, e.addr ≠ P.addr := hne2.1
      have hpostP : ∀ e ∈ cx :: post, e.addr ≠ P.addr := hne2.2
      have hsc : setChunk σ.chunks P.addr (fun c0 =>
          { c0 with size := P.size + footer_pad + header_pad + cx.size, fsize := P.size + footer_pad + header_pad + cx.size }) =
          pre2 ++ ({ P with size := P.size + footer_pad + header_pad + cx.size, fsize := P.size + footer_pad + header_pad + cx.size } : Chunk) :: cx :: post := by
        rw [hsplit2]
        exact setChunk_decomp hpre2P rfl hpostP
      have h9 : pre2 ++ ({ P with size := P.size + footer_pad + header_pad + cx.size, fsize := P.size + footer_pad + header_pad + cx.size } : Chunk) :: cx :: post =
          (pre2 ++ [({ P with size := P.size + footer_pad + header_pad + cx.size, fsize := P.size + footer_pad + header_pad + cx.size } : Chunk)]) ++ cx :: post := by
        simp
      have hpreDrop : ∀ e ∈ pre2 ++ [({ P with size := P.size + footer_pad + header_pad + cx.size, fsize := P.size + footer_pad + header_pad + cx.size } : Chunk)], e.addr ≠ cx.addr := by
        intro e he
        rcases List.mem_append.mp he with h8 | h8
        · exact hpreX e (List.mem_append_left _ h8)
        · rcases List.mem_singleton.mp h8 with rfl
          exact hpreX P (List.mem_append_right _ (List.mem_singleton_self P))
      have hchunks : dropChunk (setChunk σ.chunks P.addr (fun c0 =>
          { c0 with size := P.size + footer_pad + header_pad + cx.size, fsize := P.size + footer_pad + header_pad + cx.size })) cx.addr =
          pre2 ++ ({ P with size := P.size + footer_pad + header_pad + cx.size, fsize := P.size + footer_pad + header_pad + cx.size } : Chunk) :: post := by
        rw [hsc, h9, dropChunk_decomp hpreDrop rfl]
        simp
      rw [hchunks]
      have hPfr : fr ≠ P.addr := by
        have := wf_addr_lb hwf htr P hPm
        rw [header_pad_eq, node_pad_eq] at this
        omega
      have hrs : ∃ l2 r2, (remove_chunk σ.tree P.addr none σ.pm
          σ.spAlt).1 = HTree.node fr l2 r2 := by
        rw [htr]
        exact remove_chunk_root_shape hPfr
      obtain ⟨l2, r2, hrs⟩ := hrs
      have hPin : P.addr ∈ addrs σ.tree :=
        (hwf.tmem P.addr).mpr (Or.inr ⟨P, hPm, rfl, hPu2⟩)
      have hEndP2 : endAddr ({ P with size := P.size + footer_pad + header_pad + cx.size, fsize := P.size + footer_pad + header_pad + cx.size } : Chunk) = endAddr cx := by
        show P.addr + header_pad + (P.size + footer_pad + header_pad +
          cx.size) + footer_pad = cx.addr + header_pad + cx.size + footer_pad
        omega
      have hxnotin : cx.addr ∉ addrs σ.tree := by
        intro hmem
        rcases (hwf.tmem cx.addr).mp hmem with h3 | ⟨e, he, hea, heu⟩
        · rw [htr] at h3
          simp only [rootAddr, Option.some_inj] at h3
          have := wf_addr_lb hwf htr cx hcm
          rw [header_pad_eq, node_pad_eq] at this
          omega
        · have h5 := addr_inj hnd he hcm hea
          rw [h5, hcu] at heu
          exact Bool.noConfusion heu
      have hnoadj2 := hwf.noadj
      rw [hsplit2, List.chain'_append] at hnoadj2
      obtain ⟨hnpre2, hn2, hnlink⟩ := hnoadj2
      obtain ⟨hnxy, hnpost⟩ :=
        List.chain'_cons'.mp (List.chain'_cons.mp hn2).2
      have hlastNew : ∀ cl, (pre2 ++ ({ P with size := P.size + footer_pad + header_pad + cx.size, fsize := P.size + footer_pad + header_pad + cx.size } : Chunk) :: post).getLast? = some cl →
          σ.guardAddr = endAddr cl := by
        intro cl hcl
        rw [getLast_append_cons] at hcl
        cases post with
        | nil =>
            have hcl2 : cl = ({ P with size := P.size + footer_pad + header_pad + cx.size, fsize := P.size + footer_pad + header_pad + cx.size } : Chunk) := by
              injection hcl with h8
              exact h8.symm
            subst hcl2
            have h8 : σ.chunks.getLast? = some cx := by
              rw [hsplit2]
              exact getLast_append_cons P pre2 [cx]
            rw [hEndP2]
            exact hlast cx h8
        | cons q0 qt =>
            rw [List.getLast?_cons_cons] at hcl
            apply hlast
            rw [hsplit2, getLast_append_cons P pre2 (cx :: q0 :: qt),
              List.getLast?_cons_cons, List.getLast?_cons_cons]
            exact hcl
      constructor
      · refine ⟨fr, l2, r2, hrs, ?_⟩
        cases pre2 with
        | nil =>
            have h7 : c0 = P := by
              rw [hcs] at hsplit2
              simp only [List.nil_append] at hsplit2
              injection hsplit2
            refine ⟨({ P with size := P.size + footer_pad + header_pad + cx.size, fsize := P.size + footer_pad + header_pad + cx.size } : Chunk), post, rfl, ?_, ?_, hbg, hlastNew⟩
            · show P.addr = fr + header_pad + node_pad
              rw [← h7]
              exact ha0
            · rw [hfc, h7]
        | cons q qt =>
            have h7 : c0 = q := by
              rw [hcs] at hsplit2
              injection hsplit2
            refine ⟨q, qt ++ ({ P with size := P.size + footer_pad + header_pad + cx.size, fsize := P.size + footer_pad + header_pad + cx.size } : Chunk) :: post, rfl, ?_, ?_, hbg, hlastNew⟩
            · rw [← h7]
              exact ha0
            · rw [hfc, h7]
      · rw [List.chain'_append]
        refine ⟨hcpre2, ?_, ?_⟩
        · rw [List.chain'_cons']
          refine ⟨?_, hcpost⟩
          intro y hy
          have h4 := hcxy y hy
          show endAddr ({ P with size := P.size + footer_pad + header_pad + cx.size, fsize := P.size + footer_pad + header_pad + cx.size } : Chunk) = y.addr
          rw [hEndP2]
          exact h4
        · intro x1 hx1 y hy
          have hy3 : some ({ P with size := P.size + footer_pad + header_pad + cx.size, fsize := P.size + footer_pad + header_pad + cx.size } : Chunk) = some y := hy
          injection hy3 with hy3
          rw [← hy3]
          exact hlink2 x1 hx1 P rfl
      · intro c2 hc2
        rcases List.mem_append.mp hc2 with h8 | h8
        · exact hwf.fs c2 (by rw [hsplit2]; exact List.mem_append_left _ h8)
        · rcases List.mem_cons.mp h8 with rfl | h8
          · rfl
          · exact hwf.fs c2 (by
              rw [hsplit2]
              exact List.mem_append_right _ (List.mem_cons_of_mem _
                (List.mem_cons_of_mem _ h8)))
      · intro c2 hc2
        rcases List.mem_append.mp hc2 with h8 | h8
        · exact hwf.szmul c2 (by
            rw [hsplit2]
            exact List.mem_append_left _ h8)
        · rcases List.mem_cons.mp h8 with rfl | h8
          · show (P.size + footer_pad + header_pad + cx.size) % 8 = 0
            have h5 := hwf.szmul P hPm
            have h6 := hwf.szmul cx hcm
            rw [footer_pad_eq, header_pad_eq]
            omega
          · exact hwf.szmul c2 (by
              rw [hsplit2]
              exact List.mem_append_right _ (List.mem_cons_of_mem _
                (List.mem_cons_of_mem _ h8)))
      · intro c2 hc2
        rcases List.mem_append.mp hc2 with h8 | h8
        · exact hwf.szmin c2 (by
            rw [hsplit2]
            exact List.mem_append_left _ h8)
        · rcases List.mem_cons.mp h8 with rfl | h8
          · show node_pad ≤ P.size + footer_pad + header_pad + cx.size
            have h5 := hwf.szmin P hPm
            omega
          · exact hwf.szmin c2 (by
              rw [hsplit2]
              exact List.mem_append_right _ (List.mem_cons_of_mem _
                (List.mem_cons_of_mem _ h8)))
      · exact ⟨({ P with size := P.size + footer_pad + header_pad + cx.size, fsize := P.size + footer_pad + header_pad + cx.size } : Chunk), List.mem_append_right _ (List.mem_cons_self _ _), rfl⟩
      · rw [List.chain'_append]
        refine ⟨?_, ?_, ?_⟩
        · apply chain_imp_mem (chain_and hcpre2 hnpre2)
          intro c1 h1 c2 h2 hrr
          refine ⟨?_, fun _ => hrr.2⟩
          intro hc2x
          exact absurd hc2x (hpre2P c2 h2)
        · rw [List.chain'_cons']
          refine ⟨?_, ?_⟩
          · intro y hy
            refine ⟨?_, ?_⟩
            · intro hyx
              exfalso
              cases post with
              | nil => exact Option.noConfusion hy
              | cons q0 qt =>
                  have hy3 : some q0 = some y := hy
                  injection hy3 with hy3
                  cases hy3
                  exact hpostP y (List.mem_cons_of_mem _
                    (List.mem_cons_self _ _)) hyx
            · intro h8
              exact absurd rfl h8
          · apply chain_imp_mem (chain_and hcpost hnpost)
            intro c1 h1 c2 h2 hrr
            refine ⟨?_, fun _ => hrr.2⟩
            intro hc2x
            exact absurd hc2x (hpostP c2 (List.mem_cons_of_mem _ h2))
        · intro x1 hx1 y hy
          have hy3 : some ({ P with size := P.size + footer_pad + header_pad + cx.size, fsize := P.size + footer_pad + header_pad + cx.size } : Chunk) = some y := hy
          injection hy3 with hy3
          cases hy3
          have h4 : x1.inUse = true := by
            rcases hnlink x1 hx1 P rfl with h8 | h8
            · exact h8
            · rw [hPu2] at h8
              exact Bool.noConfusion h8
          exact ⟨fun _ => h4, fun _ => Or.inl h4⟩
      · intro a
        simp only
        rw [remove_chunk_mem hwf.tnodup hPin a, hwf.tmem a, hrs]
        simp only [rootAddr]
        constructor
        · rintro ⟨h3 | ⟨e, he, hea, heu⟩, hne⟩
          · left
            rw [htr] at h3
            simp only [rootAddr, Option.some_inj] at h3
            exact congrArg some h3
          · right
            rw [hsplit2] at he
            rcases List.mem_append.mp he with h8 | h8
            · exact ⟨e, List.mem_append_left _ h8, hea, heu,
                fun h => hne (hea ▸ h)⟩
            · rcases List.mem_cons.mp h8 with rfl | h8
              · exact absurd hea.symm hne
              · rcases List.mem_cons.mp h8 with rfl | h8
                · rw [hcu] at heu
                  exact Bool.noConfusion heu
                · exact ⟨e, List.mem_append_right _
                    (List.mem_cons_of_mem _ h8), hea, heu,
                    fun h => hne (hea ▸ h)⟩
        · rintro (h3 | ⟨e, he, hea, heu, hneP⟩)
          · injection h3 with h3
            refine ⟨Or.inl ?_, ?_⟩
            · rw [htr]
              exact congrArg some h3
            · omega
          · rcases List.mem_append.mp he with h8 | h8
            · exact ⟨Or.inr ⟨e, by
                rw [hsplit2]
                exact List.mem_append_left _ h8, hea, heu⟩,
                fun h => hneP (hea.trans h)⟩
            · rcases List.mem_cons.mp h8 with rfl | h8
              · exact absurd rfl hneP
              · exact ⟨Or.inr ⟨e, by
                  rw [hsplit2]
                  exact List.mem_append_right _ (List.mem_cons_of_mem _
                    (List.mem_cons_of_mem _ h8)), hea, heu⟩,
                  fun h => hneP (hea.trans h)⟩
      · exact remove_chunk_nodup hwf.tnodup
      · simp only
        have hszeq : ∀ a ∈ addrs (remove_chunk σ.tree P.addr none σ.pm
            σ.spAlt).1,
            szFn (pre2 ++ ({ P with size := P.size + footer_pad + header_pad + cx.size, fsize := P.size + footer_pad + header_pad + cx.size } : Chunk) :: post) a = szFn σ.chunks a := by
          intro a ha
          rw [remove_chunk_mem hwf.tnodup hPin a] at ha
          have hnex : a ≠ cx.addr := fun h => hxnotin (h ▸ ha.1)
          have hneP : a ≠ P.addr := ha.2
          show szOf (pre2 ++ ({ P with size := P.size + footer_pad + header_pad + cx.size, fsize := P.size + footer_pad + header_pad + cx.size } : Chunk) :: post) a = szOf σ.chunks a
          unfold szOf
          have e1 : findChunk (pre2 ++ ({ P with size := P.size + footer_pad + header_pad + cx.size, fsize := P.size + footer_pad + header_pad + cx.size } : Chunk) :: post) a =
              findChunk (pre2 ++ post) a :=
            findChunk_insert_middle (fun h => hneP h.symm)
          have e2 : findChunk (pre2 ++ P :: cx :: post) a =
              findChunk (pre2 ++ cx :: post) a :=
            findChunk_insert_middle (fun h => hneP h.symm)
          have e3 : findChunk (pre2 ++ cx :: post) a =
              findChunk (pre2 ++ post) a :=
            findChunk_insert_middle (fun h => hnex h.symm)
          rw [hsplit2, e1, e2, e3]
        rw [ord_congr hszeq]
        exact remove_chunk_ord hwf.tnodup hwf.tord
      · exact remove_chunk_pcoh hwf.tnodup hwf.tpcoh

theorem wfmid_stage2 {σ : AllocState} {x : Nat} (hm : WFmid σ x) :
    WFmid (freeStage2 σ x) x ∧
      (freeStage2 σ x).chunks.Chain' (mid2Rel x) := by
  obtain ⟨fr, l, r, htr, c0, t0, hcs, ha0, hfc, hbg, hlast⟩ := hm.base
  obtain ⟨cx, hcm, hcax⟩ := hm.hx
  have hnd := chain_addr_nodup hm.chain
  have hszx : szOf σ.chunks x = cx.size := by
    unfold szOf
    rw [findChunk_eq_of_mem hnd hcm hcax]
    rfl
  obtain ⟨preX, postX, hsp⟩ := List.append_of_mem hcm
  have hneX := nodup_decomp_ne hnd hsp
  by_cases hguard : x + header_pad + szOf σ.chunks x + footer_pad =
      σ.guardAddr
  · rw [freeStage2_guard hguard]
    refine ⟨hm, ?_⟩
    have hcl : ∃ cl, σ.chunks.getLast? = some cl := by
      rcases hgl : σ.chunks.getLast? with _ | cl
      · rw [List.getLast?_eq_none_iff] at hgl
        rw [hgl] at hcm
        exact absurd hcm (List.not_mem_nil cx)
      · exact ⟨cl, rfl⟩
    obtain ⟨cl, hgl⟩ := hcl
    have hglast := hlast cl hgl
    have hendle := chain_end_le_last hm.chain hgl
    apply chain_imp_mem (chain_and hm.chain hm.naf)
    intro c1 h1 c2 h2 hrr
    refine ⟨hrr.2.1, ?_, hrr.2.2⟩
    intro h1x
    exfalso
    have hc1cx : c1 = cx := addr_inj hnd h1 hcm (h1x.trans hcax.symm)
    have h4 : c2.addr = σ.guardAddr := by
      have h5 : endAddr cx = c2.addr := hc1cx ▸ hrr.1
      unfold endAddr at h5
      rw [hszx] at hguard
      omega
    have h6 := endAddr_gt c2
    have h7 := hendle c2 h2
    omega
  · have hpost_ne : postX ≠ [] := by
      intro h0
      subst h0
      have hgl : σ.chunks.getLast? = some cx := by
        rw [hsp]
        exact getLast_append_cons cx preX []
      have h5 := hlast cx hgl
      apply hguard
      unfold endAddr at h5
      rw [hszx]
      omega
    obtain ⟨N, post2, rfl⟩ : ∃ N post2, postX = N :: post2 := by
      cases postX with
      | nil => exact absurd rfl hpost_ne
      | cons N post2 => exact ⟨N, post2, rfl⟩
    have hchainD := hm.chain
    rw [hsp, List.chain'_append] at hchainD
    obtain ⟨hcpreX, hcXN, hlinkX⟩ := hchainD
    have hcxN : chAdj cx N := (List.chain'_cons.mp hcXN).1
    obtain ⟨hcNy, hcpost2⟩ :=
      List.chain'_cons'.mp (List.chain'_cons.mp hcXN).2
    have hNm : N ∈ σ.chunks := by
      rw [hsp]
      exact List.mem_append_right _
        (List.mem_cons_of_mem _ (List.mem_cons_self _ _))
    have hNend : cx.addr + header_pad + cx.size + footer_pad = N.addr := hcxN
    have hNaddr : N.addr = x + header_pad + szOf σ.chunks x + footer_pad := by
      rw [hszx]
      omega
    have hfindN : findChunk σ.chunks
        (x + header_pad + szOf σ.chunks x + footer_pad) = some N := by
      rw [← hNaddr]
      exact findChunk_eq_of_mem hnd hNm rfl
    by_cases hNu : N.inUse = true
    · rw [freeStage2_skip hguard hfindN hNu]
      refine ⟨hm, ?_⟩
      apply chain_imp_mem (chain_and hm.chain hm.naf)
      intro c1 h1 c2 h2 hrr
      refine ⟨hrr.2.1, ?_, hrr.2.2⟩
      intro h1x
      have hc1cx : c1 = cx := addr_inj hnd h1 hcm (h1x.trans hcax.symm)
      have h4 : c2 = N := by
        apply addr_inj hnd h2 hNm
        have h5 := hrr.1
        rw [hc1cx] at h5
        exact h5.symm.trans hcxN
      rw [h4]
      exact hNu
    · have hNu2 : N.inUse = false := by
        cases h : N.inUse
        · rfl
        · exact absurd h hNu
      rw [freeStage2_merge hguard hfindN hNu2]
      rw [hszx]
      have hNaddr2 : N.addr = x + header_pad + cx.size + footer_pad := by
        omega
      rw [← hNaddr2]
      have hpre_ne : ∀ e ∈ preX, e.addr ≠ x :=
        fun e he => hcax ▸ hneX.1 e he
      have hpost_nx : ∀ e ∈ N :: post2, e.addr ≠ x :=
        fun e he => hcax ▸ hneX.2 e he
      have hsc : setChunk σ.chunks x (fun c0 =>
          { c0 with size := cx.size + footer_pad + header_pad + N.size, fsize := cx.size + footer_pad + header_pad + N.size }) =
          preX ++ ({ cx with size := cx.size + footer_pad + header_pad + N.size, fsize := cx.size + footer_pad + header_pad + N.size } : Chunk) :: N :: post2 := by
        rw [hsp]
        exact setChunk_decomp hpre_ne hcax hpost_nx
      have hspN : σ.chunks = (preX ++ [cx]) ++ N :: post2 := by
        rw [hsp]
        simp
      have hneN := nodup_decomp_ne hnd hspN
      have h9 : preX ++ ({ cx with size := cx.size + footer_pad + header_pad + N.size, fsize := cx.size + footer_pad + header_pad + N.size } : Chunk) :: N :: post2 =
          (preX ++ [({ cx with size := cx.size + footer_pad + header_pad + N.size, fsize := cx.size + footer_pad + header_pad + N.size } : Chunk)]) ++ N :: post2 := by
        simp
      have hpreDrop : ∀ e ∈ preX ++ [({ cx with size := cx.size + footer_pad + header_pad + N.size, fsize := cx.size + footer_pad + header_pad + N.size } : Chunk)], e.addr ≠ N.addr := by
        intro e he
        rcases List.mem_append.mp he with h8 | h8
        · exact hneN.1 e (List.mem_append_left _ h8)
        · rcases List.mem_singleton.mp h8 with rfl
          exact hneN.1 cx (List.mem_append_right _ (List.mem_singleton_self cx))
      have hchunks : dropChunk (setChunk σ.chunks x (fun c0 =>
          { c0 with size := cx.size + footer_pad + header_pad + N.size, fsize := cx.size + footer_pad + header_pad + N.size })) N.addr =
          preX ++ ({ cx with size := cx.size + footer_pad + header_pad + N.size, fsize := cx.size + footer_pad + header_pad + N.size } : Chunk) :: post2 := by
        rw [hsc, h9, dropChunk_decomp hpreDrop rfl]
        simp
      rw [hchunks]
      have haddrlb : ∀ c ∈ σ.chunks, c0.addr ≤ c.addr := by
        intro c hc
        rw [hcs] at hc
        rcases List.mem_cons.mp hc with rfl | hcb
        · exact le_rfl
        · have h6 := chain_head_le (hcs ▸ hm.chain) c hcb
          have h7 := endAddr_gt c0
          omega
      have hNfr : fr ≠ N.addr := by
        have h6 := haddrlb N hNm
        rw [header_pad_eq, node_pad_eq] at ha0
        omega
      have hrs : ∃ l2 r2, (remove_chunk σ.tree N.addr none σ.pm
          σ.spAlt).1 = HTree.node fr l2 r2 := by
        rw [htr]
        exact remove_chunk_root_shape hNfr
      obtain ⟨l2, r2, hrs⟩ := hrs
      have hNnex : N.addr ≠ x := hpost_nx N (List.mem_cons_self _ _)
      have hNin : N.addr ∈ addrs σ.tree :=
        (hm.tmem N.addr).mpr (Or.inr ⟨N, hNm, rfl, hNu2, hNnex⟩)
      have hEndC2 : endAddr ({ cx with size := cx.size + footer_pad + header_pad + N.size, fsize := cx.size + footer_pad + header_pad + N.size } : Chunk) = endAddr N := by
        show cx.addr + header_pad + (cx.size + footer_pad + header_pad +
          N.size) + footer_pad = N.addr + header_pad + N.size + footer_pad
        omega
      have hxnotin : x ∉ addrs σ.tree := by
        intro hmem
        rcases (hm.tmem x).mp hmem with h3 | ⟨e, he, hea, heu, hex⟩
        · rw [htr] at h3
          simp only [rootAddr, Option.some_inj] at h3
          have h6 := haddrlb cx hcm
          rw [header_pad_eq, node_pad_eq] at ha0
          omega
        · exact hex hea
      have hnoadjD := hm.naf
      rw [hsp, List.chain'_append] at hnoadjD
      obtain ⟨hnpreX, hnXN, hnlinkX⟩ := hnoadjD
      have hnxN : midRel x cx N := (List.chain'_cons.mp hnXN).1
      obtain ⟨hnNy, hnpost2⟩ :=
        List.chain'_cons'.mp (List.chain'_cons.mp hnXN).2
      have hlastNew : ∀ cl, (preX ++ ({ cx with size := cx.size + footer_pad + header_pad + N.size, fsize := cx.size + footer_pad + header_pad + N.size } : Chunk) :: post2).getLast? = some cl →
          σ.guardAddr = endAddr cl := by
        intro cl hcl
        rw [getLast_append_cons] at hcl
        cases post2 with
        | nil =>
            have hcl2 : cl = ({ cx with size := cx.size + footer_pad + header_pad + N.size, fsize := cx.size + footer_pad + header_pad + N.size } : Chunk) := by
              injection hcl with h8
              exact h8.symm
            subst hcl2
            have h8 : σ.chunks.getLast? = some N := by
              rw [hsp, getLast_append_cons cx preX [N],
                List.getLast?_cons_cons]
              rfl
            rw [hEndC2]
            exact hlast N h8
        | cons q0 qt =>
            rw [List.getLast?_cons_cons] at hcl
            apply hlast
            rw [hsp, getLast_append_cons cx preX (N :: q0 :: qt),
              List.getLast?_cons_cons, List.getLast?_cons_cons]
            exact hcl
      refine ⟨⟨⟨fr, l2, r2, hrs, ?_⟩, ?_, ?_, ?_, ?_, ?_, ?_, ?_, ?_, ?_,
        ?_⟩, ?_⟩
      · cases preX with
        | nil =>
            have h7 : c0 = cx := by
              rw [hcs] at hsp
              simp only [List.nil_append] at hsp
              injection hsp
            refine ⟨({ cx with size := cx.size + footer_pad + header_pad + N.size, fsize := cx.size + footer_pad + header_pad + N.size } : Chunk), post2, rfl, ?_, ?_, hbg, hlastNew⟩
            · show cx.addr = fr + header_pad + node_pad
              rw [← h7]
              exact ha0
            · rw [hfc, h7]
        | cons q qt =>
            have h7 : c0 = q := by
              rw [hcs] at hsp
              injection hsp
            refine ⟨q, qt ++ ({ cx with size := cx.size + footer_pad + header_pad + N.size, fsize := cx.size + footer_pad + header_pad + N.size } : Chunk) :: post2, rfl, ?_, ?_, hbg, hlastNew⟩
            · rw [← h7]
              exact ha0
            · rw [hfc, h7]
      · rw [List.chain'_append]
        refine ⟨hcpreX, ?_, ?_⟩
        · rw [List.chain'_cons']
          refine ⟨?_, hcpost2⟩
          intro y hy
          have h4 := hcNy y hy
          show endAddr ({ cx with size := cx.size + footer_pad + header_pad + N.size, fsize := cx.size + footer_pad + header_pad + N.size } : Chunk) = y.addr
          rw [hEndC2]
          exact h4
        · intro x1 hx1 y hy
          have hy3 : some ({ cx with size := cx.size + footer_pad + header_pad + N.size, fsize := cx.size + footer_pad + header_pad + N.size } : Chunk) = some y := hy
          injection hy3 with hy3
          rw [← hy3]
          exact hlinkX x1 hx1 cx rfl
      · intro c2 hc2
        rcases List.mem_append.mp hc2 with h8 | h8
        · exact hm.fs c2 (by rw [hsp]; exact List.mem_append_left _ h8)
        · rcases List.mem_cons.mp h8 with rfl | h8
          · rfl
          · exact hm.fs c2 (by
              rw [hsp]
              exact List.mem_append_right _ (List.mem_cons_of_mem _
                (List.mem_cons_of_mem _ h8)))
      · intro c2 hc2
        rcases List.mem_append.mp hc2 with h8 | h8
        · exact hm.szmul c2 (by
            rw [hsp]
            exact List.mem_append_left _ h8)
        · rcases List.mem_cons.mp h8 with rfl | h8
          · show (cx.size + footer_pad + header_pad + N.size) % 8 = 0
            have h5 := hm.szmul cx hcm
            have h6 := hm.szmul N hNm
            rw [footer_pad_eq, header_pad_eq]
            omega
          · exact hm.szmul c2 (by
              rw [hsp]
              exact List.mem_append_right _ (List.mem_cons_of_mem _
                (List.mem_cons_of_mem _ h8)))
      · intro c2 hc2
        rcases List.mem_append.mp hc2 with h8 | h8
        · exact hm.szmin c2 (by
            rw [hsp]
            exact List.mem_append_left _ h8)
        · rcases List.mem_cons.mp h8 with rfl | h8
          · show node_pad ≤ cx.size + footer_pad + header_pad + N.size
            have h5 := hm.szmin cx hcm
            omega
          · exact hm.szmin c2 (by
              rw [hsp]
              exact List.mem_append_right _ (List.mem_cons_of_mem _
                (List.mem_cons_of_mem _ h8)))
      · exact ⟨({ cx with size := cx.size + footer_pad + header_pad + N.size, fsize := cx.size + footer_pad + header_pad + N.size } : Chunk), List.mem_append_right _ (List.mem_cons_self _ _), hcax⟩
      · rw [List.chain'_append]
        refine ⟨hnpreX, ?_, ?_⟩
        · rw [List.chain'_cons']
          refine ⟨?_, ?_⟩
          · intro y hy
            refine ⟨?_, ?_⟩
            · intro hyx
              exfalso
              cases post2 with
              | nil => exact Option.noConfusion hy
              | cons q0 qt =>
                  have hy3 : some q0 = some y := hy
                  injection hy3 with hy3
                  cases hy3
                  exact hpost_nx y (List.mem_cons_of_mem _
                    (List.mem_cons_self _ _)) hyx
            · intro h8
              exact absurd hcax h8
          · exact hnpost2
        · intro x1 hx1 y hy
          have hy3 : some ({ cx with size := cx.size + footer_pad + header_pad + N.size, fsize := cx.size + footer_pad + header_pad + N.size } : Chunk) = some y := hy
          injection hy3 with hy3
          cases hy3
          have h4 := hnlinkX x1 hx1 cx rfl
          exact ⟨fun _ => h4.1 hcax, fun _ => Or.inl (h4.1 hcax)⟩
      · intro a
        simp only
        rw [remove_chunk_mem hm.tnodup hNin a, hm.tmem a, hrs]
        simp only [rootAddr]
        constructor
        · rintro ⟨h3 | ⟨e, he, hea, heu, hex⟩, hne⟩
          · left
            rw [htr] at h3
            simp only [rootAddr, Option.some_inj] at h3
            exact congrArg some h3
          · right
            rw [hsp] at he
            rcases List.mem_append.mp he with h8 | h8
            · exact ⟨e, List.mem_append_left _ h8, hea, heu, hex⟩
            · rcases List.mem_cons.mp h8 with rfl | h8
              · exact absurd hcax hex
              · rcases List.mem_cons.mp h8 with rfl | h8
                · exact absurd hea.symm hne
                · exact ⟨e, List.mem_append_right _
                    (List.mem_cons_of_mem _ h8), hea, heu, hex⟩
        · rintro (h3 | ⟨e, he, hea, heu, hex⟩)
          · injection h3 with h3
            refine ⟨Or.inl ?_, ?_⟩
            · rw [htr]
              exact congrArg some h3
            · omega
          · rcases List.mem_append.mp he with h8 | h8
            · exact ⟨Or.inr ⟨e, by
                rw [hsp]
                exact List.mem_append_left _ h8, hea, heu,
                hex⟩, fun h => hneN.1 e (List.mem_append_left _ h8)
                  (hea.trans h)⟩
            · rcases List.mem_cons.mp h8 with rfl | h8
              · exact absurd hcax hex
              · exact ⟨Or.inr ⟨e, by
                  rw [hsp]
                  exact List.mem_append_right _ (List.mem_cons_of_mem _
                    (List.mem_cons_of_mem _ h8)), hea, heu,
                  hex⟩, fun h => hneN.2 e h8 (hea.trans h)⟩
      · exact remove_chunk_nodup hm.tnodup
      · simp only
        have hszeq : ∀ a ∈ addrs (remove_chunk σ.tree N.addr none σ.pm
            σ.spAlt).1,
            szFn (preX ++ ({ cx with size := cx.size + footer_pad + header_pad + N.size, fsize := cx.size + footer_pad + header_pad + N.size } : Chunk) :: post2) a = szFn σ.chunks a := by
          intro a ha
          rw [remove_chunk_mem hm.tnodup hNin a] at ha
          have hnexa : a ≠ x := fun h => hxnotin (h ▸ ha.1)
          have hneNa : a ≠ N.addr := ha.2
          show szOf (preX ++ ({ cx with size := cx.size + footer_pad + header_pad + N.size, fsize := cx.size + footer_pad + header_pad + N.size } : Chunk) :: post2) a = szOf σ.chunks a
          unfold szOf
          have e1 : findChunk (preX ++ ({ cx with size := cx.size + footer_pad + header_pad + N.size, fsize := cx.size + footer_pad + header_pad + N.size } : Chunk) :: post2) a =
              findChunk (preX ++ post2) a :=
            findChunk_insert_middle (fun h => hnexa (h.symm.trans hcax))
          have e2 : findChunk (preX ++ cx :: N :: post2) a =
              findChunk (preX ++ N :: post2) a :=
            findChunk_insert_middle (fun h => hnexa (h.symm.trans hcax))
          have e3 : findChunk (preX ++ N :: post2) a =
              findChunk (preX ++ post2) a :=
            findChunk_insert_middle (fun h => hneNa h.symm)
          rw [hsp, e1, e2, e3]
        rw [ord_congr hszeq]
        exact remove_chunk_ord hm.tnodup hm.tord
      · exact remove_chunk_pcoh hm.tnodup hm.tpcoh
      · rw [List.chain'_append]
        refine ⟨?_, ?_, ?_⟩
        · apply chain_imp_mem (chain_and hcpreX hnpreX)
          intro c1 h1 c2 h2 hrr
          refine ⟨?_, ?_, ?_⟩
          · intro hc2x
            exact absurd hc2x (hpre_ne c2 h2)
          · intro hc1x
            exact absurd hc1x (hpre_ne c1 h1)
          · intro _
            exact hrr.2.2 (hpre_ne c1 h1)
        · rw [List.chain'_cons']
          refine ⟨?_, ?_⟩
          · intro y hy
            refine ⟨?_, ?_, ?_⟩
            · intro hyx
              exfalso
              cases post2 with
              | nil => exact Option.noConfusion hy
              | cons q0 qt =>
                  have hy3 : some q0 = some y := hy
                  injection hy3 with hy3
                  cases hy3
                  exact hpost_nx y (List.mem_cons_of_mem _
                    (List.mem_cons_self _ _)) hyx
            · intro _
              cases post2 with
              | nil => exact Option.noConfusion hy
              | cons q0 qt =>
                  have hy3 : some q0 = some y := hy
                  injection hy3 with hy3
                  cases hy3
                  have h4 := hnNy y (by rfl)
                  rcases h4.2 hNnex with h8 | h8
                  · rw [hNu2] at h8
                    exact Bool.noConfusion h8
                  · exact h8
            · intro h8
              exact absurd hcax h8
          · apply chain_imp_mem (chain_and hcpost2 hnpost2)
            intro c1 h1 c2 h2 hrr
            refine ⟨?_, ?_, ?_⟩
            · intro hc2x
              exact absurd hc2x (hpost_nx c2 (List.mem_cons_of_mem _ h2))
            · intro hc1x
              exact absurd hc1x (hpost_nx c1 (List.mem_cons_of_mem _ h1))
            · intro _
              exact hrr.2.2 (hpost_nx c1 (List.mem_cons_of_mem _ h1))
        · intro x1 hx1 y hy
          have hy3 : some ({ cx with size := cx.size + footer_pad + header_pad + N.size, fsize := cx.size + footer_pad + header_pad + N.size } : Chunk) = some y := hy
          injection hy3 with hy3
          cases hy3
          have h4 := hnlinkX x1 hx1 cx rfl
          refine ⟨fun _ => h4.1 hcax, ?_, fun _ => Or.inl (h4.1 hcax)⟩
          intro hx1x
          exfalso
          exact hpre_ne x1 (List.mem_of_mem_getLast? hx1) hx1x

theorem freeStage3_eq (σ : AllocState) (x : Nat) :
    freeStage3 σ x =
      { σ with
        chunks := setChunk σ.chunks x (fun c0 => { c0 with inUse := false }),
        tree := (add_chunk (szFn (setChunk σ.chunks x
          (fun c0 => { c0 with inUse := false }))) σ.tree x none σ.pm
          σ.eqAlt).1,
        pm := (add_chunk (szFn (setChunk σ.chunks x
          (fun c0 => { c0 with inUse := false }))) σ.tree x none σ.pm
          σ.eqAlt).2.1,
        eqAlt := (add_chunk (szFn (setChunk σ.chunks x
          (fun c0 => { c0 with inUse := false }))) σ.tree x none σ.pm
          σ.eqAlt).2.2 } := rfl

theorem wf_stage3 {σ : AllocState} {x : Nat} (hm : WFmid σ x)
    (hn2 : σ.chunks.Chain' (mid2Rel x)) : WF (freeStage3 σ x) := by
  obtain ⟨fr, l, r, htr, c0, t0, hcs, ha0, hfc, hbg, hlast⟩ := hm.base
  obtain ⟨cx, hcm, hcax⟩ := hm.hx
  have hnd := chain_addr_nodup hm.chain
  have haddrlb : ∀ c ∈ σ.chunks, c0.addr ≤ c.addr := by
    intro c hc
    rw [hcs] at hc
    rcases List.mem_cons.mp hc with rfl | hcb
    · exact le_rfl
    · have h6 := chain_head_le (hcs ▸ hm.chain) c hcb
      have h7 := endAddr_gt c0
      omega
  have hxnotin : x ∉ addrs σ.tree := by
    intro hmem
    rcases (hm.tmem x).mp hmem with h3 | ⟨e, he, hea, heu, hex⟩
    · rw [htr] at h3
      simp only [rootAddr, Option.some_inj] at h3
      have h6 := haddrlb cx hcm
      rw [header_pad_eq, node_pad_eq] at ha0
      omega
    · exact hex hea
  have hsh : ∃ l3 r3, (add_chunk (szFn (setChunk σ.chunks x
      (fun c0 => { c0 with inUse := false }))) σ.tree x none σ.pm
      σ.eqAlt).1 = HTree.node fr l3 r3 := by
    rw [htr]
    exact add_chunk_shape _ _ _ _ _ _ _
  obtain ⟨l3, r3, hsh⟩ := hsh
  rw [freeStage3_eq]
  constructor
  · intro h
    simp only at h
    rw [hsh] at h
    exact HTree.noConfusion h
  · intro fr9 l9 r9 h
    simp only at h
    rw [hsh] at h
    injection h with h1 _ _
    subst h1
    right
    simp only
    refine ⟨if c0.addr = x then { c0 with inUse := false } else c0,
      setChunk t0 x (fun c0 => { c0 with inUse := false }),
      by rw [hcs]; rfl, by split <;> exact ha0,
      by rw [hfc]; split <;> rfl, hbg, ?_⟩
    intro cl hcl
    rw [getLast?_setChunk] at hcl
    rcases hl : σ.chunks.getLast? with _ | cl0
    · rw [hl] at hcl
      simp at hcl
    · rw [hl] at hcl
      have hcl2 : cl = if cl0.addr = x then { cl0 with inUse := false }
          else cl0 := by
        injection hcl with h9
        exact h9.symm
      subst hcl2
      have hge := hlast cl0 hl
      split <;> exact hge
  · exact chain_chAdj_setChunk (fun c0 => ⟨rfl, rfl⟩) hm.chain
  · intro c2 hc2
    rw [setChunk_eq_map] at hc2
    obtain ⟨c1, hc1, hm1⟩ := List.mem_map.mp hc2
    have hq := hm.fs c1 hc1
    subst hm1
    split <;> exact hq
  · intro c2 hc2
    rw [setChunk_eq_map] at hc2
    obtain ⟨c1, hc1, hm1⟩ := List.mem_map.mp hc2
    have hq := hm.szmul c1 hc1
    subst hm1
    split <;> exact hq
  · intro c2 hc2
    rw [setChunk_eq_map] at hc2
    obtain ⟨c1, hc1, hm1⟩ := List.mem_map.mp hc2
    have hq := hm.szmin c1 hc1
    subst hm1
    split <;> exact hq
  · simp only
    rw [setChunk_eq_map, List.chain'_map]
    apply chain_imp_mem (chain_and hm.chain hn2)
    intro c1 h1 c2 h2 hrr
    by_cases h1x : c1.addr = x
    · by_cases h2x : c2.addr = x
      · exfalso
        have h6 : endAddr c1 = c2.addr := hrr.1
        have h7 := endAddr_gt c1
        rw [h1x, h2x] at *
        omega
      · rw [if_pos h1x, if_neg h2x]
        exact Or.inr (hrr.2.2.1 h1x)
    · by_cases h2x : c2.addr = x
      · rw [if_neg h1x, if_pos h2x]
        exact Or.inl (hrr.2.1 h2x)
      · rw [if_neg h1x, if_neg h2x]
        exact hrr.2.2.2 h1x
  · intro a
    simp only
    rw [add_chunk_mem, hsh, hm.tmem a]
    simp only [rootAddr]
    constructor
    · rintro (rfl | h3 | ⟨e, he, hea, heu, hex⟩)
      · right
        refine ⟨{ cx with inUse := false }, ?_, hcax, rfl⟩
        rw [setChunk_eq_map]
        refine List.mem_map.mpr ⟨cx, hcm, ?_⟩
        rw [if_pos hcax]
      · left
        rw [htr] at h3
        simp only [rootAddr, Option.some_inj] at h3
        exact congrArg some h3
      · right
        refine ⟨e, ?_, hea, heu⟩
        rw [setChunk_eq_map]
        refine List.mem_map.mpr ⟨e, he, ?_⟩
        rw [if_neg hex]
    · rintro (h3 | ⟨e, he, hea, heu⟩)
      · injection h3 with h3
        right
        left
        rw [htr]
        exact congrArg some h3
      · rw [setChunk_eq_map] at he
        obtain ⟨e0, he0, hm0⟩ := List.mem_map.mp he
        by_cases h0x : e0.addr = x
        · left
          rw [← hea, ← hm0, if_pos h0x]
          exact h0x
        · right
          right
          rw [← hm0, if_neg h0x] at hea heu
          exact ⟨e0, he0, hea, heu, h0x⟩
  · simp only
    exact add_chunk_nodup _ _ _ _ _ hxnotin hm.tnodup
  · simp only
    have hpt : ∀ b ∈ addrs σ.tree,
        szFn (setChunk σ.chunks x (fun c0 => { c0 with inUse := false })) b =
          szFn σ.chunks b := by
      intro b hb
      exact szFn_setChunk_pres (g := fun c0 => { c0 with inUse := false })
        (fun c0 => ⟨rfl, rfl⟩) b
    exact add_chunk_ord _ _ _ _ _ ((ord_congr hpt).mpr hm.tord)
  · simp only
    exact add_chunk_pcoh _ _ _ _ _ hxnotin hm.tpcoh

theorem wf_free {σ : AllocState} {ptr : Nat} (hwf : WF σ)
    (hvf : ValidFree σ ptr) : WF (trfreeStep σ ptr) := by
  obtain ⟨cx, hcm, hpt, hcu⟩ := hvf
  have hx0 : ptr - header_pad = cx.addr := by omega
  rw [trfreeStep_stages, hx0]
  have h1 := wfmid_stage1 hwf hcm hcu
  have h2 := wfmid_stage2 h1
  exact wf_stage3 h2.1 h2.2

theorem wf_reach {σ : AllocState} (h : Reach σ) : WF σ := by
  induction h with
  | init b => exact wf_init b
  | alloc n _ ih => exact wf_alloc n ih
  | free ptr _ hv ih => exact wf_free ih hv

/-! ## Root persistence and allocation result lemmas -/

theorem wf_root2 {σ : AllocState} {fr : Nat} {l r : HTree} {q : Nat}
    (hwf : WF σ) (htr : σ.tree = .node fr l r) (hq : 0 < q) :
    ∃ r2, (remove_chunk_by_size (szFn σ.chunks) σ.tree q none σ.pm
      σ.spAlt).2.1 = .node fr l r2 := by
  have hlt : szFn σ.chunks fr < q := by
    rw [wf_szFn_root hwf htr]
    exact hq
  rw [htr, rcbs_lt hlt]
  exact ⟨_, rfl⟩

theorem alloc_root {σ : AllocState} {fr : Nat} {l r : HTree} (n : Nat)
    (hwf : WF σ) (htr : σ.tree = .node fr l r) :
    ∃ l2 r2, (trallocStep σ n).1.tree = .node fr l2 r2 := by
  obtain ⟨r2, hr2⟩ := wf_root2 hwf htr (effSize_pos n)
  rcases hf : (remove_chunk_by_size (szFn σ.chunks) σ.tree (effSize n)
      none σ.pm σ.spAlt).1 with _ | f
  · rw [trallocStep_eq_miss σ n fr l r htr hf]
    exact ⟨l, r, htr⟩
  · rcases hfind : findChunk σ.chunks f with _ | c
    · obtain ⟨c2, _, _, _, _, hfind2⟩ :=
        wf_search_found hwf htr (effSize_pos n) hf
      rw [hfind] at hfind2
      exact absurd hfind2 (by simp)
    · by_cases hcond :
        c.size ≥ effSize n + footer_pad + header_pad + node_pad
      · rw [trallocStep_eq_split σ n fr f l r c htr hf hfind hcond]
        simp only
        rw [hr2]
        exact add_chunk_shape _ _ _ _ _ _ _
      · rw [trallocStep_eq_nosplit σ n fr f l r c htr hf hfind hcond]
        exact ⟨l, r2, hr2⟩

theorem freeStage1_fc (σ : AllocState) (x : Nat) :
    (freeStage1 σ x).1.firstChunk = σ.firstChunk := by
  unfold freeStage1
  split
  · dsimp only
    split
    · rfl
    · split
      · rfl
      · split
        · rfl
        · rfl
  · rfl

theorem freeStage2_fc (σ : AllocState) (x : Nat) :
    (freeStage2 σ x).firstChunk = σ.firstChunk := by
  unfold freeStage2
  dsimp only
  split
  · split
    · rfl
    · split
      · rfl
      · rfl
  · rfl

theorem free_fc (σ : AllocState) (ptr : Nat) :
    (trfreeStep σ ptr).firstChunk = σ.firstChunk := by
  rw [trfreeStep_stages]
  have h3 : ∀ σ2 x1, (freeStage3 σ2 x1).firstChunk = σ2.firstChunk :=
    fun _ _ => rfl
  rw [h3, freeStage2_fc, freeStage1_fc]

theorem free_root {σ : AllocState} {ptr : Nat} {fr : Nat} {l r : HTree}
    (hwf : WF σ) (hvf : ValidFree σ ptr) (htr : σ.tree = .node fr l r) :
    ∃ l2 r2, (trfreeStep σ ptr).tree = .node fr l2 r2 := by
  have hwf2 := wf_free hwf hvf
  obtain ⟨cx, hcm, hpt, hcu⟩ := hvf
  rcases hwf.base fr l r htr with ⟨he, _, _⟩ |
    ⟨c0, t0, hcs, ha0, hfc, _, _⟩
  · rw [he] at hcm
    exact absurd hcm (List.not_mem_nil cx)
  · have hfc2 : (trfreeStep σ ptr).firstChunk = some c0.addr := by
      rw [free_fc]
      exact hfc
    rcases htr2 : (trfreeStep σ ptr).tree with _ | ⟨fr2, l2, r2⟩
    · have h4 := (hwf2.tree_nil htr2).2
      rw [h4] at hfc2
      exact Option.noConfusion hfc2
    · rcases hwf2.base fr2 l2 r2 htr2 with ⟨_, _, hfc3⟩ |
        ⟨c02, t02, _, ha02, hfc3, _, _⟩
      · rw [hfc3] at hfc2
        exact Option.noConfusion hfc2
      · refine ⟨l2, r2, ?_⟩
        congr 1
        rw [hfc3] at hfc2
        injection hfc2 with h9
        rw [header_pad_eq, node_pad_eq] at ha0 ha02
        omega

theorem alloc_returns {σ : AllocState} (n : Nat) (hwf : WF σ) :
    ∃ c ∈ (trallocStep σ n).1.chunks,
      c.addr + header_pad = (trallocStep σ n).2 ∧ effSize n ≤ c.size ∧
      c.inUse = true := by
  rcases htr : σ.tree with _ | ⟨fr, l, r⟩
  · obtain ⟨hc0, hfc⟩ := hwf.tree_nil htr
    rw [trallocStep_eq_fake σ n htr hc0 hfc]
    exact ⟨⟨σ.brk + (header_pad + node_pad), effSize n, effSize n, true⟩,
      List.mem_singleton_self _, rfl, le_rfl, rfl⟩
  · rcases hf : (remove_chunk_by_size (szFn σ.chunks) σ.tree (effSize n)
        none σ.pm σ.spAlt).1 with _ | f
    · rw [trallocStep_eq_miss σ n fr l r htr hf]
      refine ⟨⟨σ.brk, effSize n, effSize n, true⟩, ?_, rfl, le_rfl, rfl⟩
      simp
    · obtain ⟨c, hcm, hca, hcu0, hsz, hfind⟩ :=
        wf_search_found hwf htr (effSize_pos n) hf
      by_cases hcond :
        c.size ≥ effSize n + footer_pad + header_pad + node_pad
      · rw [trallocStep_eq_split σ n fr f l r c htr hf hfind hcond]
        simp only
        obtain ⟨pre, post, hsplit, hpre0, hpost0⟩ := wf_decomp hwf hcm
        have hpre : ∀ e ∈ pre, e.addr ≠ f := fun e he => hca ▸ hpre0 e he
        have hpost : ∀ e ∈ post, e.addr ≠ f := fun e he => hca ▸ hpost0 e he
        have hdne : f + header_pad + effSize n + footer_pad ≠ f := by
          rw [header_pad_eq]
          omega
        have hch1 : replaceChunk σ.chunks f
            [c, ⟨f + header_pad + effSize n + footer_pad,
                 c.size - effSize n - footer_pad - header_pad,
                 c.size - effSize n - footer_pad - header_pad, false⟩] =
            pre ++ c :: (⟨f + header_pad + effSize n + footer_pad,
                 c.size - effSize n - footer_pad - header_pad,
                 c.size - effSize n - footer_pad - header_pad,
                 false⟩ : Chunk) :: post := by
          rw [hsplit, replaceChunk_decomp hpre hca, List.append_assoc]
          rfl
        have hpost2 : ∀ e ∈ (⟨f + header_pad + effSize n + footer_pad,
            c.size - effSize n - footer_pad - header_pad,
            c.size - effSize n - footer_pad - header_pad,
            false⟩ : Chunk) :: post, e.addr ≠ f := by
          intro e he
          rcases List.mem_cons.mp he with rfl | he2
          · exact hdne
          · exact hpost e he2
        have hch2 : setChunk (pre ++ c ::
            (⟨f + header_pad + effSize n + footer_pad,
              c.size - effSize n - footer_pad - header_pad,
              c.size - effSize n - footer_pad - header_pad,
              false⟩ : Chunk) :: post)
            f (fun c0 => { c0 with size := effSize n, fsize := effSize n, inUse := true }) =
            pre ++ ({ c with size := effSize n, fsize := effSize n, inUse := true } : Chunk) ::
            (⟨f + header_pad + effSize n + footer_pad,
              c.size - effSize n - footer_pad - header_pad,
              c.size - effSize n - footer_pad - header_pad,
              false⟩ : Chunk) :: post :=
          setChunk_decomp hpre hca hpost2
        rw [hch1, hch2]
        refine ⟨{ c with size := effSize n, fsize := effSize n, inUse := true },
          List.mem_append_right _ (List.mem_cons_self _ _), ?_, le_rfl, rfl⟩
        show c.addr + header_pad = f + header_pad
        rw [hca]
      · rw [trallocStep_eq_nosplit σ n fr f l r c htr hf hfind hcond]
        simp only
        refine ⟨{ c with inUse := true }, ?_, ?_, hsz, rfl⟩
        · rw [setChunk_eq_map]
          refine List.mem_map.mpr ⟨c, hcm, ?_⟩
          rw [if_pos hca]
        · show c.addr + header_pad = f + header_pad
          rw [hca]

/-! ## Claims C2, C3, C5, C7, C8, C10 -/

/-- C2: after any sequence of `allocate`/`release` calls starting from the
initial state — in particular after every completed `release`, whose
predecessor/successor coalescing restores the property — no two physically
adjacent chunks in the heap region between `first_chunk` and `guard_addr`
are both free. -/
theorem claim_C2 {σ : AllocState} (h : Reach σ) :
    σ.chunks.Chain' nafRel :=
  (wf_reach h).noadj

theorem claim_C2_witness :
    (trfreeStep (trallocStep (initState 0) 64).1
      (trallocStep (initState 0) 64).2).chunks.Chain' nafRel :=
  claim_C2 (Reach.free (trallocStep (initState 0) 64).2
    (Reach.alloc 64 (Reach.init 0))
    ⟨⟨40, 64, 64, true⟩, by decide, by decide, by decide⟩)

/-- C3: after any sequence of `allocate`/`release` calls, every chunk
between `first_chunk` and `guard_addr` stores the same size in its header
and in its footer. -/
theorem claim_C3 {σ : AllocState} (h : Reach σ) :
    ∀ c, c ∈ σ.chunks → c.fsize = c.size :=
  fun c hc => (wf_reach h).fs c hc

theorem claim_C3_witness :
    (⟨40, 64, 64, false⟩ : Chunk).fsize =
      (⟨40, 64, 64, false⟩ : Chunk).size :=
  claim_C3 (Reach.free (trallocStep (initState 0) 64).2
    (Reach.alloc 64 (Reach.init 0))
    ⟨⟨40, 64, 64, true⟩, by decide, by decide, by decide⟩)
    ⟨40, 64, 64, false⟩ (by decide)

/-- C5: in every reachable state the free tree satisfies the
ordering-and-linkage invariant (left subtree sizes ≤ node size ≤ right
subtree sizes, and every non-root node's parent pointer is its structural
parent), and both `add_chunk` and `remove_chunk` — including the
two-children case with the alternately chosen replacement — preserve it. -/
theorem claim_C5 {σ : AllocState} (h : Reach σ) (sz : Nat → Nat) (t : HTree)
    (toAdd x : Nat) (p : Option Nat) (pm : PM) (alt : Bool)
    (hnd : (addrs t).Nodup) (hmem : toAdd ∉ addrs t) (hord : ord sz t)
    (hp : pcoh pm t p) :
    (ord (szFn σ.chunks) σ.tree ∧ pcoh σ.pm σ.tree none) ∧
    (ord sz (add_chunk sz t toAdd p pm alt).1 ∧
      pcoh (add_chunk sz t toAdd p pm alt).2.1
        (add_chunk sz t toAdd p pm alt).1 p) ∧
    (ord sz (remove_chunk t x p pm alt).1 ∧
      pcoh (remove_chunk t x p pm alt).2.1 (remove_chunk t x p pm alt).1
        p) :=
  ⟨⟨(wf_reach h).tord, (wf_reach h).tpcoh⟩,
   ⟨add_chunk_ord _ _ _ _ _ hord, add_chunk_pcoh _ _ _ _ _ hmem hp⟩,
   ⟨remove_chunk_ord hnd hord, remove_chunk_pcoh hnd hp⟩⟩

theorem claim_C5_witness :
    (ord (szFn (trallocStep (initState 0) 64).1.chunks)
        (trallocStep (initState 0) 64).1.tree ∧
      pcoh (trallocStep (initState 0) 64).1.pm
        (trallocStep (initState 0) 64).1.tree none) ∧
    (ord (fun a => a) (add_chunk (fun a => a) (.node 10 .nil .nil) 5 none
        (fun _ => none) false).1 ∧
      pcoh (add_chunk (fun a => a) (.node 10 .nil .nil) 5 none
        (fun _ => none) false).2.1
        (add_chunk (fun a => a) (.node 10 .nil .nil) 5 none
        (fun _ => none) false).1 none) ∧
    (ord (fun a => a) (remove_chunk (.node 10 .nil .nil) 10 none
        (fun _ => none) false).1 ∧
      pcoh (remove_chunk (.node 10 .nil .nil) 10 none
        (fun _ => none) false).2.1
        (remove_chunk (.node 10 .nil .nil) 10 none (fun _ => none)
        false).1 none) :=
  claim_C5 (Reach.alloc 64 (Reach.init 0)) (fun a => a)
    (.node 10 .nil .nil) 5 10 none (fun _ => none) false (by decide)
    (by decide) (by simp [ord, addrs]) (by simp [pcoh])

/-- C7: the sentinel `fake_root` is created exactly once, by the first
`allocate` call (the initial tree is empty and the first call installs a
root at the old break with key 0 and a NULL parent); thereafter it stays
the root of the tree forever: insertion and both public operations keep
the root unchanged, the size-0 sentinel never satisfies a search (the
search result is never the root, and the searched tree keeps the sentinel
as root with its left subtree intact), and the payload handed out is never
the sentinel's payload. -/
theorem claim_C7 {σ : AllocState} (h : Reach σ) {fr : Nat} {l r : HTree}
    (htr : σ.tree = .node fr l r) (n ptr b m : Nat) :
    (initState b).tree = .nil ∧
    (trallocStep (initState b) m).1.tree = .node b .nil .nil ∧
    szFn σ.chunks fr = 0 ∧ σ.pm fr = none ∧
    (remove_chunk_by_size (szFn σ.chunks) σ.tree (effSize n) none σ.pm
      σ.spAlt).1 ≠ some fr ∧
    (∃ r2, (remove_chunk_by_size (szFn σ.chunks) σ.tree (effSize n) none
      σ.pm σ.spAlt).2.1 = .node fr l r2) ∧
    (∃ l2 r2, (trallocStep σ n).1.tree = .node fr l2 r2) ∧
    (ValidFree σ ptr → ∃ l2 r2, (trfreeStep σ ptr).tree = .node fr l2 r2) ∧
    (trallocStep σ n).2 ≠ fr + header_pad := by
  have hwf := wf_reach h
  refine ⟨rfl, ?_, wf_szFn_root hwf htr, ?_, ?_, wf_root2 hwf htr
    (effSize_pos n), alloc_root n hwf htr,
    fun hvf => free_root hwf hvf htr, ?_⟩
  · rw [trallocStep_eq_fake (initState b) m rfl rfl rfl]
    rfl
  · have hp := hwf.tpcoh
    rw [htr] at hp
    exact (show σ.pm fr = none ∧ pcoh σ.pm l (some fr) ∧
      pcoh σ.pm r (some fr) from hp).1
  · intro heq
    have h5 := (rcbs_some_mem heq).2
    rw [wf_szFn_root hwf htr] at h5
    have h6 := effSize_pos n
    omega
  · have hbrk : fr < σ.brk := by
      rcases hwf.base fr l r htr with ⟨_, hb, _⟩ |
        ⟨c0, t0, hcs, ha0, _, hbg, hlast⟩
      · rw [header_pad_eq, node_pad_eq] at hb
        omega
      · obtain ⟨cl, hgl⟩ : ∃ cl, σ.chunks.getLast? = some cl := by
          rcases hgl : σ.chunks.getLast? with _ | cl
          · rw [List.getLast?_eq_none_iff] at hgl
            rw [hgl] at hcs
            exact List.noConfusion hcs
          · exact ⟨cl, rfl⟩
        have h6 := hlast cl hgl
        have h7 : c0.addr ≤ cl.addr := by
          have h9 := List.mem_of_mem_getLast? hgl
          rw [hcs] at h9
          rcases List.mem_cons.mp h9 with rfl | hb2
          · exact le_rfl
          · have h8 := chain_head_le (hcs ▸ hwf.chain) cl hb2
            have h10 := endAddr_gt c0
            omega
        have h8 := endAddr_gt cl
        rw [header_pad_eq, node_pad_eq] at ha0
        unfold endAddr at h6 h8
        omega
    rcases hf : (remove_chunk_by_size (szFn σ.chunks) σ.tree (effSize n)
        none σ.pm σ.spAlt).1 with _ | f
    · rw [trallocStep_eq_miss σ n fr l r htr hf]
      intro heq
      have heq2 : σ.brk + header_pad = fr + header_pad := heq
      omega
    · obtain ⟨c, hcm, hca, _, _, hfind⟩ :=
        wf_search_found hwf htr (effSize_pos n) hf
      have hffr : fr < f := by
        have h9 := wf_addr_lb hwf htr c hcm
        rw [header_pad_eq, node_pad_eq] at h9
        omega
      by_cases hcond :
        c.size ≥ effSize n + footer_pad + header_pad + node_pad
      · rw [trallocStep_eq_split σ n fr f l r c htr hf hfind hcond]
        intro heq
        have heq2 : f + header_pad = fr + header_pad := heq
        omega
      · rw [trallocStep_eq_nosplit σ n fr f l r c htr hf hfind hcond]
        intro heq
        have heq2 : f + header_pad = fr + header_pad := heq
        omega

theorem claim_C7_witness :
    ((initState 5).tree = .nil ∧
    (trallocStep (initState 5) 7).1.tree = .node 5 .nil .nil ∧
    szFn (trallocStep (initState 0) 64).1.chunks 0 = 0 ∧
    (trallocStep (initState 0) 64).1.pm 0 = none ∧
    (remove_chunk_by_size (szFn (trallocStep (initState 0) 64).1.chunks)
      (trallocStep (initState 0) 64).1.tree (effSize 32) none
      (trallocStep (initState 0) 64).1.pm
      (trallocStep (initState 0) 64).1.spAlt).1 ≠ some 0 ∧
    (∃ r2, (remove_chunk_by_size (szFn (trallocStep (initState 0) 64).1.chunks)
      (trallocStep (initState 0) 64).1.tree (effSize 32) none
      (trallocStep (initState 0) 64).1.pm
      (trallocStep (initState 0) 64).1.spAlt).2.1 = .node 0 .nil r2) ∧
    (∃ l2 r2, (trallocStep (trallocStep (initState 0) 64).1 32).1.tree =
      .node 0 l2 r2) ∧
    (ValidFree (trallocStep (initState 0) 64).1 56 →
      ∃ l2 r2, (trfreeStep (trallocStep (initState 0) 64).1 56).tree =
        .node 0 l2 r2) ∧
    (trallocStep (trallocStep (initState 0) 64).1 32).2 ≠
      0 + header_pad) :=
  claim_C7 (Reach.alloc 64 (Reach.init 0))
    (by decide : (trallocStep (initState 0) 64).1.tree =
      HTree.node 0 HTree.nil HTree.nil) 32 56 5 7

/-- The original C8 claim, stated over the `size_t`-faithful rounding: for
every representable requested size, `ceil_size` is at least its input and
the effective chunk size is at least the request. -/
def C8UnboundedClaim : Prop :=
  ∀ n : Nat, n < 2 ^ 64 → n ≤ ceil_size_w n intptrSize ∧ n ≤ effSize_w n

/-- C8 counterexample: at `SIZE_MAX = 2 ^ 64 - 1` the C computation
`input - input % 8 + 8` wraps to 0 in `size_t`, which line 107 then raises
to `node_pad`, so the effective chunk size — and hence the payload — is 24
bytes for an 18-exabyte request.  The claim's "for every requested size"
rounding and payload guarantee fails on the program's machine
arithmetic. -/
theorem claim_C8_counterexample :
    ceil_size_w (2 ^ 64 - 1) intptrSize = 0 ∧
    effSize_w (2 ^ 64 - 1) = node_pad ∧ ¬ C8UnboundedClaim := by
  refine ⟨by decide, by decide, ?_⟩
  intro h
  have h2 := h (2 ^ 64 - 1) (by decide)
  exact absurd h2.1 (by decide)

/-- C8 (amended): the C computes `ceil_size` in `size_t`, so the rounding
guarantee holds only below the wrap point.  For every request of at most
`2 ^ 64 - 8` bytes the machine computation does not wrap and agrees with
the exact rounding; that rounding is the smallest word-size multiple at
least the request; the effective size raises it to the minimum node size
when smaller; and under the heap invariant the chunk handed back has a
payload of at least the requested bytes and is large enough to host the
tree-node fields when later freed.  (Above the bound the computation
wraps: see the counterexample.) -/
theorem claim_C8 (n m : Nat) {σ : AllocState} (h : Reach σ)
    (hn : n ≤ 2 ^ 64 - 8) (hm8 : m % intptrSize = 0) (hnm : n ≤ m) :
    (ceil_size_w n intptrSize = ceil_size n intptrSize ∧
      effSize_w n = effSize n) ∧
    (n ≤ ceil_size n intptrSize ∧
      ceil_size n intptrSize % intptrSize = 0 ∧
      ceil_size n intptrSize ≤ m) ∧
    (n ≤ effSize n ∧ node_pad ≤ effSize n ∧
      (ceil_size n intptrSize < node_pad → effSize n = node_pad) ∧
      (node_pad ≤ ceil_size n intptrSize →
        effSize n = ceil_size n intptrSize)) ∧
    ∃ c ∈ (trallocStep σ n).1.chunks,
      c.addr + header_pad = (trallocStep σ n).2 ∧ n ≤ c.size ∧
      node_pad ≤ c.size ∧ c.inUse = true := by
  have hcw : ceil_size_w n intptrSize = ceil_size n intptrSize := by
    unfold ceil_size_w ceil_size
    by_cases h8 : n % intptrSize ≠ 0
    · rw [if_pos h8, if_pos h8]
      apply Nat.mod_eq_of_lt
      have h9 : n % intptrSize < intptrSize := Nat.mod_lt n (by decide)
      have hi : intptrSize = 8 := rfl
      have hp : (2 : Nat) ^ 64 = 18446744073709551616 := by norm_num
      rw [hi] at h8 h9 ⊢
      rw [hp]
      rw [hp] at hn
      omega
    · rw [if_neg h8, if_neg h8]
  refine ⟨⟨hcw, ?_⟩, ⟨ceil_size_ge n, ceil_size_mod n,
    ceil_size_least n m hm8 hnm⟩,
    ⟨effSize_ge n, effSize_min n, ?_, ?_⟩, ?_⟩
  · unfold effSize_w effSize
    rw [hcw]
  · intro hlt
    simp only [effSize]
    rw [if_pos hlt]
  · intro hge
    simp only [effSize]
    rw [if_neg (by omega)]
  · obtain ⟨c, hcm, hpt, hsz, hcu⟩ := alloc_returns n (wf_reach h)
    refine ⟨c, hcm, hpt, ?_, ?_, hcu⟩
    · have h5 := effSize_ge n
      omega
    · have h5 := effSize_min n
      omega

theorem claim_C8_witness :
    ((ceil_size_w 5 intptrSize = ceil_size 5 intptrSize ∧
      effSize_w 5 = effSize 5) ∧
    (5 ≤ ceil_size 5 intptrSize ∧
      ceil_size 5 intptrSize % intptrSize = 0 ∧
      ceil_size 5 intptrSize ≤ 16) ∧
    (5 ≤ effSize 5 ∧ node_pad ≤ effSize 5 ∧
      (ceil_size 5 intptrSize < node_pad → effSize 5 = node_pad) ∧
      (node_pad ≤ ceil_size 5 intptrSize →
        effSize 5 = ceil_size 5 intptrSize)) ∧
    ∃ c ∈ (trallocStep (initState 3) 5).1.chunks,
      c.addr + header_pad = (trallocStep (initState 3) 5).2 ∧ 5 ≤ c.size ∧
      node_pad ≤ c.size ∧ c.inUse = true) :=
  claim_C8 5 16 (Reach.init 3) (by decide) (by decide) (by decide)

/-- C10: after any sequence of `allocate`/`release` calls, the size stored
in every chunk header between `first_chunk` and `guard_addr` is a multiple
of the machine word size. -/
theorem claim_C10 {σ : AllocState} (h : Reach σ) :
    ∀ c, c ∈ σ.chunks → c.size % intptrSize = 0 :=
  fun c hc => (wf_reach h).szmul c hc

theorem claim_C10_witness :
    (⟨43, 24, 24, true⟩ : Chunk).size % intptrSize = 0 :=
  claim_C10 (Reach.alloc 5 (Reach.init 3)) ⟨43, 24, 24, true⟩ (by decide)

end Tralloc
